import Mathlib

/-!
# ParticleBuffer and the renderer's state stack: a shallow embedding of
`ParticleBuffer.cpp` and `ShapeRenderer.hpp`

Modelling conventions.

* A `float` value is a rational number. In `update` and `update_explosion`, whose float
  results decide which particle is removed and which alpha byte is stored, every
  arithmetic operation is followed by `binary32`, the rounding of IEEE 754 single
  precision (round to nearest, ties to even, subnormal numbers included), each operation
  rounded on its own, in the order of the source. Results stay finite: overflow to an
  infinity and NaN are not modelled. The literals `0.5f`, `0.75f`, `-2.5f`, `-5.0f`,
  `1.0f` and the integer `255` are binary32 values and stand for themselves.
* The spawn functions and `push_circle_ring` compute with the values returned by
  external functions (`length`, `sin`, `cos`, `rnd`); their arithmetic is kept exact.
* `uint` (32 bit colour) is modelled by `Nat`; the only colour arithmetic of the
  source, `(c & 0x00ffffff) | ((uint)alpha << 24)` with `alpha` a byte, stays below `2^32`.
* `int` (`nbr_points`, loop indices) is modelled by `Int`.
* The three fixed-size arrays are lists; every array access is checked and an access
  outside the list is the fault `out_of_bounds` (undefined behaviour in C++).
* Loops that change their own bound carry a fuel argument that counts executions of
  the loop body; running out of it is the fault `out_of_fuel`.
* `ParticlesCapacity` is declared in a header that is not part of the sources at hand;
  it is a parameter of the operations that use it.
* A failing `assert` is the fault `assertion_failed`; an `int` loop counter incremented
  beyond `INT_MAX` is the fault `signed_overflow`; `unsigned` sums are reduced modulo `2^32`.
-/

set_option autoImplicit false

/-- Vector type `v3f` of the linear algebra library, with rational components. -/
structure v3f where
  x : ℚ
  y : ℚ
  z : ℚ
deriving DecidableEq, Repr

namespace v3f

/-- Componentwise sum, `operator+` and `operator+=` of `v3f`. -/
def add (a b : v3f) : v3f := ⟨a.x + b.x, a.y + b.y, a.z + b.z⟩

/-- Product with a scalar on the right, `operator*(v3f, float)`. -/
def scale (a : v3f) (s : ℚ) : v3f := ⟨a.x * s, a.y * s, a.z * s⟩

instance : Add v3f := ⟨add⟩
instance : HMul v3f ℚ v3f := ⟨scale⟩
instance : Inhabited v3f := ⟨⟨0, 0, 0⟩⟩

end v3f

/-- Vertex record `PointType` stored in `points`: a position and a packed RGBA colour. -/
structure PointType where
  p : v3f
  color : Nat
deriving DecidableEq, Repr

instance : Inhabited PointType := ⟨⟨default, 0⟩⟩

/-- Ways in which a run of the embedded code can go wrong. -/
inductive Fault where
  | out_of_bounds
  | out_of_fuel
  | division_by_zero
  | assertion_failed
  | signed_overflow
deriving DecidableEq, Repr

/-- Checked array read `a[i]` with an `int` index. -/
def rd {α : Type} (a : List α) (i : Int) : Except Fault α :=
  if 0 ≤ i then
    match a[i.toNat]? with
    | some x => .ok x
    | none => .error .out_of_bounds
  else .error .out_of_bounds

/-- Checked array write `a[i] = x` with an `int` index. -/
def wr {α : Type} (a : List α) (i : Int) (x : α) : Except Fault (List α) :=
  if 0 ≤ i ∧ i.toNat < a.length then .ok (a.set i.toNat x) else .error .out_of_bounds

/-- Division of two `float` variables; a zero divisor is reported as a fault.
(Divisions by a nonzero literal are written with the plain `/`.) -/
def fdiv (a b : ℚ) : Except Fault ℚ :=
  if b = 0 then .error .division_by_zero else .ok (a / b)

/-- Modelled from the spec: `clamp(x, lo, hi)` of the missing header `interp.h`,
which brings `x` into the bounds `[lo, hi]`. -/
def clamp (x lo hi : ℚ) : ℚ := if x < lo then lo else if hi < x then hi else x

/-- Modelled from the spec: `lerp(a, b, t)` of the missing header `interp.h`,
the linear interpolation `a + (b - a) t`. -/
def lerp (a b t : ℚ) : ℚ := a + (b - a) * t

/-- Integer part of a rational, fraction discarded toward zero: what a C++
conversion from `float` to an integer type keeps. -/
def trunc (x : ℚ) : Int := if 0 ≤ x then ⌊x⌋ else ⌈x⌉

/-- Conversion `(uchar)x` of a `float`: the integer part, reduced modulo 256. (C++ leaves
the conversion undefined when the integer part is outside `0..255`; the model wraps.) -/
def to_uchar (x : ℚ) : Nat := (trunc x % 256).toNat

/-- Integer nearest to a rational; of two nearest integers the even one. -/
def round_even (y : ℚ) : Int :=
  if y - ⌊y⌋ < 1 / 2 then ⌊y⌋
  else if 1 / 2 < y - ⌊y⌋ then ⌊y⌋ + 1
  else if ⌊y⌋ % 2 = 0 then ⌊y⌋ else ⌊y⌋ + 1

/-- Exponent of the spacing of the binary32 values around `x`: 23 below the exponent of
the binade `[2^e, 2^(e+1))` that holds `|x|`, and `-149` throughout the subnormal range. -/
def ulp_exp (x : ℚ) : Int := max (Int.log 2 |x|) (-126) - 23

/-- Rounding of an exact result to a `float`: the multiple of `2 ^ ulp_exp x` nearest to
`x`, a tie going to the even multiple (IEEE 754 binary32, round to nearest even). A
result beyond the largest binary32 value stays finite. -/
def binary32 (x : ℚ) : ℚ := round_even (x / 2 ^ ulp_exp x) * 2 ^ ulp_exp x

/-- Sum `a + b` of two `float` values, rounded. -/
def f32_add (a b : ℚ) : ℚ := binary32 (a + b)

/-- Difference `a - b` of two `float` values, rounded. -/
def f32_sub (a b : ℚ) : ℚ := binary32 (a - b)

/-- Product `a * b` of two `float` values, rounded. -/
def f32_mul (a b : ℚ) : ℚ := binary32 (a * b)

/-- Quotient `a / b` of two `float` values, rounded; used with a nonzero literal divisor. -/
def f32_div (a b : ℚ) : ℚ := binary32 (a / b)

/-- Componentwise sum of two `v3f`, `operator+=` of `update`, each component rounded. -/
def v3f.add32 (a b : v3f) : v3f := ⟨f32_add a.x b.x, f32_add a.y b.y, f32_add a.z b.z⟩

/-- Product of a `v3f` with a `float`, `operator*` of `update`, each component rounded. -/
def v3f.scale32 (a : v3f) (c : ℚ) : v3f := ⟨f32_mul a.x c, f32_mul a.y c, f32_mul a.z c⟩

/-- Functions of the C++ runtime and of missing headers that `push_trail` and
`push_explosion` call: vector length, sine, cosine, the two angle constants and
the random number generator. `rnd k lo hi` is the value returned by the call
`rnd(lo, hi)` when `k` calls have been made before it. -/
structure MathEnv where
  length : v3f → ℚ
  sin : ℚ → ℚ
  cos : ℚ → ℚ
  fTO_RAD : ℚ
  fPI : ℚ
  rnd : Nat → ℚ → ℚ → ℚ

/-- State of a `ParticleBuffer`: the three parallel arrays and the live count. -/
structure ParticleBuffer where
  points : List PointType
  point_vels : List v3f
  point_ages : List ℚ
  nbr_points : Int
deriving DecidableEq, Repr

namespace ParticleBuffer

/-- `ParticleBuffer::push_point`. -/
def push_point (ParticlesCapacity : Nat) (s : ParticleBuffer) (p v : v3f) (color : Nat) :
    Except Fault ParticleBuffer :=
  if s.nbr_points < (ParticlesCapacity : Int) then do
    let points ← wr s.points s.nbr_points ⟨p, color⟩
    let point_vels ← wr s.point_vels s.nbr_points v
    let point_ages ← wr s.point_ages s.nbr_points 0
    pure ⟨points, point_vels, point_ages, s.nbr_points + 1⟩
  else
    pure s

/-- Loop `for (int i = 0; i < nbr_particles; i++)` of `ParticleBuffer::push_trail`;
the first argument is the number of iterations left, `k` counts the calls of `rnd`
made so far. -/
def push_trail_loop (ParticlesCapacity : Nat) (env : MathEnv) (p vn : v3f)
    (theta_spread vel_len : ℚ) (color : Nat) :
    Nat → ParticleBuffer → Nat → Except Fault (ParticleBuffer × Nat)
  | 0, s, k => .ok (s, k)
  | n + 1, s, k =>
    let theta := env.rnd k (-theta_spread) theta_spread
    let sin_theta := env.sin theta
    let cos_theta := env.cos theta
    let pvn : v3f :=
      ⟨vn.x * cos_theta - vn.y * sin_theta, vn.x * sin_theta + vn.y * cos_theta, 0⟩
    let speed := env.rnd (k + 1) 0 vel_len
    match push_point ParticlesCapacity s p (pvn * speed) color with
    | .ok s1 => push_trail_loop ParticlesCapacity env p vn theta_spread vel_len color n s1 (k + 2)
    | .error e => .error e

/-- `ParticleBuffer::push_trail`; `k` counts the calls of `rnd` made before the call,
and the count after it is returned with the state. -/
def push_trail (ParticlesCapacity : Nat) (env : MathEnv) (k : Nat) (s : ParticleBuffer)
    (p v : v3f) (nbr_particles : Int) (color : Nat) : Except Fault (ParticleBuffer × Nat) := do
  let vel_len := env.length v
  let vel_max : ℚ := 10
  let theta_min : ℚ := 0
  let theta_max : ℚ := 20 * env.fTO_RAD
  let vel_factor := clamp (vel_len / vel_max) 0 1
  let theta_spread := lerp theta_max theta_min vel_factor
  let vn : v3f ←
    if vel_len < 1 / 1000 then pure ⟨1, 0, 0⟩
    else do
      let vx ← fdiv v.x vel_len
      let vy ← fdiv v.y vel_len
      pure ⟨vx, vy, 0⟩
  push_trail_loop ParticlesCapacity env p vn theta_spread vel_len color nbr_particles.toNat s k

/-- Loop `for (int i = 0; i < nbr_particle; i++)` of `ParticleBuffer::push_explosion`. -/
def push_explosion_loop (ParticlesCapacity : Nat) (env : MathEnv) (p vn : v3f)
    (theta_spread : ℚ) (color : Nat) :
    Nat → ParticleBuffer → Nat → Except Fault (ParticleBuffer × Nat)
  | 0, s, k => .ok (s, k)
  | n + 1, s, k =>
    let theta := env.rnd k (-theta_spread) theta_spread
    let sin_theta := env.sin theta
    let cos_theta := env.cos theta
    let pvn : v3f :=
      ⟨vn.x * cos_theta - vn.y * sin_theta, vn.x * sin_theta + vn.y * cos_theta, 0⟩
    let speed := env.rnd (k + 1) 1 12
    let prnd : v3f :=
      ⟨p.x + env.rnd (k + 2) (-1 / 10) (1 / 10), p.y + env.rnd (k + 3) (-1 / 10) (1 / 10), p.z⟩
    match push_point ParticlesCapacity s prnd (pvn * speed) color with
    | .ok s1 => push_explosion_loop ParticlesCapacity env p vn theta_spread color n s1 (k + 4)
    | .error e => .error e

/-- `ParticleBuffer::push_explosion`. -/
def push_explosion (ParticlesCapacity : Nat) (env : MathEnv) (k : Nat) (s : ParticleBuffer)
    (p v : v3f) (nbr_particle : Int) (color : Nat) : Except Fault (ParticleBuffer × Nat) := do
  let vel_len := env.length v
  let vel_max : ℚ := 5
  let theta_min : ℚ := 20 * env.fTO_RAD
  let theta_max : ℚ := env.fPI
  let vel_factor := clamp (vel_len / vel_max) 0 1
  let theta_spread := lerp theta_max theta_min vel_factor
  let vn : v3f ←
    if vel_len < 1 / 1000 then pure ⟨1, 0, 0⟩
    else do
      let vx ← fdiv v.x vel_len
      let vy ← fdiv v.y vel_len
      pure ⟨vx, vy, 0⟩
  push_explosion_loop ParticlesCapacity env p vn theta_spread color nbr_particle.toNat s k

/-- `ParticleBuffer::size`. -/
def size (s : ParticleBuffer) : Int := s.nbr_points

/-- `ParticleBuffer::capacity`. -/
def capacity (ParticlesCapacity : Nat) : Int := ParticlesCapacity

/-- Expiry branch shared by `update` and `update_explosion`: slot `i` receives the
last live slot in all three arrays, then `--nbr_points; --i`. The new value of `i`
is returned with the state. -/
def swap_remove (s : ParticleBuffer) (i : Int) : Except Fault (ParticleBuffer × Int) := do
  let pt ← rd s.points (s.nbr_points - 1)
  let points ← wr s.points i pt
  let vel ← rd s.point_vels (s.nbr_points - 1)
  let point_vels ← wr s.point_vels i vel
  let age ← rd s.point_ages (s.nbr_points - 1)
  let point_ages ← wr s.point_ages i age
  pure (⟨points, point_vels, point_ages, s.nbr_points - 1⟩, i - 1)

/-- The `float` value `(1.0f - age / max_age) * 255` of the fade branch: the quotient,
the difference and the product are each rounded to binary32. -/
def fade_value (max_age age : ℚ) : ℚ := f32_mul (f32_sub 1 (f32_div age max_age)) 255

/-- The byte `(uchar)((1.0f - age / max_age) * 255)` computed by the fade branch: the
conversion keeps the integer part of the `float` value. -/
def fade_alpha (max_age age : ℚ) : Nat := to_uchar (fade_value max_age age)

/-- Fade branch shared by `update` and `update_explosion`:
`alpha = (uchar)((1.0f - point_ages[i] / max_age) * 255)` replaces the top byte of
the colour of slot `i`. -/
def fade (max_age : ℚ) (s : ParticleBuffer) (i : Int) : Except Fault ParticleBuffer := do
  let age ← rd s.point_ages i
  let alpha := fade_alpha max_age age
  let pt ← rd s.points i
  let points ← wr s.points i ⟨pt.p, (pt.color &&& 0x00ffffff) ||| (alpha <<< 24)⟩
  pure ⟨points, s.point_vels, s.point_ages, s.nbr_points⟩

/-- Body of the loop of `ParticleBuffer::update`, up to and including a possible `--i`. -/
def update_body (dt : ℚ) (s : ParticleBuffer) (i : Int) :
    Except Fault (ParticleBuffer × Int) := do
  let max_age : ℚ := 1 / 2
  -- point_vels[i] += (point_vels[i] * -2.5f * dt);
  let v ← rd s.point_vels i
  let point_vels ← wr s.point_vels i (v3f.add32 v (v3f.scale32 (v3f.scale32 v (-5 / 2)) dt))
  -- points[i].p += (point_vels[i] * dt);
  let v ← rd point_vels i
  let pt ← rd s.points i
  let points ← wr s.points i ⟨v3f.add32 pt.p (v3f.scale32 v dt), pt.color⟩
  -- points[i].p.x = clamp(points[i].p.x, -5.0f, 10.0f);
  let pt ← rd points i
  let points ← wr points i ⟨⟨clamp pt.p.x (-5) 10, pt.p.y, pt.p.z⟩, pt.color⟩
  -- points[i].p.y = clamp(points[i].p.y, -5.0f, 5.0f);
  let pt ← rd points i
  let points ← wr points i ⟨⟨pt.p.x, clamp pt.p.y (-5) 5, pt.p.z⟩, pt.color⟩
  -- point_ages[i] += dt;
  let age ← rd s.point_ages i
  let point_ages ← wr s.point_ages i (f32_add age dt)
  let s1 : ParticleBuffer := ⟨points, point_vels, point_ages, s.nbr_points⟩
  let age ← rd s1.point_ages i
  if age > max_age then
    swap_remove s1 i
  else do
    let s2 ← fade max_age s1 i
    pure (s2, i)

/-- Loop `for (int i = ...; i < nbr_points; i++)` of `ParticleBuffer::update`, entered
with the given value of `i`; the first argument bounds the executions of the body. -/
def update_loop (dt : ℚ) : Nat → ParticleBuffer → Int → Except Fault ParticleBuffer
  | 0, s, i => if i < s.nbr_points then .error .out_of_fuel else .ok s
  | fuel + 1, s, i =>
    if i < s.nbr_points then
      match update_body dt s i with
      | .ok (s1, i1) => update_loop dt fuel s1 (i1 + 1)
      | .error e => .error e
    else .ok s

/-- `ParticleBuffer::update`. -/
def update (fuel : Nat) (dt : ℚ) (s : ParticleBuffer) : Except Fault ParticleBuffer :=
  update_loop dt fuel s 0

/-- Body of the loop of `ParticleBuffer::update_explosion`. -/
def update_explosion_body (dt : ℚ) (s : ParticleBuffer) (i : Int) :
    Except Fault (ParticleBuffer × Int) := do
  let max_age : ℚ := 3 / 4
  -- point_vels[i] += (point_vels[i] * -5.0f * dt);
  let v ← rd s.point_vels i
  let point_vels ← wr s.point_vels i (v3f.add32 v (v3f.scale32 (v3f.scale32 v (-5)) dt))
  -- points[i].p += (point_vels[i] * dt);
  let v ← rd point_vels i
  let pt ← rd s.points i
  let points ← wr s.points i ⟨v3f.add32 pt.p (v3f.scale32 v dt), pt.color⟩
  -- point_ages[i] += dt;
  let age ← rd s.point_ages i
  let point_ages ← wr s.point_ages i (f32_add age dt)
  let s1 : ParticleBuffer := ⟨points, point_vels, point_ages, s.nbr_points⟩
  let age ← rd s1.point_ages i
  if age > max_age then
    swap_remove s1 i
  else do
    let s2 ← fade max_age s1 i
    pure (s2, i)

/-- Loop of `ParticleBuffer::update_explosion`. -/
def update_explosion_loop (dt : ℚ) : Nat → ParticleBuffer → Int → Except Fault ParticleBuffer
  | 0, s, i => if i < s.nbr_points then .error .out_of_fuel else .ok s
  | fuel + 1, s, i =>
    if i < s.nbr_points then
      match update_explosion_body dt s i with
      | .ok (s1, i1) => update_explosion_loop dt fuel s1 (i1 + 1)
      | .error e => .error e
    else .ok s

/-- `ParticleBuffer::update_explosion`. -/
def update_explosion (fuel : Nat) (dt : ℚ) (s : ParticleBuffer) :
    Except Fault ParticleBuffer :=
  update_explosion_loop dt fuel s 0

end ParticleBuffer

/-! ## Views of the state and auxiliary definitions -/

/-- One particle: the values that the three parallel arrays hold for one slot. -/
structure Particle where
  p : v3f
  v : v3f
  age : ℚ
  color : Nat
deriving DecidableEq, Repr

namespace ParticleBuffer

/-- The particle record stored at index `j` of the three parallel arrays. -/
def slot (s : ParticleBuffer) (j : Nat) : Particle :=
  ⟨(s.points.getD j default).p, s.point_vels.getD j default, s.point_ages.getD j 0,
    (s.points.getD j default).color⟩

/-- The live particles, slots `0 .. nbr_points - 1`, in index order. -/
def live (s : ParticleBuffer) : List Particle :=
  (List.range s.nbr_points.toNat).map (slot s)

/-- Well-formed buffer of capacity `N`: each array has `N` elements and
`0 ≤ nbr_points ≤ N`. -/
def WF (N : Nat) (s : ParticleBuffer) : Prop :=
  s.points.length = N ∧ s.point_vels.length = N ∧ s.point_ages.length = N ∧
    0 ≤ s.nbr_points ∧ s.nbr_points ≤ (N : Int)

instance (N : Nat) (s : ParticleBuffer) : Decidable (WF N s) := by
  unfold WF; infer_instance

/-- A sequence of `push_point` calls, one per element of the argument list. -/
def push_point_seq (ParticlesCapacity : Nat) :
    List (v3f × v3f × Nat) → ParticleBuffer → Except Fault ParticleBuffer
  | [], s => .ok s
  | (p, v, color) :: rest, s =>
    match push_point ParticlesCapacity s p v color with
    | .ok s1 => push_point_seq ParticlesCapacity rest s1
    | .error e => .error e

/-- Loop scheme common to `update_loop` and `update_explosion_loop`, over an arbitrary body. -/
def age_loop (body : ParticleBuffer → Int → Except Fault (ParticleBuffer × Int)) :
    Nat → ParticleBuffer → Int → Except Fault ParticleBuffer
  | 0, s, i => if i < s.nbr_points then .error .out_of_fuel else .ok s
  | fuel + 1, s, i =>
    if i < s.nbr_points then
      match body s i with
      | .ok (s1, i1) => age_loop body fuel s1 (i1 + 1)
      | .error e => .error e
    else .ok s

/-- New colour of a fading particle, the expression
`(color & 0x00ffffff) | ((uint)alpha << 24)` of the fade branch. -/
def fade_color (max_age age : ℚ) (color : Nat) : Nat :=
  (color &&& 0x00ffffff) ||| (fade_alpha max_age age <<< 24)

/-- Net effect of the assignments of one pass of the body of `update` on a particle
that does not expire. -/
def update_step (dt : ℚ) (r : Particle) : Particle :=
  let v1 : v3f := v3f.add32 r.v (v3f.scale32 (v3f.scale32 r.v (-5 / 2)) dt)
  let p1 : v3f := v3f.add32 r.p (v3f.scale32 v1 dt)
  ⟨⟨clamp p1.x (-5) 10, clamp p1.y (-5) 5, p1.z⟩, v1, f32_add r.age dt,
    fade_color (1 / 2) (f32_add r.age dt) r.color⟩

/-- Net effect of the assignments of one pass of the body of `update_explosion` on a
particle that does not expire. -/
def update_explosion_step (dt : ℚ) (r : Particle) : Particle :=
  let v1 : v3f := v3f.add32 r.v (v3f.scale32 (v3f.scale32 r.v (-5)) dt)
  ⟨v3f.add32 r.p (v3f.scale32 v1 dt), v1, f32_add r.age dt,
    fade_color (3 / 4) (f32_add r.age dt) r.color⟩

/-- State after the five assignments that open the body of `update` at a slot `k`
inside the arrays (damping, integration, the two clamps, ageing). -/
def update_advance (dt : ℚ) (s : ParticleBuffer) (k : Nat) : ParticleBuffer :=
  let r := update_step dt (slot s k)
  ⟨((s.points.set k ⟨v3f.add32 (slot s k).p (v3f.scale32 r.v dt), (slot s k).color⟩).set k
      ⟨⟨r.p.x, (v3f.add32 (slot s k).p (v3f.scale32 r.v dt)).y, r.p.z⟩, (slot s k).color⟩).set k
      ⟨r.p, (slot s k).color⟩,
    s.point_vels.set k r.v, s.point_ages.set k r.age, s.nbr_points⟩

/-- State after the three assignments that open the body of `update_explosion` at a
slot `k` inside the arrays (damping, integration, ageing). -/
def update_explosion_advance (dt : ℚ) (s : ParticleBuffer) (k : Nat) : ParticleBuffer :=
  let r := update_explosion_step dt (slot s k)
  ⟨s.points.set k ⟨r.p, (slot s k).color⟩, s.point_vels.set k r.v,
    s.point_ages.set k r.age, s.nbr_points⟩

/-- Contract of one pass of a loop body at a live slot `k` of a buffer with `m + 1`
live particles: either the particle expires (its age plus `dt`, rounded, exceeds `max_age`) and
the last live slot `m` is moved into slot `k`, with the returned index `k - 1`; or it
stays, slot `k` is replaced by `step` of its record and the returned index is `k`. -/
def BodySpec (N : Nat) (body : ParticleBuffer → Int → Except Fault (ParticleBuffer × Int))
    (dt max_age : ℚ) (step : Particle → Particle) : Prop :=
  ∀ (s : ParticleBuffer) (k m : Nat), WF N s → s.nbr_points = (m : Int) + 1 → k ≤ m →
    ∃ s1, WF N s1 ∧
      if max_age < f32_add (slot s k).age dt then
        body s (k : Int) = .ok (s1, (k : Int) - 1) ∧ s1.nbr_points = (m : Int) ∧
          ∀ j, j < m → slot s1 j = if j = k then slot s m else slot s j
      else
        body s (k : Int) = .ok (s1, (k : Int)) ∧ s1.nbr_points = (m : Int) + 1 ∧
          ∀ j, slot s1 j = if j = k then step (slot s k) else slot s j

/-- Single forward compaction pass over a list of records: the records whose age
plus `dt`, rounded to binary32, does not exceed `max_age` are kept, in order, each
replaced by its `step`. -/
def compaction_pass (dt max_age : ℚ) (step : Particle → Particle)
    (rs : List Particle) : List Particle :=
  (rs.filter (fun r => decide (f32_add r.age dt ≤ max_age))).map step

/-- Buffer of capacity 2 with no live particle. -/
def demo_empty2 : ParticleBuffer :=
  ⟨[default, default], [default, default], [0, 0], 0⟩

end ParticleBuffer

/-- Modelled from the spec: the colour constant `Color4u::White`, defined in a source
file that is not at hand; white with full alpha, all four bytes `0xff`. -/
def White : Nat := 0xffffffff

namespace ParticleBuffer

/-- The calls `update(dt_1); ...; update(dt_m)` in order, each with the same fuel. -/
def update_seq (fuel : Nat) : List ℚ → ParticleBuffer → Except Fault ParticleBuffer
  | [], s => .ok s
  | dt :: rest, s =>
    match update fuel dt s with
    | .ok s1 => update_seq fuel rest s1
    | .error e => .error e

/-- Clamp of a position into the bounds of `update`: `x` into `[-5, 10]`, `y` into
`[-5, 5]`, `z` untouched. -/
def clamp_xy (p : v3f) : v3f := ⟨clamp p.x (-5) 10, clamp p.y (-5) 5, p.z⟩

/-- The per-particle step of `update` as the specification words it, in exact
arithmetic: velocity damped by the factor `1 - 2.5 dt`, position advanced by the damped
velocity times `dt` and clamped, age advanced by `dt`, alpha recomputed from the new age. -/
def spec_step (dt : ℚ) (r : Particle) : Particle :=
  ⟨clamp_xy (r.p + r.v * (1 - 5 / 2 * dt) * dt), r.v * (1 - 5 / 2 * dt), r.age + dt,
    fade_color (1 / 2) (r.age + dt) r.color⟩

/-- The compaction pass as the specification words it, in exact arithmetic: the records
with `age + dt ≤ 0.5` are kept, each replaced by its `spec_step`. -/
def spec_pass (dt : ℚ) (rs : List Particle) : List Particle :=
  (rs.filter (fun r => decide (r.age + dt ≤ 1 / 2))).map (spec_step dt)

/-- Buffer of capacity 2 holding one live particle of age 0 at the origin, at rest,
coloured `White`. -/
def demo_one : ParticleBuffer :=
  ⟨[⟨⟨0, 0, 0⟩, White⟩, default], [⟨0, 0, 0⟩, default], [0, 0], 1⟩

/-- Sample environment for the external functions: rotation by the angle whose sine is
3/5 and cosine 4/5, length of the vector `(3, 4, 0)`, and a generator that returns the
lower bound of the requested range. -/
def demo_env : MathEnv :=
  ⟨fun v => if v = ⟨3, 4, 0⟩ then 5 else 0, fun _ => 3 / 5, fun _ => 4 / 5, 1 / 57, 22 / 7,
    fun _ lo _ => lo⟩

/-- Buffer of capacity 3 holding three live particles of ages 0, 3/8 and 1/8. -/
def demo_three : ParticleBuffer :=
  ⟨[⟨⟨0, 0, 0⟩, 1⟩, ⟨⟨1, 0, 0⟩, 2⟩, ⟨⟨2, 0, 0⟩, 3⟩],
    [⟨1, 0, 0⟩, ⟨0, 1, 0⟩, ⟨0, 0, 1⟩], [0, 3 / 8, 1 / 8], 3⟩

/-- Buffer of capacity 2 holding one live particle of age 1/2 at the origin, at rest,
coloured `White`. -/
def demo_half : ParticleBuffer :=
  ⟨[⟨⟨0, 0, 0⟩, White⟩, default], [⟨0, 0, 0⟩, default], [1 / 2, 0], 1⟩

/-- The value that a `float` accumulator holds after the steps of the list have been
added to it one by one, starting from 0: the age that `update` gives to a particle of
age 0 that stays alive through the calls. -/
def f32_sum (dts : List ℚ) : ℚ := dts.foldl f32_add 0

end ParticleBuffer

/-! ## StateStack (`ShapeRenderer.hpp`)

The class template is embedded at its one instantiation,
`StateStack<DepthTest, BackfaceCull, m4f, Color4u>`. A `std::stack` is a list whose head
is the top. A failing `assert` is the fault `assertion_failed`. -/

/-- `enum class DepthTest : bool`. -/
inductive DepthTest where
  | True
  | False
deriving DecidableEq, Repr

/-- `enum class BackfaceCull : bool`. -/
inductive BackfaceCull where
  | True
  | False
deriving DecidableEq, Repr

/-- Vector type `v4f` of the linear algebra library. -/
structure v4f where
  x : ℚ
  y : ℚ
  z : ℚ
  w : ℚ
deriving DecidableEq, Repr

/-- Matrix type `m4f` of the linear algebra library (header `mat.h`, not at hand),
held as its four columns. -/
structure m4f where
  col0 : v4f
  col1 : v4f
  col2 : v4f
  col3 : v4f
deriving DecidableEq, Repr

/-- `struct Color4u`: a packed RGBA colour. -/
structure Color4u where
  color : Nat
deriving DecidableEq, Repr

/-- The four type arguments of the instantiation, as tags. -/
inductive Attr where
  | depth_test
  | cull_face
  | transform
  | color
deriving DecidableEq, Repr

/-- The C++ type that a tag stands for. -/
def Attr.type : Attr → Type
  | .depth_test => DepthTest
  | .cull_face => BackfaceCull
  | .transform => m4f
  | .color => Color4u

/-- The member `std::tuple<std::stack<Types>...> stacks`, one stack per type. -/
structure StateStack where
  depth_test : List DepthTest
  cull_face : List BackfaceCull
  transform : List m4f
  color : List Color4u
deriving DecidableEq, Repr

namespace StateStack

/-- A `StateStack` right after construction: the class declares no constructor, so
every `std::stack` of the tuple is default-constructed, that is, empty. -/
def fresh : StateStack := ⟨[], [], [], []⟩

/-- `StateStack::getStack<T>`. -/
def getStack (st : StateStack) : (a : Attr) → List a.type
  | .depth_test => st.depth_test
  | .cull_face => st.cull_face
  | .transform => st.transform
  | .color => st.color

/-- Assignment through the reference returned by `getStack<T>`. -/
def setStack (st : StateStack) : (a : Attr) → List a.type → StateStack
  | .depth_test, l => ⟨l, st.cull_face, st.transform, st.color⟩
  | .cull_face, l => ⟨st.depth_test, l, st.transform, st.color⟩
  | .transform, l => ⟨st.depth_test, st.cull_face, l, st.color⟩
  | .color, l => ⟨st.depth_test, st.cull_face, st.transform, l⟩

/-- `StateStack::empty<T>`. -/
def empty (st : StateStack) (a : Attr) : Bool := (getStack st a).isEmpty

/-- `StateStack::push_impl<T>`. -/
def push_impl (st : StateStack) (a : Attr) (value : a.type) : StateStack :=
  setStack st a (value :: getStack st a)

/-- `StateStack::pop_impl<T>`: `assert(!empty<T>()); pop; assert(!empty<T>())`. -/
def pop_impl (st : StateStack) (a : Attr) : Except Fault StateStack :=
  if empty st a then .error .assertion_failed
  else
    let st1 := setStack st a (getStack st a).tail
    if empty st1 a then .error .assertion_failed else .ok st1

/-- `StateStack::top_impl<T>`: `assert(!empty<T>()); return top`. -/
def top_impl (st : StateStack) (a : Attr) : Except Fault a.type :=
  match getStack st a with
  | [] => .error .assertion_failed
  | x :: _ => .ok x

/-- `StateStack::push(args...)`: the fold `(push_impl(args), ...)`, left to right; each
argument carries the tag of its own type. -/
def push (st : StateStack) : List (Σ a : Attr, a.type) → StateStack
  | [] => st
  | ⟨a, value⟩ :: rest => push (push_impl st a value) rest

/-- `StateStack::pop<Args...>()`: the fold `(pop_impl<Args>(), ...)`, left to right. -/
def pop (st : StateStack) : List Attr → Except Fault StateStack
  | [] => .ok st
  | a :: rest =>
    match pop_impl st a with
    | .ok st1 => pop st1 rest
    | .error e => .error e

/-- `StateStack::top<T>()`. -/
def top (st : StateStack) (a : Attr) : Except Fault a.type := top_impl st a

end StateStack

namespace StateStack

/-- The values of type `a` among the arguments of a `push`, in argument order. -/
def values_of (a : Attr) : List (Σ b : Attr, b.type) → List a.type
  | [] => []
  | ⟨b, value⟩ :: rest =>
    if h : b = a then (h ▸ value) :: values_of a rest else values_of a rest

/-- One call on the stack of a single type `a`: `push(x)` with `x` of that type, or
`pop<T>()`. -/
inductive ScopedOp (a : Attr) where
  | push (x : a.type)
  | pop

/-- A sequence of `push(x)` and `pop<T>()` calls on one type, run in order. -/
def run_scoped (a : Attr) : List (ScopedOp a) → StateStack → Except Fault StateStack
  | [], st => .ok st
  | .push x :: rest, st => run_scoped a rest (push st [⟨a, x⟩])
  | .pop :: rest, st =>
    match pop st [a] with
    | .ok st1 => run_scoped a rest st1
    | .error e => .error e

/-- Nesting depth reached by a sequence of calls entered at depth `d`; `none` when some
`pop` has no earlier unmatched `push` of the sequence. -/
def nesting (a : Attr) : Nat → List (ScopedOp a) → Option Nat
  | d, [] => some d
  | d, .push _ :: rest => nesting a (d + 1) rest
  | 0, .pop :: _ => none
  | d + 1, .pop :: rest => nesting a d rest

/-- Properly nested sequence of matched `push`/`pop` pairs: every `pop` closes an earlier
`push` of the sequence and no `push` is left open. -/
def properly_nested (a : Attr) (ops : List (ScopedOp a)) : Bool :=
  nesting a 0 ops == some 0

/-- Number of `push` calls (that is, of matched pairs) in a sequence. -/
def pairs (a : Attr) : List (ScopedOp a) → Nat
  | [] => 0
  | .push _ :: rest => pairs a rest + 1
  | .pop :: rest => pairs a rest

end StateStack

/-- The identity matrix. -/
def m4f_identity : m4f := ⟨⟨1, 0, 0, 0⟩, ⟨0, 1, 0, 0⟩, ⟨0, 0, 1, 0⟩, ⟨0, 0, 0, 1⟩⟩

/-- Modelled from the spec: the default entries that the renderer's initialisation
(`ImPrimitiveRenderer::init`, defined in a source file that is not at hand) pushes:
depth test enabled, culling enabled, identity transform, white with full alpha. -/
def default_states : List (Σ a : Attr, a.type) :=
  [⟨.depth_test, DepthTest.True⟩, ⟨.cull_face, BackfaceCull.True⟩,
    ⟨.transform, m4f_identity⟩, ⟨.color, (⟨White⟩ : Color4u)⟩]

/-- State stack with the default entry and one more entry on every stack. -/
def demo_stack : StateStack :=
  ⟨[DepthTest.False, DepthTest.True], [BackfaceCull.False, BackfaceCull.True],
    [m4f_identity, m4f_identity], [⟨7⟩, ⟨White⟩]⟩

/-! ## Draw-call keys and the renderer state (`ShapeRenderer.hpp`)

`GLenum` and `unsigned` are 32 bit and modelled by `Nat`, with `% 2^32` written where the
source computes with them; `std::size_t` hash values are `Nat`. The functions
`hash_combine` (header `hash_combine.h`) and `std::hash<GLenum>` are not at hand and are
parameters of the hash functions. A `std::unordered_map` is modelled by its lookup
function, from keys to optional values, compared with the key type's `operator ==`. -/

/-- The OpenGL constant `GL_LINES`. -/
def GL_LINES : Nat := 1

/-- `struct LineDrawcall`. -/
structure LineDrawcall where
  topology : Nat
  depth_test : DepthTest
deriving DecidableEq, Repr

/-- `LineDrawcall::operator ==`. -/
def LineDrawcall.eq (a dc : LineDrawcall) : Bool :=
  a.topology == dc.topology && a.depth_test == dc.depth_test

/-- `LineDrawcallHashFunction::operator ()`. -/
def LineDrawcallHashFunction (hash_combine : Nat → DepthTest → Nat) (ldc : LineDrawcall) : Nat :=
  hash_combine ldc.topology ldc.depth_test

/-- `struct PolygonDrawcall`. -/
structure PolygonDrawcall where
  topology : Nat
  depth_test : DepthTest
  cull_face : BackfaceCull
deriving DecidableEq, Repr

/-- `PolygonDrawcall::operator ==`. -/
def PolygonDrawcall.eq (a dc : PolygonDrawcall) : Bool :=
  a.topology == dc.topology && a.depth_test == dc.depth_test && a.cull_face == dc.cull_face

/-- `PolygonDrawcallHashfunction::operator ()`. -/
def PolygonDrawcallHashfunction (hash_combine : Nat → DepthTest → Nat)
    (pdc : PolygonDrawcall) : Nat :=
  hash_combine pdc.topology pdc.depth_test

/-- `struct PointDrawcall`. -/
structure PointDrawcall where
  size : Nat
  depth_test : DepthTest
deriving DecidableEq, Repr

/-- `PointDrawcall::operator ==`. -/
def PointDrawcall.eq (a pdc : PointDrawcall) : Bool :=
  a.depth_test == pdc.depth_test && a.size == pdc.size

/-- `PointDrawcallHashFunction::operator ()`. -/
def PointDrawcallHashFunction (std_hash : Nat → Nat) (pdc : PointDrawcall) : Nat :=
  std_hash pdc.size

/-- `struct LineVertex`. -/
structure LineVertex where
  p : v3f
  color : Nat
deriving DecidableEq, Repr

/-- `struct PolyVertex`. -/
structure PolyVertex where
  p : v3f
  normal : v3f
  color : Nat
deriving DecidableEq, Repr

/-- `struct IndexRange`. -/
structure IndexRange where
  start : Int
  size : Int
  ofs : Int
deriving DecidableEq, Repr

/-- Product of a matrix and a vector, `operator*(m4f, v4f)` of the linear algebra library. -/
def m4f.mulVec (m : m4f) (v : v4f) : v4f :=
  ⟨m.col0.x * v.x + m.col1.x * v.y + m.col2.x * v.z + m.col3.x * v.w,
    m.col0.y * v.x + m.col1.y * v.y + m.col2.y * v.z + m.col3.y * v.w,
    m.col0.z * v.x + m.col1.z * v.y + m.col2.z * v.z + m.col3.z * v.w,
    m.col0.w * v.x + m.col1.w * v.y + m.col2.w * v.z + m.col3.w * v.w⟩

/-- The first three components, `xyz(v4f)` of the linear algebra library. -/
def xyz (v : v4f) : v3f := ⟨v.x, v.y, v.z⟩

/-- The geometry tables and the state stack of `class ImPrimitiveRenderer` (the OpenGL
handles, shaders and unit meshes are left out). -/
structure ImPrimitiveRenderer where
  line_vertices : List LineVertex
  line_hash : LineDrawcall → Option (List Nat)
  polygon_vertices : List PolyVertex
  polygon_indices : List Nat
  polygon_hash : List (PolygonDrawcall × IndexRange)
  point_hash : PointDrawcall → Option (List PointType)
  state_stack : StateStack

namespace ImPrimitiveRenderer

/-- `ImPrimitiveRenderer::push_states`. -/
def push_states (r : ImPrimitiveRenderer) (args : List (Σ a : Attr, a.type)) :
    ImPrimitiveRenderer :=
  ⟨r.line_vertices, r.line_hash, r.polygon_vertices, r.polygon_indices, r.polygon_hash,
    r.point_hash, r.state_stack.push args⟩

/-- `ImPrimitiveRenderer::pop_states`. -/
def pop_states (r : ImPrimitiveRenderer) (types : List Attr) : Except Fault ImPrimitiveRenderer :=
  match r.state_stack.pop types with
  | .ok st => .ok ⟨r.line_vertices, r.line_hash, r.polygon_vertices, r.polygon_indices,
      r.polygon_hash, r.point_hash, st⟩
  | .error e => .error e

/-- `ImPrimitiveRenderer::get_states` for one type. -/
def get_states (r : ImPrimitiveRenderer) (a : Attr) : Except Fault a.type :=
  r.state_stack.top a

/-- The value that `line_hash[key]` refers to: the stored batch, or the empty batch that
the subscript creates when the key is absent. -/
def line_hash_subscript (r : ImPrimitiveRenderer) (key : LineDrawcall) : List Nat :=
  (r.line_hash key).getD []

/-- The table `line_hash` after the batch referred to by `line_hash[key]` has been
replaced. -/
def line_hash_store (line_hash : LineDrawcall → Option (List Nat)) (key : LineDrawcall)
    (batch : List Nat) : LineDrawcall → Option (List Nat) :=
  fun dc => if dc.eq key then some batch else line_hash dc

/-- Loop of the lambda `vertex_generator` of `push_circle_ring<N>`; the first argument is
the number of iterations left, `i` the `int` counter, whose increment beyond `INT_MAX`
is the fault `signed_overflow`. -/
def vertex_generator_loop (env : MathEnv) (N : Nat) :
    Nat → Nat → List v4f → Except Fault (List v4f)
  | 0, _, vertices => .ok vertices
  | n + 1, i, vertices =>
    match fdiv ((i : ℚ) * 2 * env.fPI) (((N - 1 : Nat) : ℚ)) with
    | .ok theta =>
      if 2147483647 ≤ i then .error .signed_overflow
      else
        vertex_generator_loop env N n (i + 1)
          (vertices ++ [⟨env.cos theta, env.sin theta, 0, 1⟩])
    | .error e => .error e

/-- The lambda `vertex_generator` of `push_circle_ring<N>`. -/
def vertex_generator (env : MathEnv) (N : Nat) : Except Fault (List v4f) :=
  vertex_generator_loop env N N 0 []

/-- Loop `for (int i = 0; i < N; i++)` of `push_circle_ring<N>` over the pair
(`line_vertices`, `index_batch`); `vertex_ofs + i` is computed in `unsigned`. -/
def push_circle_ring_loop (N : Nat) (transform : m4f) (color : Color4u) (vertices : List v4f)
    (vertex_ofs : Nat) :
    Nat → Nat → List LineVertex × List Nat → Except Fault (List LineVertex × List Nat)
  | 0, _, acc => .ok acc
  | n + 1, i, (line_vertices, index_batch) =>
    match vertices[i]? with
    | none => .error .out_of_bounds
    | some v =>
      let line_vertices1 := line_vertices ++ [⟨xyz (transform.mulVec v), color.color⟩]
      let index_batch1 :=
        if i < N - 1 then
          index_batch ++ [(vertex_ofs + i) % 4294967296, (vertex_ofs + i + 1) % 4294967296]
        else index_batch
      if 2147483647 ≤ i then .error .signed_overflow
      else
        push_circle_ring_loop N transform color vertices vertex_ofs n (i + 1)
          (line_vertices1, index_batch1)

/-- `ImPrimitiveRenderer::push_circle_ring<N>`. -/
def push_circle_ring (env : MathEnv) (N : Nat) (r : ImPrimitiveRenderer) :
    Except Fault ImPrimitiveRenderer := do
  let transform ← get_states r .transform
  let color ← get_states r .color
  let depth_test ← get_states r .depth_test
  let vertices ← vertex_generator env N
  let key : LineDrawcall := ⟨GL_LINES, depth_test⟩
  let index_batch := line_hash_subscript r key
  let vertex_ofs := r.line_vertices.length % 4294967296
  let (line_vertices, index_batch1) ←
    push_circle_ring_loop N transform color vertices vertex_ofs N 0
      (r.line_vertices, index_batch)
  pure ⟨line_vertices, line_hash_store r.line_hash key index_batch1, r.polygon_vertices,
    r.polygon_indices, r.polygon_hash, r.point_hash, r.state_stack⟩

/-- The index list that the specification gives for a ring of `N` vertices appended at
vertex count `k`: `k, k+1, k+1, k+2, ..., k+N-2, k+N-1`. -/
def ring_segments (k N : Nat) : List Nat :=
  (List.range (N - 1)).flatMap (fun i => [k + i, k + i + 1])

/-- The index list with every sum reduced as `unsigned` arithmetic reduces it. -/
def ring_segments_u32 (k N : Nat) : List Nat :=
  (List.range (N - 1)).flatMap
    (fun i => [(k % 4294967296 + i) % 4294967296, (k % 4294967296 + i + 1) % 4294967296])

end ImPrimitiveRenderer

/-- Renderer with no geometry and two entries on every state stack. -/
def demo_renderer : ImPrimitiveRenderer :=
  ⟨[], fun _ => none, [], [], [], fun _ => none, demo_stack⟩

/-- Renderer whose vertex list holds `2^32 - 1` line vertices. -/
def demo_renderer_full : ImPrimitiveRenderer :=
  ⟨List.replicate 4294967295 ⟨⟨0, 0, 0⟩, 0⟩, fun _ => none, [], [], [], fun _ => none,
    demo_stack⟩

namespace ParticleBuffer

/-- The direction `pvn` computed in the loops of `push_trail` and `push_explosion`: the
base direction `vn` turned by the angle `theta` in the xy-plane. -/
def perturbed_dir (env : MathEnv) (vn : v3f) (theta : ℚ) : v3f :=
  ⟨vn.x * env.cos theta - vn.y * env.sin theta, vn.x * env.sin theta + vn.y * env.cos theta, 0⟩

/-- Squared Euclidean length of a vector. -/
def normsq (v : v3f) : ℚ := v.x * v.x + v.y * v.y + v.z * v.z

/-- The particles that the loop of `push_trail` hands to `push_point`, in order, for `n`
iterations entered with `k` earlier calls of `rnd`. -/
def trail_spawn (env : MathEnv) (p vn : v3f) (theta_spread vel_len : ℚ) (color : Nat) :
    Nat → Nat → List Particle
  | 0, _ => []
  | n + 1, k =>
    ⟨p, perturbed_dir env vn (env.rnd k (-theta_spread) theta_spread) *
        env.rnd (k + 1) 0 vel_len, 0, color⟩ ::
      trail_spawn env p vn theta_spread vel_len color n (k + 2)

/-- The particles that the loop of `push_explosion` hands to `push_point`, in order. -/
def explosion_spawn (env : MathEnv) (p vn : v3f) (theta_spread : ℚ) (color : Nat) :
    Nat → Nat → List Particle
  | 0, _ => []
  | n + 1, k =>
    ⟨⟨p.x + env.rnd (k + 2) (-1 / 10) (1 / 10), p.y + env.rnd (k + 3) (-1 / 10) (1 / 10), p.z⟩,
      perturbed_dir env vn (env.rnd k (-theta_spread) theta_spread) * env.rnd (k + 1) 1 12,
      0, color⟩ ::
      explosion_spawn env p vn theta_spread color n (k + 4)

/-- Sample environment in which the vector `(0, 0, 1)` has length 1, every angle has sine
0 and cosine 1, and the generator returns the upper bound of the requested range. -/
def demo_env_z : MathEnv :=
  ⟨fun v => if v = ⟨0, 0, 1⟩ then 1 else 0, fun _ => 0, fun _ => 1, 1 / 57, 22 / 7,
    fun _ _ hi => hi⟩

/-- Sample environment for the saturated trail: `(10, 0, 0)` has length 10, sine is 0 and
cosine 1 at every angle, the generator returns the upper bound of the range. -/
def demo_env_x : MathEnv :=
  ⟨fun v => if v = ⟨10, 0, 0⟩ then 10 else 0, fun _ => 0, fun _ => 1, 1 / 57, 22 / 7,
    fun _ _ hi => hi⟩

/-- Sample environment whose `length` returns `11863283 / 2^23`, the binary32 value
nearest to the length of the diagonal vector `(1, 1, 0)`; rotation by the angle whose
sine is 3/5 and cosine 4/5, generator returning the lower bound. -/
def demo_env_diag : MathEnv :=
  ⟨fun _ => 11863283 / 8388608, fun _ => 3 / 5, fun _ => 4 / 5, 1 / 57, 22 / 7,
    fun _ lo _ => lo⟩

/-- The calls `update_explosion(dt_1); ...; update_explosion(dt_m)` in order, each with
the same fuel. -/
def update_explosion_seq (fuel : Nat) : List ℚ → ParticleBuffer → Except Fault ParticleBuffer
  | [], s => .ok s
  | dt :: rest, s =>
    match update_explosion fuel dt s with
    | .ok s1 => update_explosion_seq fuel rest s1
    | .error e => .error e

end ParticleBuffer

namespace ParticleBuffer

/-- The pairs (`i`, `nbr_points`) with which the body of a loop of the scheme `age_loop`
is entered, in order of execution. -/
def age_loop_trace (body : ParticleBuffer → Int → Except Fault (ParticleBuffer × Int)) :
    Nat → ParticleBuffer → Int → List (Int × Int)
  | 0, _, _ => []
  | fuel + 1, s, i =>
    if i < s.nbr_points then
      (i, s.nbr_points) ::
        match body s i with
        | .ok (s1, i1) => age_loop_trace body fuel s1 (i1 + 1)
        | .error _ => []
    else []

/-- The pairs (`i`, `nbr_points`) with which the body of the loop of `update` is entered,
in order of execution: `update_loop` with the state replaced by this record. -/
def update_loop_trace (dt : ℚ) : Nat → ParticleBuffer → Int → List (Int × Int)
  | 0, _, _ => []
  | fuel + 1, s, i =>
    if i < s.nbr_points then
      (i, s.nbr_points) ::
        match update_body dt s i with
        | .ok (s1, i1) => update_loop_trace dt fuel s1 (i1 + 1)
        | .error _ => []
    else []

/-- The pairs (`i`, `nbr_points`) with which the body of the loop of `update_explosion`
is entered, in order of execution. -/
def update_explosion_loop_trace (dt : ℚ) : Nat → ParticleBuffer → Int → List (Int × Int)
  | 0, _, _ => []
  | fuel + 1, s, i =>
    if i < s.nbr_points then
      (i, s.nbr_points) ::
        match update_explosion_body dt s i with
        | .ok (s1, i1) => update_explosion_loop_trace dt fuel s1 (i1 + 1)
        | .error _ => []
    else []

end ParticleBuffer

/-! ## Rounding to binary32 -/

theorem round_even_bounds (y : ℚ) :
    (round_even y : ℚ) - 1 / 2 ≤ y ∧ y ≤ (round_even y : ℚ) + 1 / 2 := by
  have h1 := Int.floor_le y
  have h2 := Int.lt_floor_add_one y
  unfold round_even
  split_ifs with a b c
  · constructor <;> linarith
  · push_cast
    constructor <;> linarith
  · constructor <;> linarith
  · push_cast
    constructor <;> linarith

theorem round_even_intCast (n : Int) : round_even (n : ℚ) = n := by
  simp [round_even]

theorem round_even_eq_of_lt (y : ℚ) (n : Int) (h1 : (n : ℚ) - 1 / 2 < y)
    (h2 : y < (n : ℚ) + 1 / 2) : round_even y = n := by
  obtain ⟨b1, b2⟩ := round_even_bounds y
  have c1 : (round_even y : ℚ) < (n : ℚ) + 1 := by linarith
  have c2 : (n : ℚ) < (round_even y : ℚ) + 1 := by linarith
  have d1 : round_even y < n + 1 := by exact_mod_cast c1
  have d2 : n < round_even y + 1 := by exact_mod_cast c2
  omega

theorem round_even_mono (y1 y2 : ℚ) (h : y1 ≤ y2) : round_even y1 ≤ round_even y2 := by
  by_contra hlt
  push_neg at hlt
  obtain ⟨a1, a2⟩ := round_even_bounds y1
  obtain ⟨b1, b2⟩ := round_even_bounds y2
  have hle : round_even y2 + 1 ≤ round_even y1 := hlt
  have hq : (round_even y2 : ℚ) + 1 ≤ (round_even y1 : ℚ) := by exact_mod_cast hle
  have heq : y1 = y2 := by linarith
  rw [heq] at hlt
  exact lt_irrefl _ hlt

theorem two_zpow_pos (e : Int) : (0 : ℚ) < 2 ^ e := zpow_pos (by norm_num) e

theorem grid_le (x : ℚ) (e : Int) (n : Int) (h : x ≤ (n : ℚ) * 2 ^ e) :
    (round_even (x / 2 ^ e) : ℚ) * 2 ^ e ≤ (n : ℚ) * 2 ^ e := by
  have hq := two_zpow_pos e
  have h1 : x / 2 ^ e ≤ (n : ℚ) := by rwa [div_le_iff₀ hq]
  have h2 := round_even_mono _ _ h1
  rw [round_even_intCast] at h2
  have h3 : (round_even (x / 2 ^ e) : ℚ) ≤ (n : ℚ) := by exact_mod_cast h2
  exact mul_le_mul_of_nonneg_right h3 hq.le

theorem le_grid (x : ℚ) (e : Int) (n : Int) (h : (n : ℚ) * 2 ^ e ≤ x) :
    (n : ℚ) * 2 ^ e ≤ (round_even (x / 2 ^ e) : ℚ) * 2 ^ e := by
  have hq := two_zpow_pos e
  have h1 : (n : ℚ) ≤ x / 2 ^ e := by rwa [le_div_iff₀ hq]
  have h2 := round_even_mono _ _ h1
  rw [round_even_intCast] at h2
  have h3 : (n : ℚ) ≤ (round_even (x / 2 ^ e) : ℚ) := by exact_mod_cast h2
  exact mul_le_mul_of_nonneg_right h3 hq.le

/-- A power of two is on every finer grid. -/
theorem zpow_on_grid (L e : Int) (h : e ≤ L) :
    (2 : ℚ) ^ L = (((2 : Int) ^ (L - e).toNat : Int) : ℚ) * 2 ^ e := by
  have h1 : L = ((L - e).toNat : Int) + e := by omega
  conv_lhs => rw [h1]
  rw [zpow_add₀ (by norm_num : (2 : ℚ) ≠ 0), zpow_natCast]
  push_cast
  rfl

theorem ulp_exp_mono (x y : ℚ) (h : |x| ≤ |y|) (hx : x ≠ 0) : ulp_exp x ≤ ulp_exp y := by
  unfold ulp_exp
  have := Int.log_mono_right (b := 2) (abs_pos.2 hx) h
  omega

theorem log_eq_of_bounds (r : ℚ) (L : Int) (h1 : (2 : ℚ) ^ L ≤ r) (h2 : r < 2 ^ (L + 1)) :
    Int.log 2 r = L := by
  have hr : 0 < r := lt_of_lt_of_le (two_zpow_pos L) h1
  have a : L ≤ Int.log 2 r := by
    have := (Int.zpow_le_iff_le_log (b := 2) (by norm_num) hr (x := L)).1 (by exact_mod_cast h1)
    exact this
  have b : Int.log 2 r < L + 1 := by
    have := (Int.lt_zpow_iff_log_lt (b := 2) (by norm_num) hr (x := L + 1)).1 (by exact_mod_cast h2)
    exact this
  omega

theorem binary32_nonneg (y : ℚ) (h : 0 ≤ y) : 0 ≤ binary32 y := by
  have := le_grid y (ulp_exp y) 0 (by simpa using h)
  simpa [binary32] using this

theorem binary32_nonpos (x : ℚ) (h : x ≤ 0) : binary32 x ≤ 0 := by
  have := grid_le x (ulp_exp x) 0 (by simpa using h)
  simpa [binary32] using this

theorem binary32_mono_same (x y : ℚ) (h : x ≤ y) (he : ulp_exp x = ulp_exp y) :
    binary32 x ≤ binary32 y := by
  unfold binary32
  rw [he]
  have hq := two_zpow_pos (ulp_exp y)
  have h1 : x / 2 ^ ulp_exp y ≤ y / 2 ^ ulp_exp y := div_le_div_of_nonneg_right h hq.le
  have h2 := round_even_mono _ _ h1
  have h3 : (round_even (x / 2 ^ ulp_exp y) : ℚ) ≤ (round_even (y / 2 ^ ulp_exp y) : ℚ) := by
    exact_mod_cast h2
  exact mul_le_mul_of_nonneg_right h3 hq.le

theorem binary32_mono_pos (x y : ℚ) (hx : 0 < x) (h : x ≤ y) : binary32 x ≤ binary32 y := by
  have hy : 0 < y := lt_of_lt_of_le hx h
  have habs : |x| ≤ |y| := by rw [abs_of_pos hx, abs_of_pos hy]; exact h
  have hle := ulp_exp_mono x y habs hx.ne'
  rcases eq_or_lt_of_le hle with he | hlt
  · exact binary32_mono_same x y h he
  · -- the power of two at the bottom of the binade of `y` separates `x` and `y`
    have hLy : ulp_exp y = Int.log 2 |y| - 23 := by
      unfold ulp_exp at hlt ⊢
      omega
    have hLx : Int.log 2 |x| + 1 ≤ Int.log 2 |y| := by
      unfold ulp_exp at hlt
      omega
    have hg1 : (2 : ℚ) ^ Int.log 2 |y| ≤ y := by
      have := Int.zpow_log_le_self (b := 2) (r := |y|) (by norm_num) (abs_pos.2 hy.ne')
      rw [abs_of_pos hy] at this ⊢
      exact_mod_cast this
    have hg2 : x < (2 : ℚ) ^ Int.log 2 |y| := by
      have h1 := Int.lt_zpow_succ_log_self (b := 2) (by norm_num) (|x|)
      have h2 : ((2 : Nat) : ℚ) ^ (Int.log 2 |x| + 1) ≤ ((2 : Nat) : ℚ) ^ Int.log 2 |y| :=
        zpow_le_zpow_right₀ (by norm_num) hLx
      have h3 : x ≤ |x| := le_abs_self x
      have h4 := lt_of_lt_of_le h1 h2
      push_cast at h4
      linarith
    have ex : ulp_exp x ≤ Int.log 2 |y| := by
      unfold ulp_exp at hlt ⊢
      omega
    have ey : ulp_exp y ≤ Int.log 2 |y| := by omega
    have a := grid_le x (ulp_exp x) _ (by rw [← zpow_on_grid _ _ ex]; exact hg2.le)
    have b := le_grid y (ulp_exp y) _ (by rw [← zpow_on_grid _ _ ey]; exact hg1)
    rw [← zpow_on_grid _ _ ex] at a
    rw [← zpow_on_grid _ _ ey] at b
    exact le_trans a b

theorem binary32_mono_neg (x y : ℚ) (hy : y < 0) (h : x ≤ y) : binary32 x ≤ binary32 y := by
  have hx : x < 0 := lt_of_le_of_lt h hy
  have habs : |y| ≤ |x| := by rw [abs_of_neg hx, abs_of_neg hy]; linarith
  have hle := ulp_exp_mono y x habs hy.ne
  rcases eq_or_lt_of_le hle with he | hlt
  · exact binary32_mono_same x y h he.symm
  · have hLy : Int.log 2 |y| + 1 ≤ Int.log 2 |x| := by
      unfold ulp_exp at hlt
      omega
    have hg1 : (2 : ℚ) ^ Int.log 2 |x| ≤ -x := by
      have := Int.zpow_log_le_self (b := 2) (r := |x|) (by norm_num) (abs_pos.2 hx.ne)
      rw [abs_of_neg hx] at this ⊢
      exact_mod_cast this
    have hg2 : -y < (2 : ℚ) ^ Int.log 2 |x| := by
      have h1 := Int.lt_zpow_succ_log_self (b := 2) (by norm_num) (|y|)
      have h2 : ((2 : Nat) : ℚ) ^ (Int.log 2 |y| + 1) ≤ ((2 : Nat) : ℚ) ^ Int.log 2 |x| :=
        zpow_le_zpow_right₀ (by norm_num) hLy
      have h3 : -y ≤ |y| := neg_le_abs y
      have h4 := lt_of_lt_of_le h1 h2
      push_cast at h4
      linarith
    have ex : ulp_exp x ≤ Int.log 2 |x| := by
      unfold ulp_exp at hlt ⊢
      omega
    have ey : ulp_exp y ≤ Int.log 2 |x| := by omega
    have gx := zpow_on_grid _ _ ex
    have gy := zpow_on_grid _ _ ey
    have a := grid_le x (ulp_exp x) (-((2 : Int) ^ (Int.log 2 |x| - ulp_exp x).toNat)) (by
      push_cast
      push_cast at gx
      rw [neg_mul, ← gx]
      linarith)
    have b := le_grid y (ulp_exp y) (-((2 : Int) ^ (Int.log 2 |x| - ulp_exp y).toNat)) (by
      push_cast
      push_cast at gy
      rw [neg_mul, ← gy]
      linarith)
    push_cast at a b gx gy
    rw [neg_mul, ← gx] at a
    rw [neg_mul, ← gy] at b
    exact le_trans a b

/-- Rounding to binary32 is monotone. -/
theorem binary32_mono (x y : ℚ) (h : x ≤ y) : binary32 x ≤ binary32 y := by
  rcases lt_or_le 0 x with hx | hx
  · exact binary32_mono_pos x y hx h
  · rcases lt_or_le y 0 with hy | hy
    · exact binary32_mono_neg x y hy h
    · exact le_trans (binary32_nonpos x hx) (binary32_nonneg y hy)

/-- A value `n * 2^p` with `|n| < 2^24` and `p ≥ -149` is a binary32 value: rounding
leaves it as it is. -/
theorem binary32_representable (n p : Int) (hn : |n| < 2 ^ 24) (hp : -149 ≤ p) :
    binary32 ((n : ℚ) * 2 ^ p) = (n : ℚ) * 2 ^ p := by
  by_cases h0 : n = 0
  · subst h0
    simp [binary32, round_even]
  · have hx : (n : ℚ) * 2 ^ p ≠ 0 := by
      have := two_zpow_pos p
      have hn0 : (n : ℚ) ≠ 0 := by exact_mod_cast h0
      positivity
    have hxpos : 0 < |(n : ℚ) * 2 ^ p| := abs_pos.2 hx
    have hlog : Int.log 2 |(n : ℚ) * 2 ^ p| < p + 24 := by
      have h2 : |(n : ℚ) * 2 ^ p| < 2 ^ (p + 24) := by
        rw [abs_mul, abs_of_pos (two_zpow_pos p), zpow_add₀ (by norm_num : (2 : ℚ) ≠ 0), mul_comm]
        apply mul_lt_mul_of_pos_left _ (two_zpow_pos p)
        have : ((|n| : Int) : ℚ) < ((2 ^ 24 : Int) : ℚ) := by exact_mod_cast hn
        push_cast at this
        norm_num
        exact this
      exact (Int.lt_zpow_iff_log_lt (b := 2) (by norm_num) hxpos).1 (by exact_mod_cast h2)
    have he : ulp_exp ((n : ℚ) * 2 ^ p) ≤ p := by
      unfold ulp_exp
      omega
    have hdiv : (n : ℚ) * 2 ^ p / 2 ^ ulp_exp ((n : ℚ) * 2 ^ p) =
        ((n * 2 ^ (p - ulp_exp ((n : ℚ) * 2 ^ p)).toNat : Int) : ℚ) := by
      have hg := zpow_on_grid _ _ he
      push_cast at hg
      rw [div_eq_iff (two_zpow_pos _).ne']
      push_cast
      rw [mul_assoc, ← hg]
    unfold binary32
    have hg := zpow_on_grid _ _ he
    push_cast at hg
    rw [hdiv, round_even_intCast]
    push_cast
    rw [mul_assoc, ← hg]

/-- Value of `binary32` at a number of the binade `[2^L, 2^(L+1))`, `L ≥ -126`, that is
closer to the grid point `n * 2^(L-23)` than to its neighbours. -/
theorem binary32_eval (x : ℚ) (L n : Int) (h1 : (2 : ℚ) ^ L ≤ |x|) (h2 : |x| < 2 ^ (L + 1))
    (hL : -126 ≤ L) (h3 : (n : ℚ) - 1 / 2 < x / 2 ^ (L - 23))
    (h4 : x / 2 ^ (L - 23) < (n : ℚ) + 1 / 2) : binary32 x = (n : ℚ) * 2 ^ (L - 23) := by
  have hlog := log_eq_of_bounds |x| L h1 h2
  have he : ulp_exp x = L - 23 := by
    unfold ulp_exp
    omega
  unfold binary32
  rw [he, round_even_eq_of_lt _ n h3 h4]

theorem binary32_zero : binary32 0 = 0 := by
  have := binary32_representable 0 0 (by norm_num) (by norm_num)
  simpa using this

theorem binary32_one : binary32 1 = 1 := by
  have := binary32_representable 1 0 (by norm_num) (by norm_num)
  simpa using this

theorem binary32_255 : binary32 255 = 255 := by
  have := binary32_representable 255 0 (by norm_num) (by norm_num)
  simpa using this

theorem binary32_half : binary32 (1 / 2) = 1 / 2 := by
  have := binary32_representable 1 (-1) (by norm_num) (by norm_num)
  norm_num at this ⊢
  exact this

/-! ## Array and bit-level lemmas -/

theorem rd_natCast {α : Type} (a : List α) (k : Nat) (d : α) (h : k < a.length) :
    rd a (k : Int) = .ok (a.getD k d) := by
  simp [rd, List.getD, List.getElem?_eq_getElem h]

theorem wr_natCast {α : Type} (a : List α) (k : Nat) (x : α) (h : k < a.length) :
    wr a (k : Int) x = .ok (a.set k x) := by
  simp [wr, h]

theorem rd_set_self {α : Type} (a : List α) (k : Nat) (x : α) (h : k < a.length) :
    rd (a.set k x) (k : Int) = .ok x := by
  simp [rd, h]

theorem rd_set_ne {α : Type} (a : List α) (k : Nat) (x : α) (j : Int) (h : j ≠ (k : Int)) :
    rd (a.set k x) j = rd a j := by
  unfold rd
  by_cases hj : 0 ≤ j
  · have hne : k ≠ j.toNat := by omega
    simp [hj, List.getElem?_set_ne hne]
  · simp [hj]

theorem rd_neg {α : Type} (a : List α) (i : Int) (h : i < 0) :
    rd a i = .error .out_of_bounds := by
  simp [rd, not_le.mpr h]

theorem getD_set_self {α : Type} (a : List α) (k : Nat) (x d : α) (h : k < a.length) :
    (a.set k x).getD k d = x := by
  simp [List.getD, h]

theorem getD_set_ne {α : Type} (a : List α) (k j : Nat) (x d : α) (h : k ≠ j) :
    (a.set k x).getD j d = a.getD j d := by
  simp [List.getD, List.getElem?_set_ne h]

theorem testBit_recolor (c a : Nat) :
    ((c &&& 0x00ffffff) ||| (a <<< 24)) &&& 0x00ffffff = c &&& 0x00ffffff := by
  apply Nat.eq_of_testBit_eq
  intro i
  have h : (0x00ffffff : Nat) = 2 ^ 24 - 1 := by norm_num
  rw [h]
  simp only [Nat.testBit_and, Nat.testBit_or, Nat.testBit_shiftLeft, Nat.testBit_two_pow_sub_one]
  by_cases hi : i < 24
  · have : ¬ (i ≥ 24) := by omega
    simp [hi, this]
  · simp [hi]

theorem shift_recolor (c a : Nat) :
    ((c &&& 0x00ffffff) ||| (a <<< 24)) >>> 24 = a := by
  apply Nat.eq_of_testBit_eq
  intro i
  have h : (0x00ffffff : Nat) = 2 ^ 24 - 1 := by norm_num
  rw [h]
  simp only [Nat.testBit_and, Nat.testBit_or, Nat.testBit_shiftLeft, Nat.testBit_shiftRight, Nat.testBit_two_pow_sub_one]
  simp

namespace ParticleBuffer

theorem bind_ok {α β : Type} (a : α) (f : α → Except Fault β) :
    (Except.ok a >>= f) = f a := rfl

theorem push_point_free (N : Nat) (s : ParticleBuffer) (p v : v3f) (c : Nat) (n : Nat)
    (hwf : WF N s) (hn : s.nbr_points = (n : Int)) (hlt : n < N) :
    push_point N s p v c =
      .ok ⟨s.points.set n ⟨p, c⟩, s.point_vels.set n v, s.point_ages.set n 0, (n : Int) + 1⟩ := by
  obtain ⟨h1, h2, h3, -, -⟩ := hwf
  have hlt2 : (n : Int) < (N : Int) := by exact_mod_cast hlt
  simp only [push_point, hn, hlt2, if_true]
  rw [wr_natCast _ _ _ (by omega), wr_natCast _ _ _ (by omega), wr_natCast _ _ _ (by omega)]
  rfl

theorem push_point_full (N : Nat) (s : ParticleBuffer) (p v : v3f) (c : Nat)
    (hfull : ¬ s.nbr_points < (N : Int)) :
    push_point N s p v c = .ok s := by
  simp only [push_point, hfull, if_false]
  rfl

end ParticleBuffer

theorem getD_set {α : Type} (a : List α) (k j : Nat) (x d : α) (h : k < a.length) :
    (a.set k x).getD j d = if j = k then x else a.getD j d := by
  by_cases hjk : j = k
  · subst hjk
    rw [if_pos rfl]
    exact getD_set_self _ _ _ _ h
  · rw [if_neg hjk]
    exact getD_set_ne _ _ _ _ _ (Ne.symm hjk)

namespace ParticleBuffer

theorem swap_remove_spec (N : Nat) (s : ParticleBuffer) (k m : Nat)
    (hwf : WF N s) (hn : s.nbr_points = (m : Int) + 1) (hk : k ≤ m) :
    ∃ s1, swap_remove s (k : Int) = .ok (s1, (k : Int) - 1) ∧ WF N s1 ∧
      s1.nbr_points = (m : Int) ∧
      ∀ j, slot s1 j = if j = k then slot s m else slot s j := by
  obtain ⟨h1, h2, h3, h4, h5⟩ := hwf
  have hm : m < N := by omega
  have hkN : k < N := by omega
  have e : s.nbr_points - 1 = (m : Int) := by omega
  refine ⟨⟨s.points.set k (s.points.getD m default), s.point_vels.set k (s.point_vels.getD m default),
    s.point_ages.set k (s.point_ages.getD m 0), (m : Int)⟩, ?_, ?_, rfl, ?_⟩
  · simp only [swap_remove, e]
    rw [rd_natCast s.points m default (by omega), rd_natCast s.point_vels m default (by omega),
      rd_natCast s.point_ages m 0 (by omega)]
    simp only [bind_ok]
    rw [wr_natCast _ _ _ (by omega), wr_natCast _ _ _ (by omega), wr_natCast _ _ _ (by omega)]
    rfl
  · exact ⟨by simp [h1], by simp [h2], by simp [h3], by positivity, by simp only; omega⟩
  · intro j
    simp only [slot]
    rw [getD_set _ _ _ _ _ (by omega), getD_set _ _ _ _ _ (by omega), getD_set _ _ _ _ _ (by omega)]
    split_ifs <;> rfl

theorem fade_spec (N : Nat) (M : ℚ) (s : ParticleBuffer) (k : Nat)
    (hwf : WF N s) (hk : k < N) :
    ∃ s1, fade M s (k : Int) = .ok s1 ∧ WF N s1 ∧ s1.nbr_points = s.nbr_points ∧
      ∀ j, slot s1 j = if j = k then
          ⟨(slot s k).p, (slot s k).v, (slot s k).age,
            fade_color M (slot s k).age (slot s k).color⟩
        else slot s j := by
  obtain ⟨h1, h2, h3, h4, h5⟩ := hwf
  refine ⟨⟨s.points.set k ⟨(s.points.getD k default).p,
      fade_color M (s.point_ages.getD k 0) (s.points.getD k default).color⟩,
    s.point_vels, s.point_ages, s.nbr_points⟩, ?_, ?_, rfl, ?_⟩
  · simp only [fade]
    rw [rd_natCast s.points k default (by omega), rd_natCast s.point_ages k 0 (by omega)]
    simp only [bind_ok]
    rw [wr_natCast _ _ _ (by omega)]
    rfl
  · exact ⟨by simp [h1], h2, h3, h4, h5⟩
  · intro j
    simp only [slot]
    rw [getD_set _ _ _ _ _ (by omega)]
    split_ifs with hj
    · subst hj; rfl
    · rfl

end ParticleBuffer

theorem getD_set3 {α : Type} (a : List α) (k j : Nat) (x y z d : α) (h : k < a.length) :
    (((a.set k x).set k y).set k z).getD j d = if j = k then z else a.getD j d := by
  rw [getD_set _ _ _ _ _ (by simp; omega)]
  split_ifs with hj
  · rfl
  · rw [getD_set _ _ _ _ _ (by simp; omega), getD_set _ _ _ _ _ h, if_neg hj, if_neg hj]

namespace ParticleBuffer

theorem update_body_eval (N : Nat) (dt : ℚ) (s : ParticleBuffer) (k : Nat)
    (hwf : WF N s) (hk : k < N) :
    update_body dt s (k : Int) =
      if 1 / 2 < f32_add (slot s k).age dt then swap_remove (update_advance dt s k) (k : Int)
      else (fade (1 / 2) (update_advance dt s k) (k : Int) >>= fun s2 => pure (s2, (k : Int))) := by
  obtain ⟨h1, h2, h3, h4, h5⟩ := hwf
  simp only [update_body]
  rw [rd_natCast s.point_vels k default (by omega), bind_ok,
    wr_natCast _ _ _ (by omega), bind_ok,
    rd_set_self _ k _ (by omega), bind_ok,
    rd_natCast s.points k default (by omega), bind_ok,
    wr_natCast _ _ _ (by omega), bind_ok,
    rd_set_self _ k _ (by omega), bind_ok,
    wr_natCast _ _ _ (by simp; omega), bind_ok,
    rd_set_self _ k _ (by simp; omega), bind_ok,
    wr_natCast _ _ _ (by simp; omega), bind_ok,
    rd_natCast s.point_ages k 0 (by omega), bind_ok,
    wr_natCast _ _ _ (by omega), bind_ok,
    rd_set_self _ k _ (by omega), bind_ok]
  rfl

theorem update_advance_wf (N : Nat) (dt : ℚ) (s : ParticleBuffer) (k : Nat)
    (hwf : WF N s) : WF N (update_advance dt s k) := by
  obtain ⟨h1, h2, h3, h4, h5⟩ := hwf
  exact ⟨by simp [update_advance, h1], by simp [update_advance, h2],
    by simp [update_advance, h3], h4, h5⟩

theorem update_advance_slot (N : Nat) (dt : ℚ) (s : ParticleBuffer) (k : Nat)
    (hwf : WF N s) (hk : k < N) (j : Nat) :
    slot (update_advance dt s k) j =
      if j = k then
        ⟨(update_step dt (slot s k)).p, (update_step dt (slot s k)).v,
          f32_add (slot s k).age dt, (slot s k).color⟩
      else slot s j := by
  obtain ⟨h1, h2, h3, h4, h5⟩ := hwf
  simp only [slot, update_advance]
  rw [getD_set3 s.points k j _ _ _ default (by omega),
    getD_set s.point_vels k j _ default (by omega),
    getD_set s.point_ages k j _ 0 (by omega)]
  split_ifs with hj
  · rfl
  · rfl

theorem update_body_spec (N : Nat) (dt : ℚ) :
    BodySpec N (update_body dt) dt (1 / 2) (update_step dt) := by
  intro s k m hwf hn hk
  have hmN : m < N := by have := hwf.2.2.2.2; omega
  have hkN : k < N := by omega
  have hwfa := update_advance_wf N dt s k hwf
  have hna : (update_advance dt s k).nbr_points = (m : Int) + 1 := hn
  by_cases hexp : 1 / 2 < f32_add (slot s k).age dt
  · obtain ⟨s1, h1, hwf1, hn1, hs1⟩ := swap_remove_spec N _ k m hwfa hna hk
    refine ⟨s1, hwf1, ?_⟩
    rw [if_pos hexp]
    refine ⟨?_, hn1, ?_⟩
    · rw [update_body_eval N dt s k hwf hkN, if_pos hexp, h1]
    · intro j hj
      rw [hs1 j]
      split_ifs with hjk
      · rw [update_advance_slot N dt s k hwf hkN m, if_neg (by omega)]
      · rw [update_advance_slot N dt s k hwf hkN j, if_neg hjk]
  · obtain ⟨s1, h1, hwf1, hn1, hs1⟩ := fade_spec N (1 / 2) _ k hwfa hkN
    refine ⟨s1, hwf1, ?_⟩
    rw [if_neg hexp]
    refine ⟨?_, hn1.trans hna, ?_⟩
    · rw [update_body_eval N dt s k hwf hkN, if_neg hexp, h1]
      rfl
    · intro j
      rw [hs1 j]
      split_ifs with hjk
      · rw [update_advance_slot N dt s k hwf hkN k, if_pos rfl]
        rfl
      · rw [update_advance_slot N dt s k hwf hkN j, if_neg hjk]

theorem compaction_pass_append (dt M : ℚ) (step : Particle → Particle) (a b : List Particle) :
    compaction_pass dt M step (a ++ b) =
      compaction_pass dt M step a ++ compaction_pass dt M step b := by
  simp [compaction_pass]

theorem compaction_pass_perm (dt M : ℚ) (step : Particle → Particle) {a b : List Particle}
    (h : a.Perm b) : (compaction_pass dt M step a).Perm (compaction_pass dt M step b) :=
  (h.filter _).map _

theorem map_congr_range (f g : Nat → Particle) (a len : Nat)
    (h : ∀ j, a ≤ j → j < a + len → f j = g j) :
    (List.range' a len).map f = (List.range' a len).map g := by
  apply List.map_congr_left
  intro j hj
  rw [List.mem_range'_1] at hj
  exact h j hj.1 hj.2

end ParticleBuffer

/-! ## The ageing loop -/

namespace ParticleBuffer

theorem live_eq (s : ParticleBuffer) (n : Nat) (hn : s.nbr_points = (n : Int)) :
    live s = (List.range n).map (slot s) := by
  simp [live, hn]

theorem age_loop_spec (N : Nat) (body : ParticleBuffer → Int → Except Fault (ParticleBuffer × Int))
    (dt M : ℚ) (step : Particle → Particle) (hb : BodySpec N body dt M step) :
    ∀ (fuel : Nat) (s : ParticleBuffer) (k n : Nat), WF N s → s.nbr_points = (n : Int) →
      k ≤ n → n - k ≤ fuel →
      ∃ s1, age_loop body fuel s (k : Int) = .ok s1 ∧ WF N s1 ∧
        (live s1).Perm ((List.range k).map (slot s) ++
          compaction_pass dt M step ((List.range' k (n - k)).map (slot s))) := by
  intro fuel
  induction fuel with
  | zero =>
    intro s k n hwf hn hk hfuel
    have hkn : k = n := by omega
    subst hkn
    refine ⟨s, ?_, hwf, ?_⟩
    · simp [age_loop, hn]
    · rw [live_eq s k hn]
      simp [compaction_pass]
  | succ fuel ih =>
    intro s k n hwf hn hk hfuel
    by_cases hkn : k = n
    · subst hkn
      refine ⟨s, ?_, hwf, ?_⟩
      · simp [age_loop, hn]
      · rw [live_eq s k hn]
        simp [compaction_pass]
    · obtain ⟨m, rfl⟩ : ∃ m, n = m + 1 := ⟨n - 1, by omega⟩
      have hkm : k ≤ m := by omega
      have hn1 : s.nbr_points = (m : Int) + 1 := by rw [hn]; push_cast; rfl
      have hlt : (k : Int) < s.nbr_points := by rw [hn1]; omega
      obtain ⟨s1, hwf1, hcase⟩ := hb s k m hwf hn1 hkm
      by_cases hexp : M < f32_add (slot s k).age dt
      · rw [if_pos hexp] at hcase
        obtain ⟨hbody, hm1, hslots⟩ := hcase
        obtain ⟨s2, hrun, hwf2, hperm⟩ := ih s1 k m hwf1 hm1 hkm (by omega)
        refine ⟨s2, ?_, hwf2, hperm.trans ?_⟩
        · simp only [age_loop, if_pos hlt, hbody, Int.sub_add_cancel]
          exact hrun
        · have hpre : (List.range k).map (slot s1) = (List.range k).map (slot s) := by
            apply List.map_congr_left
            intro j hj
            rw [List.mem_range] at hj
            rw [hslots j (by omega), if_neg (by omega)]
          rw [hpre]
          apply List.Perm.append_left
          have hsplit : m + 1 - k = (m - k) + 1 := by omega
          rw [hsplit, List.range'_succ, List.map_cons]
          have hdrop : compaction_pass dt M step
              (slot s k :: (List.range' (k + 1) (m - k)).map (slot s)) =
              compaction_pass dt M step ((List.range' (k + 1) (m - k)).map (slot s)) := by
            simp only [compaction_pass]
            rw [List.filter_cons_of_neg]
            simpa using hexp
          rw [hdrop]
          apply compaction_pass_perm
          by_cases hkm2 : k = m
          · subst hkm2
            simp
          · obtain ⟨d, hd⟩ : ∃ d, m - k = d + 1 := ⟨m - k - 1, by omega⟩
            rw [hd, List.range'_succ, List.range'_1_concat, List.map_cons, List.map_append,
              List.map_singleton]
            have hmk : k + 1 + d = m := by omega
            rw [hmk, hslots k (by omega), if_pos rfl]
            have hmid : (List.range' (k + 1) d).map (slot s1) =
                (List.range' (k + 1) d).map (slot s) := by
              apply map_congr_range
              intro j hj1 hj2
              rw [hslots j (by omega), if_neg (by omega)]
            rw [hmid]
            exact (List.perm_append_singleton _ _).symm
      · rw [if_neg hexp] at hcase
        obtain ⟨hbody, hm1, hslots⟩ := hcase
        have hm1c : s1.nbr_points = ((m + 1 : Nat) : Int) := by rw [hm1]; push_cast; rfl
        obtain ⟨s2, hrun, hwf2, hperm⟩ := ih s1 (k + 1) (m + 1) hwf1 hm1c (by omega) (by omega)
        refine ⟨s2, ?_, hwf2, hperm.trans ?_⟩
        · simp only [age_loop, if_pos hlt, hbody]
          have : (k : Int) + 1 = ((k + 1 : Nat) : Int) := by push_cast; rfl
          rw [this]
          exact hrun
        · have hpre : (List.range (k + 1)).map (slot s1) =
              (List.range k).map (slot s) ++ [step (slot s k)] := by
            rw [List.range_succ, List.map_append, List.map_singleton, hslots k, if_pos rfl]
            congr 1
            apply List.map_congr_left
            intro j hj
            rw [List.mem_range] at hj
            rw [hslots j, if_neg (by omega)]
          have hpost : (List.range' (k + 1) (m + 1 - (k + 1))).map (slot s1) =
              (List.range' (k + 1) (m + 1 - (k + 1))).map (slot s) := by
            apply map_congr_range
            intro j hj1 hj2
            rw [hslots j, if_neg (by omega)]
          rw [hpre, hpost]
          have hsplit : m + 1 - k = (m + 1 - (k + 1)) + 1 := by omega
          rw [hsplit, List.range'_succ, List.map_cons]
          have hkeep : compaction_pass dt M step
              (slot s k :: (List.range' (k + 1) (m + 1 - (k + 1))).map (slot s)) =
              step (slot s k) ::
                compaction_pass dt M step ((List.range' (k + 1) (m + 1 - (k + 1))).map (slot s)) := by
            simp only [compaction_pass]
            rw [List.filter_cons_of_pos, List.map_cons]
            simpa using hexp
          rw [hkeep]
          simp

theorem update_explosion_body_eval (N : Nat) (dt : ℚ) (s : ParticleBuffer) (k : Nat)
    (hwf : WF N s) (hk : k < N) :
    update_explosion_body dt s (k : Int) =
      if 3 / 4 < f32_add (slot s k).age dt then
        swap_remove (update_explosion_advance dt s k) (k : Int)
      else (fade (3 / 4) (update_explosion_advance dt s k) (k : Int) >>=
        fun s2 => pure (s2, (k : Int))) := by
  obtain ⟨h1, h2, h3, h4, h5⟩ := hwf
  simp only [update_explosion_body]
  rw [rd_natCast s.point_vels k default (by omega), bind_ok,
    wr_natCast _ _ _ (by omega), bind_ok,
    rd_set_self _ k _ (by omega), bind_ok,
    rd_natCast s.points k default (by omega), bind_ok,
    wr_natCast _ _ _ (by omega), bind_ok,
    rd_natCast s.point_ages k 0 (by omega), bind_ok,
    wr_natCast _ _ _ (by omega), bind_ok,
    rd_set_self _ k _ (by omega), bind_ok]
  rfl

theorem update_explosion_advance_wf (N : Nat) (dt : ℚ) (s : ParticleBuffer) (k : Nat)
    (hwf : WF N s) : WF N (update_explosion_advance dt s k) := by
  obtain ⟨h1, h2, h3, h4, h5⟩ := hwf
  exact ⟨by simp [update_explosion_advance, h1], by simp [update_explosion_advance, h2],
    by simp [update_explosion_advance, h3], h4, h5⟩

theorem update_explosion_advance_slot (N : Nat) (dt : ℚ) (s : ParticleBuffer) (k : Nat)
    (hwf : WF N s) (hk : k < N) (j : Nat) :
    slot (update_explosion_advance dt s k) j =
      if j = k then
        ⟨(update_explosion_step dt (slot s k)).p, (update_explosion_step dt (slot s k)).v,
          f32_add (slot s k).age dt, (slot s k).color⟩
      else slot s j := by
  obtain ⟨h1, h2, h3, h4, h5⟩ := hwf
  simp only [slot, update_explosion_advance]
  rw [getD_set s.points k j _ default (by omega),
    getD_set s.point_vels k j _ default (by omega),
    getD_set s.point_ages k j _ 0 (by omega)]
  split_ifs with hj
  · rfl
  · rfl

theorem update_explosion_body_spec (N : Nat) (dt : ℚ) :
    BodySpec N (update_explosion_body dt) dt (3 / 4) (update_explosion_step dt) := by
  intro s k m hwf hn hk
  have hmN : m < N := by have := hwf.2.2.2.2; omega
  have hkN : k < N := by omega
  have hwfa := update_explosion_advance_wf N dt s k hwf
  have hna : (update_explosion_advance dt s k).nbr_points = (m : Int) + 1 := hn
  by_cases hexp : 3 / 4 < f32_add (slot s k).age dt
  · obtain ⟨s1, h1, hwf1, hn1, hs1⟩ := swap_remove_spec N _ k m hwfa hna hk
    refine ⟨s1, hwf1, ?_⟩
    rw [if_pos hexp]
    refine ⟨?_, hn1, ?_⟩
    · rw [update_explosion_body_eval N dt s k hwf hkN, if_pos hexp, h1]
    · intro j hj
      rw [hs1 j]
      split_ifs with hjk
      · rw [update_explosion_advance_slot N dt s k hwf hkN m, if_neg (by omega)]
      · rw [update_explosion_advance_slot N dt s k hwf hkN j, if_neg hjk]
  · obtain ⟨s1, h1, hwf1, hn1, hs1⟩ := fade_spec N (3 / 4) _ k hwfa hkN
    refine ⟨s1, hwf1, ?_⟩
    rw [if_neg hexp]
    refine ⟨?_, hn1.trans hna, ?_⟩
    · rw [update_explosion_body_eval N dt s k hwf hkN, if_neg hexp, h1]
      rfl
    · intro j
      rw [hs1 j]
      split_ifs with hjk
      · rw [update_explosion_advance_slot N dt s k hwf hkN k, if_pos rfl]
        rfl
      · rw [update_explosion_advance_slot N dt s k hwf hkN j, if_neg hjk]

theorem update_loop_eq (dt : ℚ) (fuel : Nat) :
    ∀ (s : ParticleBuffer) (i : Int),
      update_loop dt fuel s i = age_loop (update_body dt) fuel s i := by
  induction fuel with
  | zero => intro s i; rfl
  | succ fuel ih =>
    intro s i
    simp only [update_loop, age_loop]
    split_ifs with h
    · cases hb : update_body dt s i with
      | error e => rfl
      | ok r => exact ih r.1 (r.2 + 1)
    · rfl

theorem update_explosion_loop_eq (dt : ℚ) (fuel : Nat) :
    ∀ (s : ParticleBuffer) (i : Int),
      update_explosion_loop dt fuel s i = age_loop (update_explosion_body dt) fuel s i := by
  induction fuel with
  | zero => intro s i; rfl
  | succ fuel ih =>
    intro s i
    simp only [update_explosion_loop, age_loop]
    split_ifs with h
    · cases hb : update_explosion_body dt s i with
      | error e => rfl
      | ok r => exact ih r.1 (r.2 + 1)
    · rfl

theorem live_length (N : Nat) (s : ParticleBuffer) (hwf : WF N s) :
    ((live s).length : Int) = s.nbr_points := by
  simp [live, Int.toNat_of_nonneg hwf.2.2.2.1]

theorem age_loop_run (N : Nat) (body : ParticleBuffer → Int → Except Fault (ParticleBuffer × Int))
    (dt M : ℚ) (step : Particle → Particle) (hb : BodySpec N body dt M step)
    (fuel : Nat) (s : ParticleBuffer) (hwf : WF N s) (hfuel : s.nbr_points ≤ (fuel : Int)) :
    ∃ s1, age_loop body fuel s 0 = .ok s1 ∧ WF N s1 ∧
      (live s1).Perm (compaction_pass dt M step (live s)) := by
  obtain ⟨n, hn⟩ := Int.eq_ofNat_of_zero_le hwf.2.2.2.1
  obtain ⟨s1, h1, hwf1, hperm⟩ :=
    age_loop_spec N body dt M step hb fuel s 0 n hwf hn (Nat.zero_le _) (by omega)
  refine ⟨s1, by simpa using h1, hwf1, ?_⟩
  rw [live_eq s n hn, List.range_eq_range']
  simpa using hperm

theorem update_run (N : Nat) (dt : ℚ) (fuel : Nat) (s : ParticleBuffer) (hwf : WF N s)
    (hfuel : s.nbr_points ≤ (fuel : Int)) :
    ∃ s1, update fuel dt s = .ok s1 ∧ WF N s1 ∧
      (live s1).Perm (compaction_pass dt (1 / 2) (update_step dt) (live s)) := by
  unfold update
  rw [update_loop_eq]
  exact age_loop_run N _ dt _ _ (update_body_spec N dt) fuel s hwf hfuel

theorem update_explosion_run (N : Nat) (dt : ℚ) (fuel : Nat) (s : ParticleBuffer)
    (hwf : WF N s) (hfuel : s.nbr_points ≤ (fuel : Int)) :
    ∃ s1, update_explosion fuel dt s = .ok s1 ∧ WF N s1 ∧
      (live s1).Perm (compaction_pass dt (3 / 4) (update_explosion_step dt) (live s)) := by
  unfold update_explosion
  rw [update_explosion_loop_eq]
  exact age_loop_run N _ dt _ _ (update_explosion_body_spec N dt) fuel s hwf hfuel

end ParticleBuffer

/-! ## Spawning: `push_point` -/

namespace ParticleBuffer

theorem push_point_wf (N : Nat) (s : ParticleBuffer) (p v : v3f) (c : Nat) (hwf : WF N s) :
    ∃ s1, push_point N s p v c = .ok s1 ∧ WF N s1 ∧
      s1.nbr_points = if s.nbr_points < (N : Int) then s.nbr_points + 1 else s.nbr_points := by
  by_cases hlt : s.nbr_points < (N : Int)
  · obtain ⟨n, hn⟩ := Int.eq_ofNat_of_zero_le hwf.2.2.2.1
    have hnN : n < N := by omega
    refine ⟨_, push_point_free N s p v c n hwf hn hnN, ?_, ?_⟩
    · obtain ⟨h1, h2, h3, -, -⟩ := hwf
      refine ⟨by simp [h1], by simp [h2], by simp [h3], by positivity, ?_⟩
      show (n : Int) + 1 ≤ N
      omega
    · simp [hn, hnN]
  · exact ⟨s, push_point_full N s p v c hlt, hwf, by simp [hlt]⟩

theorem push_point_seq_spec (N : Nat) (args : List (v3f × v3f × Nat)) :
    ∀ s : ParticleBuffer, WF N s →
      ∃ s1, push_point_seq N args s = .ok s1 ∧ WF N s1 ∧
        s1.nbr_points = min (s.nbr_points + (args.length : Int)) (N : Int) := by
  induction args with
  | nil =>
    intro s hwf
    exact ⟨s, rfl, hwf, by simp [hwf.2.2.2.2]⟩
  | cons a rest ih =>
    intro s hwf
    obtain ⟨p, v, c⟩ := a
    obtain ⟨s1, h1, hwf1, hn1⟩ := push_point_wf N s p v c hwf
    obtain ⟨s2, h2, hwf2, hn2⟩ := ih s1 hwf1
    refine ⟨s2, ?_, hwf2, ?_⟩
    · simp only [push_point_seq, h1, h2]
    · rw [hn2, hn1]
      have := hwf.2.2.2.2
      simp only [List.length_cons]
      split_ifs with hlt
      · push_cast
        congr 1
        ring
      · push_cast
        rw [min_eq_right (by omega), min_eq_right (by omega)]

/-- C1: on an empty buffer of any capacity `N`, a sequence of `k` calls of `push_point`
with arbitrary arguments returns normally and leaves `size() = min(k, capacity())`. -/
theorem push_point_seq_size (N : Nat) (s : ParticleBuffer) (args : List (v3f × v3f × Nat))
    (hwf : WF N s) (hempty : s.nbr_points = 0) :
    ∃ s1, push_point_seq N args s = .ok s1 ∧
      size s1 = min (args.length : Int) (capacity N) := by
  obtain ⟨s1, h1, -, hn⟩ := push_point_seq_spec N args s hwf
  exact ⟨s1, h1, by simpa [size, capacity, hempty] using hn⟩

/-- Witness of C1: three calls on an empty buffer of capacity 2. -/
theorem push_point_seq_size_witness :
    WF 2 demo_empty2 ∧ demo_empty2.nbr_points = 0 ∧
    ∃ s1, push_point_seq 2 [(⟨0, 0, 0⟩, ⟨1, 0, 0⟩, 7), (⟨1, 0, 0⟩, ⟨0, 1, 0⟩, 8),
        (⟨2, 0, 0⟩, ⟨0, 0, 1⟩, 9)] demo_empty2 = .ok s1 ∧
      size s1 = min (([(⟨0, 0, 0⟩, ⟨1, 0, 0⟩, 7), (⟨1, 0, 0⟩, ⟨0, 1, 0⟩, 8),
        (⟨2, 0, 0⟩, ⟨0, 0, 1⟩, 9)] : List (v3f × v3f × Nat)).length : Int) (capacity 2) :=
  ⟨by decide, rfl, push_point_seq_size 2 demo_empty2 _ (by decide) rfl⟩

/-- C2: on a well-formed buffer, `push_point(p, v, color)` below capacity writes
`{p, color}`, `v` and age `0` at index `size()`, raises `size()` by one and leaves the
slots below the old `size()` as they were in all three arrays; at capacity it returns
normally with the state unchanged. -/
theorem push_point_contract (N : Nat) (s : ParticleBuffer) (p v : v3f) (color : Nat)
    (hwf : WF N s) :
    (size s < capacity N →
      ∃ s1, push_point N s p v color = .ok s1 ∧
        rd s1.points (size s) = .ok ⟨p, color⟩ ∧
        rd s1.point_vels (size s) = .ok v ∧
        rd s1.point_ages (size s) = .ok 0 ∧
        size s1 = size s + 1 ∧
        ∀ j : Int, j < size s →
          rd s1.points j = rd s.points j ∧ rd s1.point_vels j = rd s.point_vels j ∧
            rd s1.point_ages j = rd s.point_ages j) ∧
    (size s = capacity N → push_point N s p v color = .ok s) := by
  constructor
  · intro hlt
    obtain ⟨n, hn⟩ := Int.eq_ofNat_of_zero_le hwf.2.2.2.1
    simp only [size, capacity] at hlt ⊢
    have hnN : n < N := by omega
    obtain ⟨h1, h2, h3, -, -⟩ := hwf
    refine ⟨_, push_point_free N s p v color n ⟨h1, h2, h3, by omega, by omega⟩ hn hnN,
      ?_, ?_, ?_, ?_, ?_⟩
    · rw [hn]; exact rd_set_self _ _ _ (by omega)
    · rw [hn]; exact rd_set_self _ _ _ (by omega)
    · rw [hn]; exact rd_set_self _ _ _ (by omega)
    · rw [hn]
    · intro j hj
      have hne : j ≠ (n : Int) := by omega
      exact ⟨rd_set_ne _ _ _ _ hne, rd_set_ne _ _ _ _ hne, rd_set_ne _ _ _ _ hne⟩
  · intro hfull
    simp only [size, capacity] at hfull
    exact push_point_full N s p v color (by omega)

/-- Witness of C2: a push below capacity and a push at capacity. -/
theorem push_point_contract_witness :
    WF 2 demo_empty2 ∧ WF 3 demo_three ∧
    (∃ s1, push_point 2 demo_empty2 ⟨1, 2, 3⟩ ⟨4, 5, 6⟩ 7 = .ok s1 ∧
      rd s1.points (size demo_empty2) = .ok ⟨⟨1, 2, 3⟩, 7⟩ ∧
      rd s1.point_vels (size demo_empty2) = .ok ⟨4, 5, 6⟩ ∧
      rd s1.point_ages (size demo_empty2) = .ok 0 ∧
      size s1 = size demo_empty2 + 1 ∧
      ∀ j : Int, j < size demo_empty2 →
        rd s1.points j = rd demo_empty2.points j ∧
          rd s1.point_vels j = rd demo_empty2.point_vels j ∧
          rd s1.point_ages j = rd demo_empty2.point_ages j) ∧
    push_point 3 demo_three ⟨1, 2, 3⟩ ⟨4, 5, 6⟩ 7 = .ok demo_three :=
  ⟨by decide, by decide,
    (push_point_contract 2 demo_empty2 ⟨1, 2, 3⟩ ⟨4, 5, 6⟩ 7 (by decide)).1 (by decide),
    (push_point_contract 3 demo_three ⟨1, 2, 3⟩ ⟨4, 5, 6⟩ 7 (by decide)).2 (by decide)⟩

/-! ## Sequences of `update` calls -/

theorem mem_compaction_pass (dt M : ℚ) (step : Particle → Particle) (rs : List Particle)
    (r1 : Particle) :
    r1 ∈ compaction_pass dt M step rs ↔ ∃ r ∈ rs, f32_add r.age dt ≤ M ∧ step r = r1 := by
  simp [compaction_pass, and_assoc]

theorem compaction_pass_length_le (dt M : ℚ) (step : Particle → Particle) (rs : List Particle) :
    (compaction_pass dt M step rs).length ≤ rs.length := by
  simp only [compaction_pass, List.length_map]
  exact List.length_filter_le _ _

theorem nbr_points_le_of_perm (N : Nat) (s s1 : ParticleBuffer) (hwf : WF N s) (hwf1 : WF N s1)
    (dt M : ℚ) (step : Particle → Particle)
    (hperm : (live s1).Perm (compaction_pass dt M step (live s))) :
    s1.nbr_points ≤ s.nbr_points := by
  have h1 := live_length N s hwf
  have h2 := live_length N s1 hwf1
  have h3 := hperm.length_eq
  have h4 := compaction_pass_length_le dt M step (live s)
  omega

theorem push_point_live (N : Nat) (s : ParticleBuffer) (p v : v3f) (c : Nat) (n : Nat)
    (hwf : WF N s) (hn : s.nbr_points = (n : Int)) (hlt : n < N) :
    live ⟨s.points.set n ⟨p, c⟩, s.point_vels.set n v, s.point_ages.set n 0, (n : Int) + 1⟩ =
      live s ++ [⟨p, v, 0, c⟩] := by
  obtain ⟨h1, h2, h3, -, -⟩ := hwf
  rw [live_eq s n hn, live_eq _ (n + 1) (by push_cast; rfl), List.range_succ, List.map_append,
    List.map_singleton]
  congr 1
  · apply List.map_congr_left
    intro j hj
    rw [List.mem_range] at hj
    simp only [slot]
    rw [getD_set _ _ _ _ _ (by omega), getD_set _ _ _ _ _ (by omega),
      getD_set _ _ _ _ _ (by omega), if_neg (by omega), if_neg (by omega), if_neg (by omega)]
  · simp only [slot]
    rw [getD_set _ _ _ _ _ (by omega), getD_set _ _ _ _ _ (by omega),
      getD_set _ _ _ _ _ (by omega), if_pos rfl, if_pos rfl, if_pos rfl]

theorem size_zero_of_live_nil (N : Nat) (s : ParticleBuffer) (hwf : WF N s)
    (h : live s = []) : size s = 0 := by
  have := live_length N s hwf
  rw [h] at this
  simpa [size] using this.symm

theorem size_one_of_live_singleton (N : Nat) (s : ParticleBuffer) (r : Particle) (hwf : WF N s)
    (h : live s = [r]) : size s = 1 := by
  have := live_length N s hwf
  rw [h] at this
  simpa [size] using this.symm

theorem f32_add_mono_left (a b dt : ℚ) (h : a ≤ b) : f32_add a dt ≤ f32_add b dt :=
  binary32_mono _ _ (by linarith)

/-- Ages over a sequence of calls of an ageing loop whose single call is a compaction
pass: the live ages stay above the float accumulation of the steps, and after at least
one call they are at most `M`. -/
theorem seq_ages (N : Nat) (M : ℚ) (step : ℚ → Particle → Particle)
    (run : ℚ → ParticleBuffer → Except Fault ParticleBuffer)
    (seq : List ℚ → ParticleBuffer → Except Fault ParticleBuffer) (fuel : Nat)
    (hstep : ∀ dt r, (step dt r).age = f32_add r.age dt)
    (hrun : ∀ dt s, WF N s → s.nbr_points ≤ (fuel : Int) →
      ∃ s1, run dt s = .ok s1 ∧ WF N s1 ∧
        (live s1).Perm (compaction_pass dt M (step dt) (live s)))
    (hnil : ∀ s, seq [] s = .ok s)
    (hcons : ∀ dt rest s s1, run dt s = .ok s1 → seq (dt :: rest) s = seq rest s1)
    (dts : List ℚ) :
    ∀ (s : ParticleBuffer) (T : ℚ), WF N s → s.nbr_points ≤ (fuel : Int) →
      (∀ r ∈ live s, T ≤ r.age) →
      ∃ s1, seq dts s = .ok s1 ∧ WF N s1 ∧ s1.nbr_points ≤ s.nbr_points ∧
        (∀ r ∈ live s1, dts.foldl f32_add T ≤ r.age) ∧ (dts ≠ [] → ∀ r ∈ live s1, r.age ≤ M) := by
  induction dts with
  | nil =>
    intro s T hwf _ hage
    exact ⟨s, hnil s, hwf, le_refl _, by simpa using hage, fun h => absurd rfl h⟩
  | cons dt rest ih =>
    intro s T hwf hfuel hage
    obtain ⟨s1, h1, hwf1, hperm⟩ := hrun dt s hwf hfuel
    have hle := nbr_points_le_of_perm N s s1 hwf hwf1 _ _ _ hperm
    have hmem : ∀ r1 ∈ live s1, f32_add T dt ≤ r1.age ∧ r1.age ≤ M := by
      intro r1 hr1
      obtain ⟨r, hr, hsurv, rfl⟩ := (mem_compaction_pass _ _ _ _ _).1 (hperm.mem_iff.1 hr1)
      rw [hstep]
      exact ⟨f32_add_mono_left _ _ _ (hage r hr), hsurv⟩
    obtain ⟨s2, h2, hwf2, hle2, hage2, hmax2⟩ :=
      ih s1 (f32_add T dt) hwf1 (by omega) (fun r hr => (hmem r hr).1)
    refine ⟨s2, ?_, hwf2, by omega, ?_, ?_⟩
    · rw [hcons dt rest s s1 h1, h2]
    · intro r hr
      simpa using hage2 r hr
    · intro _ r hr
      by_cases hrest : rest = []
      · subst hrest
        rw [hnil] at h2
        cases h2
        exact (hmem r hr).2
      · exact hmax2 hrest r hr

theorem update_seq_ages (N fuel : Nat) (dts : List ℚ) (s : ParticleBuffer) (hwf : WF N s)
    (hfuel : s.nbr_points ≤ (fuel : Int)) (hage : ∀ r ∈ live s, 0 ≤ r.age) :
    ∃ s1, update_seq fuel dts s = .ok s1 ∧ WF N s1 ∧ s1.nbr_points ≤ s.nbr_points ∧
      (∀ r ∈ live s1, f32_sum dts ≤ r.age) ∧ (dts ≠ [] → ∀ r ∈ live s1, r.age ≤ 1 / 2) :=
  seq_ages N (1 / 2) update_step (update fuel) (update_seq fuel) fuel (fun _ _ => rfl)
    (fun dt s hwf hfuel => update_run N dt fuel s hwf hfuel) (fun _ => rfl)
    (fun dt rest s s1 h => by simp only [update_seq, h]) dts s 0 hwf hfuel hage

theorem update_explosion_seq_ages (N fuel : Nat) (dts : List ℚ) (s : ParticleBuffer)
    (hwf : WF N s) (hfuel : s.nbr_points ≤ (fuel : Int)) (hage : ∀ r ∈ live s, 0 ≤ r.age) :
    ∃ s1, update_explosion_seq fuel dts s = .ok s1 ∧ WF N s1 ∧
      s1.nbr_points ≤ s.nbr_points ∧
      (∀ r ∈ live s1, f32_sum dts ≤ r.age) ∧ (dts ≠ [] → ∀ r ∈ live s1, r.age ≤ 3 / 4) :=
  seq_ages N (3 / 4) update_explosion_step (update_explosion fuel) (update_explosion_seq fuel)
    fuel (fun _ _ => rfl)
    (fun dt s hwf hfuel => update_explosion_run N dt fuel s hwf hfuel) (fun _ => rfl)
    (fun dt rest s s1 h => by simp only [update_explosion_seq, h]) dts s 0 hwf hfuel hage

/-- A sequence of calls whose float accumulation of the steps exceeds `M` leaves no live
particle, for an ageing loop that keeps the ages of the survivors at most `M`. -/
theorem seq_expires (N : Nat) (M : ℚ) (s1 : ParticleBuffer) (dts : List ℚ) (hwf1 : WF N s1)
    (hage1 : ∀ r ∈ live s1, f32_sum dts ≤ r.age)
    (hmax1 : dts ≠ [] → ∀ r ∈ live s1, r.age ≤ M) (h0 : 0 ≤ M) (hsum : M < f32_sum dts) :
    size s1 = 0 := by
  apply size_zero_of_live_nil N s1 hwf1
  have hne : dts ≠ [] := by
    rintro rfl
    simp only [f32_sum, List.foldl_nil] at hsum
    linarith
  apply List.eq_nil_iff_forall_not_mem.2
  intro r hr
  have ha := hage1 r hr
  have hb := hmax1 hne r hr
  linarith

/-- One call of an ageing loop on a buffer with a single live particle. -/
theorem compaction_single (dt M : ℚ) (step : Particle → Particle) (r : Particle)
    (l : List Particle) (h : l.Perm (compaction_pass dt M step [r])) :
    l = if f32_add r.age dt ≤ M then [step r] else [] := by
  by_cases hs : f32_add r.age dt ≤ M
  · rw [if_pos hs]
    have hc : compaction_pass dt M step [r] = [step r] := by
      simp [compaction_pass, hs]
    rw [hc] at h
    exact List.perm_singleton.1 h
  · rw [if_neg hs]
    have hc : compaction_pass dt M step [r] = [] := by
      simp [compaction_pass, hs]
    rw [hc] at h
    exact List.perm_nil.1 h

theorem update_single (N fuel : Nat) (s : ParticleBuffer) (dt : ℚ) (r : Particle)
    (hwf : WF N s) (hfuel : s.nbr_points ≤ (fuel : Int)) (hl : live s = [r]) :
    ∃ s1, update fuel dt s = .ok s1 ∧ WF N s1 ∧
      live s1 = if f32_add r.age dt ≤ 1 / 2 then [update_step dt r] else [] := by
  obtain ⟨s1, h1, hwf1, hperm⟩ := update_run N dt fuel s hwf hfuel
  rw [hl] at hperm
  exact ⟨s1, h1, hwf1, compaction_single _ _ _ _ _ hperm⟩

theorem update_explosion_single (N fuel : Nat) (s : ParticleBuffer) (dt : ℚ) (r : Particle)
    (hwf : WF N s) (hfuel : s.nbr_points ≤ (fuel : Int)) (hl : live s = [r]) :
    ∃ s1, update_explosion fuel dt s = .ok s1 ∧ WF N s1 ∧
      live s1 = if f32_add r.age dt ≤ 3 / 4 then [update_explosion_step dt r] else [] := by
  obtain ⟨s1, h1, hwf1, hperm⟩ := update_explosion_run N dt fuel s hwf hfuel
  rw [hl] at hperm
  exact ⟨s1, h1, hwf1, compaction_single _ _ _ _ _ hperm⟩

theorem f32_mul_zero_left (c : ℚ) : f32_mul 0 c = 0 := by
  simp [f32_mul, binary32_zero]

theorem f32_add_zero_zero : f32_add 0 0 = 0 := by
  simp [f32_add, binary32_zero]

/-- The step of `update` on a particle at rest at the origin. -/
theorem update_step_at_rest (dt a : ℚ) (c : Nat) :
    update_step dt ⟨⟨0, 0, 0⟩, ⟨0, 0, 0⟩, a, c⟩ =
      ⟨⟨0, 0, 0⟩, ⟨0, 0, 0⟩, f32_add a dt, fade_color (1 / 2) (f32_add a dt) c⟩ := by
  simp only [update_step, v3f.add32, v3f.scale32, f32_mul_zero_left, f32_add_zero_zero, clamp]
  norm_num

/-- The step of `update_explosion` on a particle at rest at the origin. -/
theorem update_explosion_step_at_rest (dt a : ℚ) (c : Nat) :
    update_explosion_step dt ⟨⟨0, 0, 0⟩, ⟨0, 0, 0⟩, a, c⟩ =
      ⟨⟨0, 0, 0⟩, ⟨0, 0, 0⟩, f32_add a dt, fade_color (3 / 4) (f32_add a dt) c⟩ := by
  simp [update_explosion_step, v3f.add32, v3f.scale32, f32_mul_zero_left, f32_add_zero_zero]

theorem f32_add_half_tiny : f32_add (1 / 2) (1 / 1073741824) = 1 / 2 := by
  have := binary32_eval (1 / 2 + 1 / 1073741824) (-1) 8388608 (by norm_num [abs_of_pos])
    (by norm_num [abs_of_pos]) (by norm_num) (by norm_num) (by norm_num)
  unfold f32_add
  norm_num at this ⊢
  exact this

theorem f32_add_zero_half : f32_add 0 (1 / 2) = 1 / 2 := by
  unfold f32_add
  rw [zero_add]
  exact binary32_half

theorem binary32_tiny : binary32 (1 / 1073741824) = 1 / 1073741824 := by
  have := binary32_representable 1 (-30) (by norm_num) (by norm_num)
  norm_num at this ⊢
  exact this

/-- The `float` literal `0.6f`. -/
theorem binary32_three_fifths : binary32 (3 / 5) = 5033165 / 8388608 := by
  have := binary32_eval (3 / 5) (-1) 10066330 (by norm_num [abs_of_pos])
    (by norm_num [abs_of_pos]) (by norm_num) (by norm_num) (by norm_num)
  norm_num at this ⊢
  exact this

theorem f32_add_zero_06 : f32_add 0 (5033165 / 8388608) = 5033165 / 8388608 := by
  have := binary32_representable 5033165 (-23) (by norm_num) (by norm_num)
  unfold f32_add
  norm_num at this ⊢
  exact this

theorem live_demo_one : live demo_one = [⟨⟨0, 0, 0⟩, ⟨0, 0, 0⟩, 0, White⟩] := rfl

theorem live_demo_half : live demo_half = [⟨⟨0, 0, 0⟩, ⟨0, 0, 0⟩, 1 / 2, White⟩] := rfl

/-- C3 fails as stated: on one live particle of age 0 the calls `update(0.5f)`,
`update(2^-30)` have positive steps, both binary32 values, whose sum exceeds 0.5; they
return and leave `size() == 1`, because the age `0.5 + 2^-30` is rounded to `0.5`. -/
theorem update_seq_sum_rounds_away :
    WF 2 demo_one ∧ (∀ r ∈ live demo_one, 0 ≤ r.age) ∧
    (∀ dt ∈ ([1 / 2, 1 / 1073741824] : List ℚ), 0 < dt ∧ binary32 dt = dt) ∧
    (1 / 2 : ℚ) < ([1 / 2, 1 / 1073741824] : List ℚ).sum ∧
    f32_add (1 / 2) (1 / 1073741824) = 1 / 2 ∧
    ∃ s1, update_seq 1 [1 / 2, 1 / 1073741824] demo_one = .ok s1 ∧ size s1 = 1 := by
  refine ⟨by decide, ?_, ?_, by norm_num, f32_add_half_tiny, ?_⟩
  · intro r hr
    rw [live_demo_one, List.mem_singleton] at hr
    rw [hr]
  · intro dt hdt
    simp only [List.mem_cons, List.mem_singleton, List.not_mem_nil, or_false] at hdt
    rcases hdt with rfl | rfl
    · exact ⟨by norm_num, binary32_half⟩
    · exact ⟨by norm_num, binary32_tiny⟩
  · obtain ⟨s1, h1, hwf1, hl1⟩ :=
      update_single 2 1 demo_one (1 / 2) _ (by decide) (by decide) live_demo_one
    rw [update_step_at_rest, f32_add_zero_half, if_pos (le_refl _)] at hl1
    have hn1 : s1.nbr_points ≤ ((1 : Nat) : Int) := by
      have := size_one_of_live_singleton 2 s1 _ hwf1 hl1
      simp only [size] at this
      omega
    obtain ⟨s2, h2, hwf2, hl2⟩ := update_single 2 1 s1 (1 / 1073741824) _ hwf1 hn1 hl1
    rw [f32_add_half_tiny, if_pos (le_refl _)] at hl2
    refine ⟨s2, ?_, size_one_of_live_singleton 2 s2 _ hwf2 hl2⟩
    simp only [update_seq, h1, h2]

/-- C3 as amended: on a well-formed buffer whose live particles all have age at least 0,
the calls `update(dt_1), ..., update(dt_m)` with positive steps all return, and they
leave `size() == 0` when the binary32 accumulation of the steps,
`((0 + dt_1) + dt_2) + ... + dt_m` rounded after each addition, exceeds 0.5; and on an
empty buffer, `push_point({0,0,0}, {0,0,0}, White)` then `update(0.6f)` leaves
`size() == 0`. -/
theorem update_seq_expires_rounded :
    (∀ (N fuel : Nat) (s : ParticleBuffer) (dts : List ℚ), WF N s →
      s.nbr_points ≤ (fuel : Int) → (∀ r ∈ live s, 0 ≤ r.age) → (∀ dt ∈ dts, 0 < dt) →
      1 / 2 < f32_sum dts →
      ∃ s1, update_seq fuel dts s = .ok s1 ∧ size s1 = 0) ∧
    (∀ (N fuel : Nat) (s : ParticleBuffer), WF N s → s.nbr_points = 0 → 1 ≤ fuel →
      binary32 (3 / 5) = 5033165 / 8388608 ∧
      ∃ s1 s2, push_point N s ⟨0, 0, 0⟩ ⟨0, 0, 0⟩ White = .ok s1 ∧
        update fuel (5033165 / 8388608) s1 = .ok s2 ∧ size s2 = 0) := by
  have main : ∀ (N fuel : Nat) (s : ParticleBuffer) (dts : List ℚ), WF N s →
      s.nbr_points ≤ (fuel : Int) → (∀ r ∈ live s, 0 ≤ r.age) → 1 / 2 < f32_sum dts →
      ∃ s1, update_seq fuel dts s = .ok s1 ∧ size s1 = 0 := by
    intro N fuel s dts hwf hfuel hage hsum
    obtain ⟨s1, h1, hwf1, -, hage1, hmax1⟩ := update_seq_ages N fuel dts s hwf hfuel hage
    exact ⟨s1, h1, seq_expires N (1 / 2) s1 dts hwf1 hage1 hmax1 (by norm_num) hsum⟩
  refine ⟨fun N fuel s dts hwf hfuel hage _ hsum => main N fuel s dts hwf hfuel hage hsum, ?_⟩
  intro N fuel s hwf hempty hfuel
  refine ⟨binary32_three_fifths, ?_⟩
  obtain ⟨s1, h1, hwf1, hn1⟩ := push_point_wf N s ⟨0, 0, 0⟩ ⟨0, 0, 0⟩ White hwf
  have hfuel1 : s1.nbr_points ≤ (fuel : Int) := by
    rw [hn1, hempty]
    split_ifs <;> omega
  have hage1 : ∀ r ∈ live s1, 0 ≤ r.age := by
    by_cases hN : 0 < N
    · have hfree := push_point_free N s ⟨0, 0, 0⟩ ⟨0, 0, 0⟩ White 0 hwf (by simpa using hempty) hN
      rw [h1] at hfree
      cases hfree
      have hl := push_point_live N s ⟨0, 0, 0⟩ ⟨0, 0, 0⟩ White 0 hwf (by simpa using hempty) hN
      have hs : live s = [] := by simp [live, hempty]
      rw [hs] at hl
      intro r hr
      rw [hl] at hr
      simp only [List.nil_append, List.mem_singleton] at hr
      rw [hr]
    · have hfull := push_point_full N s ⟨0, 0, 0⟩ ⟨0, 0, 0⟩ White (by omega)
      rw [h1] at hfull
      cases hfull
      intro r hr
      simp [live, hempty] at hr
  have hsum : 1 / 2 < f32_sum [5033165 / 8388608] := by
    simp only [f32_sum, List.foldl_cons, List.foldl_nil, f32_add_zero_06]
    norm_num
  obtain ⟨s2, h2, hz⟩ := main N fuel s1 [5033165 / 8388608] hwf1 hfuel1 hage1 hsum
  refine ⟨s1, s2, h1, ?_, hz⟩
  simp only [update_seq] at h2
  cases hu : update fuel (5033165 / 8388608) s1 with
  | error e => rw [hu] at h2; cases h2
  | ok s3 => rw [hu] at h2; exact h2

/-- Witness of C3 as amended: two steps of 3/8 on a buffer of three live particles, and
the scenario on an empty buffer of capacity 2. -/
theorem update_seq_expires_rounded_witness :
    (WF 3 demo_three ∧ demo_three.nbr_points ≤ ((3 : Nat) : Int) ∧
      (∀ dt ∈ ([3 / 8, 3 / 8] : List ℚ), 0 < dt) ∧
      (1 / 2 : ℚ) < f32_sum [3 / 8, 3 / 8] ∧
      ∃ s1, update_seq 3 [3 / 8, 3 / 8] demo_three = .ok s1 ∧ size s1 = 0) ∧
    (WF 2 demo_empty2 ∧
      ∃ s1 s2, push_point 2 demo_empty2 ⟨0, 0, 0⟩ ⟨0, 0, 0⟩ White = .ok s1 ∧
        update 1 (5033165 / 8388608) s1 = .ok s2 ∧ size s2 = 0) := by
  have hpos : ∀ dt ∈ ([3 / 8, 3 / 8] : List ℚ), 0 < dt := by
    intro dt hdt
    simp only [List.mem_cons, List.mem_singleton, List.not_mem_nil, or_false, or_self] at hdt
    rw [hdt]
    norm_num
  have hages : ∀ r ∈ live demo_three, 0 ≤ r.age := by
    intro r hr
    simp [live, demo_three, slot, List.range_succ] at hr
    rcases hr with rfl | rfl | rfl <;> norm_num
  have h1 : f32_add 0 (3 / 8) = 3 / 8 := by
    have := binary32_representable 3 (-3) (by norm_num) (by norm_num)
    unfold f32_add
    norm_num at this ⊢
    exact this
  have h2 : f32_add (3 / 8) (3 / 8) = 3 / 4 := by
    have := binary32_representable 3 (-2) (by norm_num) (by norm_num)
    unfold f32_add
    norm_num at this ⊢
    exact this
  have hsum : (1 / 2 : ℚ) < f32_sum [3 / 8, 3 / 8] := by
    simp only [f32_sum, List.foldl_cons, List.foldl_nil, h1, h2]
    norm_num
  exact ⟨⟨by decide, by decide, hpos, hsum,
      update_seq_expires_rounded.1 3 3 demo_three _ (by decide) (by decide) hages hpos hsum⟩,
    by decide,
    (update_seq_expires_rounded.2 2 1 demo_empty2 (by decide) rfl (le_refl _)).2⟩

/-! ## `update` as a compaction pass, and the swap-removal step -/

theorem clamp_bounds (x lo hi : ℚ) (h : lo ≤ hi) :
    lo ≤ clamp x lo hi ∧ clamp x lo hi ≤ hi := by
  unfold clamp
  split_ifs with h1 h2
  · exact ⟨le_refl _, h⟩
  · exact ⟨h, le_refl _⟩
  · exact ⟨not_lt.1 h1, not_lt.1 h2⟩

/-- C4 fails as stated: on one live particle of age 0.5 and `dt = 2^-30`, both binary32
values, no record has `age + dt ≤ 0.5`, so the pass of the claim yields no record and
size 0; `update(dt)` keeps the particle, with the age `0.5 + 2^-30` rounded to `0.5`,
and leaves `size() == 1`. -/
theorem update_keeps_rounded_age :
    WF 2 demo_half ∧ binary32 (1 / 2) = 1 / 2 ∧ binary32 (1 / 1073741824) = 1 / 1073741824 ∧
    spec_pass (1 / 1073741824) (live demo_half) = [] ∧
    ((live demo_half).filter (fun r => decide (r.age + 1 / 1073741824 ≤ 1 / 2))).length = 0 ∧
    ∃ s1 r, update 1 (1 / 1073741824) demo_half = .ok s1 ∧ size s1 = 1 ∧ live s1 = [r] ∧
      r.age = 1 / 2 := by
  have hf : (live demo_half).filter (fun r => decide (r.age + 1 / 1073741824 ≤ 1 / 2)) = [] := by
    rw [live_demo_half]
    apply List.filter_eq_nil_iff.2
    intro r hr
    rw [List.mem_singleton] at hr
    rw [hr]
    norm_num
  refine ⟨by decide, binary32_half, binary32_tiny, ?_, by rw [hf]; rfl, ?_⟩
  · rw [spec_pass, hf]
    rfl
  · obtain ⟨s1, h1, hwf1, hl1⟩ :=
      update_single 2 1 demo_half (1 / 1073741824) _ (by decide) (by decide) live_demo_half
    rw [update_step_at_rest, f32_add_half_tiny, if_pos (le_refl _)] at hl1
    exact ⟨s1, _, h1, size_one_of_live_singleton 2 s1 _ hwf1 hl1, hl1, rfl⟩

/-- C4 as amended: on a well-formed buffer, `update(dt)` returns and the multiset of live
records afterwards is the multiset produced by one forward compaction pass over the live
records before: the records whose binary32 sum `age + dt` is at most 0.5, each replaced
by `update_step`, which computes in binary32, in the order of the source, the velocity
`v + (v * -2.5) * dt`, the position `clamp_xy(p + v' * dt)` from the new velocity `v'`,
the age `age + dt` and the alpha byte of that age (each operation rounded, no result
beyond the binary32 range); `size()` afterwards is the number of such records, and
`clamp_xy` brings `x` into `[-5, 10]` and `y` into `[-5, 5]`, leaving `z`. -/
theorem update_refines_rounded_pass (N fuel : Nat) (s : ParticleBuffer) (dt : ℚ)
    (hwf : WF N s) (hfuel : s.nbr_points ≤ (fuel : Int)) :
    ∃ s1, update fuel dt s = .ok s1 ∧
      ((live s1 : List Particle) : Multiset Particle) =
        ((compaction_pass dt (1 / 2) (update_step dt) (live s) : List Particle) :
          Multiset Particle) ∧
      size s1 = (((live s).filter (fun r => decide (f32_add r.age dt ≤ 1 / 2))).length : Int) ∧
      (∀ r : Particle,
        (update_step dt r).v = v3f.add32 r.v (v3f.scale32 (v3f.scale32 r.v (-5 / 2)) dt) ∧
        (update_step dt r).p =
          clamp_xy (v3f.add32 r.p (v3f.scale32 (update_step dt r).v dt)) ∧
        (update_step dt r).age = f32_add r.age dt ∧
        (update_step dt r).color = fade_color (1 / 2) (f32_add r.age dt) r.color) ∧
      ∀ p : v3f, (-5 ≤ (clamp_xy p).x ∧ (clamp_xy p).x ≤ 10) ∧
        (-5 ≤ (clamp_xy p).y ∧ (clamp_xy p).y ≤ 5) ∧ (clamp_xy p).z = p.z := by
  obtain ⟨s1, h1, hwf1, hperm⟩ := update_run N dt fuel s hwf hfuel
  refine ⟨s1, h1, Multiset.coe_eq_coe.2 hperm, ?_, fun r => ⟨rfl, rfl, rfl, rfl⟩, ?_⟩
  · have hl := hperm.length_eq
    have hl1 := live_length N s1 hwf1
    simp only [compaction_pass, List.length_map] at hl
    simp only [size]
    omega
  · intro p
    exact ⟨clamp_bounds _ _ _ (by norm_num), clamp_bounds _ _ _ (by norm_num), rfl⟩

/-- Witness of C4 as amended: `update(1/4)` on a buffer of three live particles, one of
which expires. -/
theorem update_refines_rounded_pass_witness :
    WF 3 demo_three ∧ demo_three.nbr_points ≤ ((3 : Nat) : Int) ∧
    ∃ s1, update 3 (1 / 4) demo_three = .ok s1 ∧
      ((live s1 : List Particle) : Multiset Particle) =
        ((compaction_pass (1 / 4) (1 / 2) (update_step (1 / 4)) (live demo_three) :
          List Particle) : Multiset Particle) ∧
      size s1 =
        (((live demo_three).filter
          (fun r => decide (f32_add r.age (1 / 4) ≤ 1 / 2))).length : Int) :=
  ⟨by decide, by decide,
    (update_refines_rounded_pass 3 3 demo_three (1 / 4) (by decide) (by decide)).imp
      fun _ h => ⟨h.1, h.2.1, h.2.2.1⟩⟩

/-- C5: in a well-formed buffer with `n ≥ 1` live particles, the swap-removal at an
index `i < n` returns with `n - 1` live particles and the index `i - 1`, leaves every
slot `j < n - 1` other than `i` as it was, and slot `i` holds afterwards the position,
colour, velocity and age that slot `n - 1` held before. -/
theorem swap_remove_contract (N : Nat) (s : ParticleBuffer) (i n : Nat) (hwf : WF N s)
    (hn : s.nbr_points = (n : Int)) (hpos : 1 ≤ n) (hi : i < n) :
    ∃ s1, swap_remove s (i : Int) = .ok (s1, (i : Int) - 1) ∧
      size s1 = (n : Int) - 1 ∧
      (∀ j, j < n - 1 → j ≠ i → slot s1 j = slot s j) ∧
      slot s1 i = slot s (n - 1) ∧
      rd s1.points (i : Int) = rd s.points ((n : Int) - 1) ∧
      rd s1.point_vels (i : Int) = rd s.point_vels ((n : Int) - 1) ∧
      rd s1.point_ages (i : Int) = rd s.point_ages ((n : Int) - 1) := by
  obtain ⟨m, rfl⟩ : ∃ m, n = m + 1 := ⟨n - 1, by omega⟩
  have hn1 : s.nbr_points = (m : Int) + 1 := by rw [hn]; push_cast; rfl
  obtain ⟨s1, h1, hwf1, hm, hslots⟩ := swap_remove_spec N s i m hwf hn1 (by omega)
  have hmN : m < N := by have := hwf.2.2.2.2; omega
  have hiN : i < N := by omega
  have e : ((m + 1 : Nat) : Int) - 1 = (m : Int) := by push_cast; ring
  have hslot_i := hslots i
  rw [if_pos rfl] at hslot_i
  obtain ⟨l1, l2, l3, -, -⟩ := hwf
  obtain ⟨k1, k2, k3, -, -⟩ := hwf1
  refine ⟨s1, h1, ?_, ?_, ?_, ?_, ?_, ?_⟩
  · simp only [size, hm, e]
  · intro j _ hji
    rw [hslots j, if_neg hji]
  · simpa using hslot_i
  · rw [e, rd_natCast _ i default (by omega), rd_natCast _ m default (by omega)]
    congr 1
    have hp := congrArg Particle.p hslot_i
    have hc := congrArg Particle.color hslot_i
    simp only [slot] at hp hc
    cases h : s1.points.getD i default
    cases h' : s.points.getD m default
    rw [h, h'] at hp hc
    simp only at hp hc
    rw [hp, hc]
  · rw [e, rd_natCast _ i default (by omega), rd_natCast _ m default (by omega)]
    exact congrArg Except.ok (congrArg Particle.v hslot_i)
  · rw [e, rd_natCast _ i 0 (by omega), rd_natCast _ m 0 (by omega)]
    exact congrArg Except.ok (congrArg Particle.age hslot_i)

/-- Witness of C5: removal of slot 0 in a buffer of three live particles. -/
theorem swap_remove_contract_witness :
    WF 3 demo_three ∧ demo_three.nbr_points = ((3 : Nat) : Int) ∧
    ∃ s1, swap_remove demo_three ((0 : Nat) : Int) = .ok (s1, ((0 : Nat) : Int) - 1) ∧
      size s1 = ((3 : Nat) : Int) - 1 ∧
      (∀ j, j < 3 - 1 → j ≠ 0 → slot s1 j = slot demo_three j) ∧
      slot s1 0 = slot demo_three (3 - 1) ∧
      rd s1.points ((0 : Nat) : Int) = rd demo_three.points (((3 : Nat) : Int) - 1) ∧
      rd s1.point_vels ((0 : Nat) : Int) = rd demo_three.point_vels (((3 : Nat) : Int) - 1) ∧
      rd s1.point_ages ((0 : Nat) : Int) = rd demo_three.point_ages (((3 : Nat) : Int) - 1) :=
  ⟨by decide, by decide,
    swap_remove_contract 3 demo_three 0 3 (by decide) (by decide) (by decide) (by decide)⟩

end ParticleBuffer

/-! ## The alpha byte and the colour bits -/

theorem rd_cons_zero {α : Type} (x : α) (xs : List α) : rd (x :: xs) 0 = .ok x := by
  simp [rd]

theorem pure_ok {α : Type} (a : α) : (pure a : Except Fault α) = .ok a := rfl

theorem wr_cons_zero {α : Type} (x y : α) (xs : List α) : wr (x :: xs) 0 y = .ok (y :: xs) := by
  simp [wr]

namespace ParticleBuffer

theorem trunc_of_nonneg (x : ℚ) (h : 0 ≤ x) : trunc x = ⌊x⌋ := by
  simp [trunc, h]

theorem v3f_add_eq (a b : v3f) : a + b = ⟨a.x + b.x, a.y + b.y, a.z + b.z⟩ := rfl

theorem v3f_scale_eq (a : v3f) (c : ℚ) : a * c = (⟨a.x * c, a.y * c, a.z * c⟩ : v3f) := rfl

theorem fade_alpha_eq (M a : ℚ) : fade_alpha M a = to_uchar (fade_value M a) := rfl

/-- The rounded quotient `age / max_age` stays in `[0, 1]`. -/
theorem f32_div_unit (M a : ℚ) (hM : 0 < M) (h0 : 0 ≤ a) (h1 : a ≤ M) :
    0 ≤ f32_div a M ∧ f32_div a M ≤ 1 := by
  have hq0 : 0 ≤ a / M := div_nonneg h0 hM.le
  have hq1 : a / M ≤ 1 := (div_le_one hM).2 h1
  constructor
  · exact binary32_nonneg _ hq0
  · have := binary32_mono _ _ hq1
    rwa [binary32_one] at this

theorem fade_value_bounds (M a : ℚ) (hM : 0 < M) (h0 : 0 ≤ a) (h1 : a ≤ M) :
    0 ≤ fade_value M a ∧ fade_value M a ≤ 255 := by
  obtain ⟨q0, q1⟩ := f32_div_unit M a hM h0 h1
  have d0 : 0 ≤ f32_sub 1 (f32_div a M) := binary32_nonneg _ (by linarith)
  have d1 : f32_sub 1 (f32_div a M) ≤ 1 := by
    have := binary32_mono (1 - f32_div a M) 1 (by linarith)
    rwa [binary32_one] at this
  constructor
  · exact binary32_nonneg _ (by positivity)
  · have := binary32_mono (f32_sub 1 (f32_div a M) * 255) 255 (by linarith)
    rwa [binary32_255] at this

/-- The value converted by the fade branch does not increase with the age. -/
theorem fade_value_anti (M a1 a2 : ℚ) (hM : 0 < M) (h : a1 ≤ a2) :
    fade_value M a2 ≤ fade_value M a1 := by
  have hq : f32_div a1 M ≤ f32_div a2 M :=
    binary32_mono _ _ (div_le_div_of_nonneg_right h hM.le)
  have hd : f32_sub 1 (f32_div a2 M) ≤ f32_sub 1 (f32_div a1 M) :=
    binary32_mono _ _ (by linarith)
  exact binary32_mono _ _ (by linarith)

theorem fade_alpha_floor (M a : ℚ) (hM : 0 < M) (h0 : 0 ≤ a) (h1 : a ≤ M) :
    (fade_alpha M a : Int) = ⌊fade_value M a⌋ ∧ 0 ≤ trunc (fade_value M a) ∧
      trunc (fade_value M a) ≤ 255 := by
  obtain ⟨hx0, hx255⟩ := fade_value_bounds M a hM h0 h1
  have hx1 : fade_value M a ≤ ((255 : Int) : ℚ) := by push_cast; exact hx255
  have ht : trunc (fade_value M a) = ⌊fade_value M a⌋ := trunc_of_nonneg _ hx0
  have hf0 : 0 ≤ ⌊fade_value M a⌋ := Int.floor_nonneg.2 hx0
  have hf1 : ⌊fade_value M a⌋ ≤ 255 := by
    have := Int.floor_mono hx1
    rwa [Int.floor_intCast] at this
  refine ⟨?_, by rw [ht]; exact hf0, by rw [ht]; exact hf1⟩
  simp only [fade_alpha_eq, to_uchar, ht]
  omega

theorem alpha_byte_fade_color (M a : ℚ) (c : Nat) (hM : 0 < M) (h0 : 0 ≤ a) (h1 : a ≤ M) :
    (((fade_color M a c >>> 24) % 256 : Nat) : Int) = ⌊fade_value M a⌋ := by
  obtain ⟨h, -, -⟩ := fade_alpha_floor M a hM h0 h1
  have hlt : fade_alpha M a < 256 := by
    simp only [fade_alpha_eq, to_uchar]
    omega
  rw [fade_color, shift_recolor, Nat.mod_eq_of_lt hlt, h]

/-- The `float` literal `0.01f`. -/
theorem binary32_hundredth : binary32 (1 / 100) = 5368709 / 536870912 := by
  have := binary32_eval (1 / 100) (-7) 10737418 (by norm_num [abs_of_pos])
    (by norm_num [abs_of_pos]) (by norm_num) (by norm_num) (by norm_num)
  norm_num at this ⊢
  exact this

theorem f32_add_zero_001 : f32_add 0 (5368709 / 536870912) = 5368709 / 536870912 := by
  have := binary32_representable 5368709 (-29) (by norm_num) (by norm_num)
  unfold f32_add
  norm_num at this ⊢
  exact this

/-- The alpha value of the age `0.01f` under `max_age = 0.5`: the quotient is exact, the
difference and the product are rounded. -/
theorem fade_value_001 : fade_value (1 / 2) (5368709 / 536870912) = 16377447 / 65536 := by
  have e1 : f32_div (5368709 / 536870912) (1 / 2) = 5368709 / 268435456 := by
    have := binary32_representable 5368709 (-28) (by norm_num) (by norm_num)
    unfold f32_div
    norm_num at this ⊢
    exact this
  have e2 : f32_sub 1 (5368709 / 268435456) = 2055209 / 2097152 := by
    have := binary32_eval (1 - 5368709 / 268435456) (-1) 16441672 (by norm_num [abs_of_pos])
      (by norm_num [abs_of_pos]) (by norm_num) (by norm_num) (by norm_num)
    unfold f32_sub
    norm_num at this ⊢
    exact this
  have e3 : f32_mul (2055209 / 2097152) 255 = 16377447 / 65536 := by
    have := binary32_eval (2055209 / 2097152 * 255) 7 16377447 (by norm_num [abs_of_pos])
      (by norm_num [abs_of_pos]) (by norm_num) (by norm_num) (by norm_num)
    unfold f32_mul
    norm_num at this ⊢
    exact this
  rw [fade_value, e1, e2, e3]

theorem to_uchar_of_floor (x : ℚ) (n : Nat) (h0 : (n : ℚ) ≤ x) (h1 : x < (n : ℚ) + 1)
    (hn : n < 256) : to_uchar x = n := by
  have hx : 0 ≤ x := le_trans (by positivity) h0
  have hf : ⌊x⌋ = (n : Int) := by
    rw [Int.floor_eq_iff]
    exact ⟨by exact_mod_cast h0, by exact_mod_cast h1⟩
  rw [to_uchar, trunc_of_nonneg _ hx, hf]
  omega

/-- C6 fails as stated, at the age `0.01f`: `update(0.01f)` on one particle of age 0
keeps it with the age `0.01f` and writes the alpha byte 249, the integer part of the
binary32 value 249.90001, and not 250, the integer nearest to `(1 - a/0.5) * 255`. -/
theorem update_alpha_not_nearest :
    binary32 (1 / 100) = 5368709 / 536870912 ∧
    (∃ s1, update 1 (5368709 / 536870912) demo_one = .ok s1 ∧
      live s1 = [⟨⟨0, 0, 0⟩, ⟨0, 0, 0⟩, 5368709 / 536870912, 0xf9ffffff⟩]) ∧
    ((0xf9ffffff : Nat) >>> 24) % 256 = 249 ∧
    round ((1 - (5368709 / 536870912 : ℚ) / (1 / 2)) * 255) = 250 ∧
    ((((0xf9ffffff : Nat) >>> 24) % 256 : Nat) : Int) ≠
      round ((1 - (5368709 / 536870912 : ℚ) / (1 / 2)) * 255) := by
  have hround : round ((1 - (5368709 / 536870912 : ℚ) / (1 / 2)) * 255) = 250 := by
    rw [round_eq, Int.floor_eq_iff]
    norm_num
  refine ⟨binary32_hundredth, ?_, by decide, hround, by rw [hround]; decide⟩
  obtain ⟨s1, h1, -, hl1⟩ :=
    update_single 2 1 demo_one (5368709 / 536870912) _ (by decide) (by decide) live_demo_one
  have halpha : fade_alpha (1 / 2) (5368709 / 536870912) = 249 := by
    rw [fade_alpha_eq, fade_value_001]
    exact to_uchar_of_floor _ 249 (by norm_num) (by norm_num) (by norm_num)
  have hcol : fade_color (1 / 2) (5368709 / 536870912) White = 0xf9ffffff := by
    rw [fade_color, halpha]
    decide
  rw [update_step_at_rest, f32_add_zero_001, if_pos (by norm_num), hcol] at hl1
  exact ⟨s1, h1, hl1⟩

/-- C6 as amended: on a well-formed buffer `update(dt)` returns, and every live particle
afterwards whose age `a` is at least 0 has `a ≤ 0.5` and an alpha byte (bits 24..31 of its
colour) equal to the integer part of the binary32 value of `(1 - a/0.5) * 255`, the
quotient, the difference and the product each rounded to binary32: the value is cut to
its integer part, not rounded to the nearest integer. -/
theorem update_alpha_floor (N fuel : Nat) (s : ParticleBuffer) (dt : ℚ)
    (hwf : WF N s) (hfuel : s.nbr_points ≤ (fuel : Int)) :
    ∃ s1, update fuel dt s = .ok s1 ∧
      ∀ r ∈ live s1, 0 ≤ r.age →
        r.age ≤ 1 / 2 ∧
          (((r.color >>> 24) % 256 : Nat) : Int) =
            ⌊f32_mul (f32_sub 1 (f32_div r.age (1 / 2))) 255⌋ := by
  obtain ⟨s1, h1, -, hperm⟩ := update_run N dt fuel s hwf hfuel
  refine ⟨s1, h1, ?_⟩
  intro r hr h0
  obtain ⟨r0, -, hsurv, rfl⟩ := (mem_compaction_pass _ _ _ _ _).1 (hperm.mem_iff.1 hr)
  exact ⟨hsurv, alpha_byte_fade_color (1 / 2) (f32_add r0.age dt) r0.color (by norm_num) h0 hsurv⟩

/-- Witness of C6 as amended: `update(1/4)` on a buffer of three live particles. -/
theorem update_alpha_floor_witness :
    WF 3 demo_three ∧ demo_three.nbr_points ≤ ((3 : Nat) : Int) ∧
    ∃ s1, update 3 (1 / 4) demo_three = .ok s1 ∧
      ∀ r ∈ live s1, 0 ≤ r.age →
        r.age ≤ 1 / 2 ∧
          (((r.color >>> 24) % 256 : Nat) : Int) =
            ⌊f32_mul (f32_sub 1 (f32_div r.age (1 / 2))) 255⌋ :=
  ⟨by decide, by decide, update_alpha_floor 3 3 demo_three (1 / 4) (by decide) (by decide)⟩

/-- C7: on a well-formed buffer `update(dt)` and `update_explosion(dt)` return, the live
records afterwards are, up to order, the images under `update_step` (respectively
`update_explosion_step`) of the records that do not expire, and both steps keep the low
24 bits of the colour. -/
theorem aging_keeps_rgb (N fuel : Nat) (s : ParticleBuffer) (dt : ℚ)
    (hwf : WF N s) (hfuel : s.nbr_points ≤ (fuel : Int)) :
    (∃ s1, update fuel dt s = .ok s1 ∧
      (live s1).Perm
        (((live s).filter (fun r => decide (f32_add r.age dt ≤ 1 / 2))).map (update_step dt))) ∧
    (∃ s1, update_explosion fuel dt s = .ok s1 ∧
      (live s1).Perm
        (((live s).filter (fun r => decide (f32_add r.age dt ≤ 3 / 4))).map
          (update_explosion_step dt))) ∧
    (∀ r : Particle, (update_step dt r).color &&& 0x00ffffff = r.color &&& 0x00ffffff) ∧
    (∀ r : Particle,
      (update_explosion_step dt r).color &&& 0x00ffffff = r.color &&& 0x00ffffff) := by
  obtain ⟨s1, h1, -, hperm1⟩ := update_run N dt fuel s hwf hfuel
  obtain ⟨s2, h2, -, hperm2⟩ := update_explosion_run N dt fuel s hwf hfuel
  exact ⟨⟨s1, h1, hperm1⟩, ⟨s2, h2, hperm2⟩, fun r => testBit_recolor _ _,
    fun r => testBit_recolor _ _⟩

/-- Witness of C7: the two updates with step 1/4 on a buffer of three live particles. -/
theorem aging_keeps_rgb_witness :
    WF 3 demo_three ∧ demo_three.nbr_points ≤ ((3 : Nat) : Int) ∧
    (∃ s1, update 3 (1 / 4) demo_three = .ok s1 ∧
      (live s1).Perm
        (((live demo_three).filter (fun r => decide (f32_add r.age (1 / 4) ≤ 1 / 2))).map
          (update_step (1 / 4)))) ∧
    (∃ s1, update_explosion 3 (1 / 4) demo_three = .ok s1 ∧
      (live s1).Perm
        (((live demo_three).filter (fun r => decide (f32_add r.age (1 / 4) ≤ 3 / 4))).map
          (update_explosion_step (1 / 4)))) ∧
    (∀ r : Particle,
      (update_step (1 / 4) r).color &&& 0x00ffffff = r.color &&& 0x00ffffff) ∧
    (∀ r : Particle,
      (update_explosion_step (1 / 4) r).color &&& 0x00ffffff = r.color &&& 0x00ffffff) :=
  ⟨by decide, by decide, aging_keeps_rgb 3 3 demo_three (1 / 4) (by decide) (by decide)⟩

/-- The value converted by the fade branch on the last 1/255 of the interval of ages is
below 1: the quotient `254/255` is rounded to `16711423 / 2^24`, and from there the
difference and the product are exact. -/
theorem fade_value_last (M a : ℚ) (hM : 0 < M) (hlo : M * (254 / 255) < a) :
    fade_value M a ≤ 16777215 / 16777216 := by
  have e1 : binary32 (254 / 255) = 16711423 / 16777216 := by
    have := binary32_eval (254 / 255) (-1) 16711423 (by norm_num [abs_of_pos])
      (by norm_num [abs_of_pos]) (by norm_num) (by norm_num) (by norm_num)
    norm_num at this ⊢
    exact this
  have e2 : binary32 (1 - 16711423 / 16777216) = 65793 / 16777216 := by
    have := binary32_representable 65793 (-24) (by norm_num) (by norm_num)
    norm_num at this ⊢
    exact this
  have e3 : binary32 (65793 / 16777216 * 255) = 16777215 / 16777216 := by
    have := binary32_representable 16777215 (-24) (by norm_num) (by norm_num)
    norm_num at this ⊢
    exact this
  have hq : 254 / 255 ≤ a / M := by
    rw [le_div_iff₀ hM]
    linarith
  have h1 : 16711423 / 16777216 ≤ f32_div a M := by
    have := binary32_mono _ _ hq
    rwa [e1] at this
  have h2 : f32_sub 1 (f32_div a M) ≤ 65793 / 16777216 := by
    have := binary32_mono (1 - f32_div a M) (1 - 16711423 / 16777216) (by linarith)
    rwa [e2] at this
  have h3 := binary32_mono (f32_sub 1 (f32_div a M) * 255) (65793 / 16777216 * 255)
    (by linarith)
  rwa [e3] at h3

theorem fade_alpha_facts (M : ℚ) (hM : 0 < M) :
    (∀ a1 a2 : ℚ, 0 ≤ a1 → a1 ≤ a2 → a2 ≤ M → fade_alpha M a2 ≤ fade_alpha M a1) ∧
    fade_alpha M 0 = 255 ∧
    (∀ a : ℚ, 0 ≤ a → a ≤ M →
      0 ≤ trunc (f32_mul (f32_sub 1 (f32_div a M)) 255) ∧
        trunc (f32_mul (f32_sub 1 (f32_div a M)) 255) ≤ 255 ∧
        (fade_alpha M a : Int) = trunc (f32_mul (f32_sub 1 (f32_div a M)) 255)) ∧
    fade_alpha M M = 0 ∧
    (∀ a : ℚ, M * (254 / 255) < a → a ≤ M → fade_alpha M a = 0) := by
  have hzero : ∀ a : ℚ, M * (254 / 255) < a → a ≤ M → fade_alpha M a = 0 := by
    intro a hlo hhi
    have h0 : 0 ≤ a := le_trans (by positivity) hlo.le
    obtain ⟨h, -, -⟩ := fade_alpha_floor M a hM h0 hhi
    obtain ⟨hx0, -⟩ := fade_value_bounds M a hM h0 hhi
    have hx1 := fade_value_last M a hM hlo
    have hfl : ⌊fade_value M a⌋ = 0 := by
      rw [Int.floor_eq_iff]
      constructor
      · push_cast; exact hx0
      · push_cast; linarith
    rw [hfl] at h
    exact_mod_cast h
  refine ⟨?_, ?_, ?_, ?_, hzero⟩
  · intro a1 a2 h0 h12 h2
    obtain ⟨e1, -, -⟩ := fade_alpha_floor M a1 hM h0 (le_trans h12 h2)
    obtain ⟨e2, -, -⟩ := fade_alpha_floor M a2 hM (le_trans h0 h12) h2
    have hmono : ⌊fade_value M a2⌋ ≤ ⌊fade_value M a1⌋ :=
      Int.floor_mono (fade_value_anti M a1 a2 hM h12)
    have : (fade_alpha M a2 : Int) ≤ (fade_alpha M a1 : Int) := by rw [e1, e2]; exact hmono
    exact_mod_cast this
  · have hv : fade_value M 0 = 255 := by
      simp [fade_value, f32_div, f32_sub, f32_mul, binary32_zero, binary32_one, binary32_255]
    rw [fade_alpha_eq, hv]
    exact to_uchar_of_floor _ 255 (by norm_num) (by norm_num) (by norm_num)
  · intro a h0 h1
    obtain ⟨e, t0, t1⟩ := fade_alpha_floor M a hM h0 h1
    obtain ⟨hx0, -⟩ := fade_value_bounds M a hM h0 h1
    refine ⟨t0, t1, ?_⟩
    rw [e]
    exact (trunc_of_nonneg _ hx0).symm
  · exact hzero M (by nlinarith) (le_refl _)

/-- C8: for `max_age` 0.5 (`update`) and 0.75 (`update_explosion`) the alpha byte written
for a resulting age `a` is `fade_alpha max_age a`; on `[0, max_age]` it is non-increasing
in `a`, it is 255 at age 0, the converted value lies in `0..255` (the conversion to a
byte does not wrap), and it is 0 at `max_age` and on the last 1/255 of the interval. -/
theorem fade_alpha_monotone (M : ℚ) (hM : M = 1 / 2 ∨ M = 3 / 4) :
    (∀ (dt : ℚ) (r : Particle),
      (update_step dt r).color >>> 24 = fade_alpha (1 / 2) (update_step dt r).age ∧
      (update_explosion_step dt r).color >>> 24 =
        fade_alpha (3 / 4) (update_explosion_step dt r).age) ∧
    (∀ a1 a2 : ℚ, 0 ≤ a1 → a1 ≤ a2 → a2 ≤ M → fade_alpha M a2 ≤ fade_alpha M a1) ∧
    fade_alpha M 0 = 255 ∧
    (∀ a : ℚ, 0 ≤ a → a ≤ M →
      0 ≤ trunc (f32_mul (f32_sub 1 (f32_div a M)) 255) ∧
        trunc (f32_mul (f32_sub 1 (f32_div a M)) 255) ≤ 255 ∧
        (fade_alpha M a : Int) = trunc (f32_mul (f32_sub 1 (f32_div a M)) 255)) ∧
    fade_alpha M M = 0 ∧
    (∀ a : ℚ, M * (254 / 255) < a → a ≤ M → fade_alpha M a = 0) := by
  have hpos : 0 < M := by rcases hM with h | h <;> rw [h] <;> norm_num
  exact ⟨fun dt r => ⟨shift_recolor _ _, shift_recolor _ _⟩, fade_alpha_facts M hpos⟩

/-- Witness of C8: the facts at `max_age = 1/2`, with the ages 1/8 and 1/4 compared. -/
theorem fade_alpha_monotone_witness :
    ((1 / 2 : ℚ) = 1 / 2 ∨ (1 / 2 : ℚ) = 3 / 4) ∧
    fade_alpha (1 / 2) (1 / 4) ≤ fade_alpha (1 / 2) (1 / 8) ∧
    fade_alpha (1 / 2) 0 = 255 ∧ fade_alpha (1 / 2) (1 / 2) = 0 :=
  ⟨Or.inl rfl,
    (fade_alpha_monotone (1 / 2) (Or.inl rfl)).2.1 (1 / 8) (1 / 4) (by norm_num) (by norm_num)
      (by norm_num),
    (fade_alpha_monotone (1 / 2) (Or.inl rfl)).2.2.1,
    (fade_alpha_monotone (1 / 2) (Or.inl rfl)).2.2.2.2.1⟩

/-- The `float` literal `0.4f`. -/
theorem binary32_two_fifths : binary32 (2 / 5) = 13421773 / 33554432 := by
  have := binary32_eval (2 / 5) (-2) 13421773 (by norm_num [abs_of_pos])
    (by norm_num [abs_of_pos]) (by norm_num) (by norm_num) (by norm_num)
  norm_num at this ⊢
  exact this

theorem f32_add_zero_04 : f32_add 0 (13421773 / 33554432) = 13421773 / 33554432 := by
  have := binary32_representable 13421773 (-25) (by norm_num) (by norm_num)
  unfold f32_add
  norm_num at this ⊢
  exact this

/-- The alpha value of the age `0.4f` under `max_age = 0.5`: the quotient and the
difference are exact, the product `50.99999696...` is rounded to `50.99999618...`. -/
theorem fade_value_04 : fade_value (1 / 2) (13421773 / 33554432) = 13369343 / 262144 := by
  have e1 : f32_div (13421773 / 33554432) (1 / 2) = 13421773 / 16777216 := by
    have := binary32_representable 13421773 (-24) (by norm_num) (by norm_num)
    unfold f32_div
    norm_num at this ⊢
    exact this
  have e2 : f32_sub 1 (13421773 / 16777216) = 3355443 / 16777216 := by
    have := binary32_representable 3355443 (-24) (by norm_num) (by norm_num)
    unfold f32_sub
    norm_num at this ⊢
    exact this
  have e3 : f32_mul (3355443 / 16777216) 255 = 13369343 / 262144 := by
    have := binary32_eval (3355443 / 16777216 * 255) 5 13369343 (by norm_num [abs_of_pos])
      (by norm_num [abs_of_pos]) (by norm_num) (by norm_num) (by norm_num)
    unfold f32_mul
    norm_num at this ⊢
    exact this
  rw [fade_value, e1, e2, e3]

theorem fade_color_04 : fade_color (1 / 2) (13421773 / 33554432) White = 0x32ffffff := by
  have halpha : fade_alpha (1 / 2) (13421773 / 33554432) = 50 := by
    rw [fade_alpha_eq, fade_value_04]
    exact to_uchar_of_floor _ 50 (by norm_num) (by norm_num) (by norm_num)
  rw [fade_color, halpha]
  decide

/-- `push_point({0,0,0}, {0,0,0}, White)` on an empty buffer, then `update(0.4f)`. -/
theorem push_update_04 (N fuel : Nat) (s : ParticleBuffer) (hwf : WF N s)
    (hempty : s.nbr_points = 0) (hN : 1 ≤ N) (hfuel : 1 ≤ fuel) :
    ∃ s1 s2, push_point N s ⟨0, 0, 0⟩ ⟨0, 0, 0⟩ White = .ok s1 ∧
      update fuel (13421773 / 33554432) s1 = .ok s2 ∧ size s2 = 1 ∧
      live s2 = [⟨⟨0, 0, 0⟩, ⟨0, 0, 0⟩, 13421773 / 33554432, 0x32ffffff⟩] := by
  have hn0 : s.nbr_points = ((0 : Nat) : Int) := by simpa using hempty
  have h1 := push_point_free N s ⟨0, 0, 0⟩ ⟨0, 0, 0⟩ White 0 hwf hn0 (by omega)
  obtain ⟨s1, h1', hwf1, hn1⟩ := push_point_wf N s ⟨0, 0, 0⟩ ⟨0, 0, 0⟩ White hwf
  have hl := push_point_live N s ⟨0, 0, 0⟩ ⟨0, 0, 0⟩ White 0 hwf hn0 (by omega)
  rw [h1] at h1'
  cases h1'
  have hs : live s = [] := by simp [live, hempty]
  rw [hs, List.nil_append] at hl
  have hfuel1 : (0 : Int) + 1 ≤ (fuel : Int) := by omega
  obtain ⟨s2, h2, hwf2, hl2⟩ := update_single N fuel _ (13421773 / 33554432) _ hwf1 hfuel1 hl
  rw [update_step_at_rest, f32_add_zero_04, if_pos (by norm_num), fade_color_04] at hl2
  exact ⟨_, s2, h1, h2, size_one_of_live_singleton N s2 _ hwf2 hl2, hl2⟩

/-- C9 fails as stated: the argument of `update(0.4)` is the `float` nearest to 0.4,
`13421773 / 2^25`; after `push_point({0,0,0}, {0,0,0}, White)` on an empty buffer of
capacity 2 the call leaves one particle whose age is that value, not 2/5, and whose alpha
byte is 50, not 51. -/
theorem update_04_alpha_50 :
    binary32 (2 / 5) = 13421773 / 33554432 ∧
    (∃ s1 s2, push_point 2 demo_empty2 ⟨0, 0, 0⟩ ⟨0, 0, 0⟩ White = .ok s1 ∧
      update 1 (13421773 / 33554432) s1 = .ok s2 ∧
      live s2 = [⟨⟨0, 0, 0⟩, ⟨0, 0, 0⟩, 13421773 / 33554432, 0x32ffffff⟩]) ∧
    (13421773 / 33554432 : ℚ) ≠ 2 / 5 ∧
    ((0x32ffffff : Nat) >>> 24) % 256 = 50 ∧ ((0x32ffffff : Nat) >>> 24) % 256 ≠ 51 := by
  refine ⟨binary32_two_fifths, ?_, by norm_num, by decide, by decide⟩
  obtain ⟨s1, s2, h1, h2, -, hl⟩ :=
    push_update_04 2 1 demo_empty2 (by decide) rfl (by decide) (le_refl _)
  exact ⟨s1, s2, h1, h2, hl⟩

/-- C9 as amended: on an empty well-formed buffer of capacity at least 1,
`push_point({0,0,0}, {0,0,0}, White)` then `update(0.4f)` return and leave
`size() == 1`; the live particle has the age `0.4f = 13421773 / 2^25`, position and
velocity `{0,0,0}`, the low 24 bits of `White` and the alpha byte 50, the integer part of
the binary32 value `50.99999618...` of `(1 - 0.4f/0.5) * 255`. -/
theorem push_update_scenario_f32 (N fuel : Nat) (s : ParticleBuffer) (hwf : WF N s)
    (hempty : s.nbr_points = 0) (hN : 1 ≤ N) (hfuel : 1 ≤ fuel) :
    ∃ s1 s2 r, push_point N s ⟨0, 0, 0⟩ ⟨0, 0, 0⟩ White = .ok s1 ∧
      update fuel (13421773 / 33554432) s1 = .ok s2 ∧ size s2 = 1 ∧
      live s2 = [r] ∧
      r.age = 13421773 / 33554432 ∧ r.p = ⟨0, 0, 0⟩ ∧ r.v = ⟨0, 0, 0⟩ ∧
      r.color &&& 0x00ffffff = White &&& 0x00ffffff ∧
      (r.color >>> 24) % 256 = 50 ∧
      f32_mul (f32_sub 1 (f32_div r.age (1 / 2))) 255 = 13369343 / 262144 ∧
      ⌊(13369343 / 262144 : ℚ)⌋ = 50 := by
  obtain ⟨s1, s2, h1, h2, hsz, hl⟩ := push_update_04 N fuel s hwf hempty hN hfuel
  refine ⟨s1, s2, _, h1, h2, hsz, hl, rfl, rfl, rfl, by decide, by decide, fade_value_04, ?_⟩
  rw [Int.floor_eq_iff]
  norm_num

/-- Witness of C9 as amended: the scenario on an empty buffer of capacity 2. -/
theorem push_update_scenario_f32_witness :
    WF 2 demo_empty2 ∧ demo_empty2.nbr_points = 0 ∧
    ∃ s1 s2 r, push_point 2 demo_empty2 ⟨0, 0, 0⟩ ⟨0, 0, 0⟩ White = .ok s1 ∧
      update 1 (13421773 / 33554432) s1 = .ok s2 ∧ size s2 = 1 ∧
      live s2 = [r] ∧
      r.age = 13421773 / 33554432 ∧ r.p = ⟨0, 0, 0⟩ ∧ r.v = ⟨0, 0, 0⟩ ∧
      r.color &&& 0x00ffffff = White &&& 0x00ffffff ∧
      (r.color >>> 24) % 256 = 50 ∧
      f32_mul (f32_sub 1 (f32_div r.age (1 / 2))) 255 = 13369343 / 262144 ∧
      ⌊(13369343 / 262144 : ℚ)⌋ = 50 :=
  ⟨by decide, rfl,
    push_update_scenario_f32 2 1 demo_empty2 (by decide) rfl (by decide) (le_refl _)⟩

/-! ## The live-count invariant -/

theorem push_point_wf_of_ok (N : Nat) (s : ParticleBuffer) (p v : v3f) (c : Nat)
    (s1 : ParticleBuffer) (hwf : WF N s) (h : push_point N s p v c = .ok s1) : WF N s1 := by
  obtain ⟨s2, h2, hwf2, -⟩ := push_point_wf N s p v c hwf
  rw [h2] at h
  cases h
  exact hwf2

theorem push_point_ne_error (N : Nat) (s : ParticleBuffer) (p v : v3f) (c : Nat)
    (e : Fault) (hwf : WF N s) : push_point N s p v c ≠ .error e := by
  obtain ⟨s2, h2, -, -⟩ := push_point_wf N s p v c hwf
  rw [h2]
  intro h
  cases h

theorem push_trail_loop_wf (N : Nat) (env : MathEnv) (p vn : v3f) (theta_spread vel_len : ℚ)
    (color : Nat) (n : Nat) :
    ∀ (s : ParticleBuffer) (k : Nat), WF N s →
      ∃ s1 k1, push_trail_loop N env p vn theta_spread vel_len color n s k = .ok (s1, k1) ∧
        WF N s1 := by
  induction n with
  | zero => intro s k hwf; exact ⟨s, k, rfl, hwf⟩
  | succ n ih =>
    intro s k hwf
    simp only [push_trail_loop]
    split
    · next s1 heq => exact ih s1 (k + 2) (push_point_wf_of_ok N s _ _ color s1 hwf heq)
    · next e heq => exact absurd heq (push_point_ne_error N s _ _ color e hwf)

theorem push_explosion_loop_wf (N : Nat) (env : MathEnv) (p vn : v3f) (theta_spread : ℚ)
    (color : Nat) (n : Nat) :
    ∀ (s : ParticleBuffer) (k : Nat), WF N s →
      ∃ s1 k1, push_explosion_loop N env p vn theta_spread color n s k = .ok (s1, k1) ∧
        WF N s1 := by
  induction n with
  | zero => intro s k hwf; exact ⟨s, k, rfl, hwf⟩
  | succ n ih =>
    intro s k hwf
    simp only [push_explosion_loop]
    split
    · next s1 heq => exact ih s1 (k + 4) (push_point_wf_of_ok N s _ _ color s1 hwf heq)
    · next e heq => exact absurd heq (push_point_ne_error N s _ _ color e hwf)

theorem fdiv_ok (a b : ℚ) (hb : b ≠ 0) : fdiv a b = .ok (a / b) := by
  simp [fdiv, hb]

theorem push_trail_wf (N : Nat) (env : MathEnv) (k : Nat) (s : ParticleBuffer) (p v : v3f)
    (n : Int) (color : Nat) (hwf : WF N s) :
    ∃ s1 k1, push_trail N env k s p v n color = .ok (s1, k1) ∧ WF N s1 := by
  by_cases hlen : env.length v < 1 / 1000
  · obtain ⟨s1, k1, h1, hwf1⟩ :=
      push_trail_loop_wf N env p ⟨1, 0, 0⟩ (lerp (20 * env.fTO_RAD) 0
        (clamp (env.length v / 10) 0 1)) (env.length v) color n.toNat s k hwf
    refine ⟨s1, k1, ?_, hwf1⟩
    simp only [push_trail, if_pos hlen, pure_ok, bind_ok]
    exact h1
  · have hne : env.length v ≠ 0 := by
      intro h0
      rw [h0] at hlen
      norm_num at hlen
    obtain ⟨s1, k1, h1, hwf1⟩ :=
      push_trail_loop_wf N env p ⟨v.x / env.length v, v.y / env.length v, 0⟩
        (lerp (20 * env.fTO_RAD) 0 (clamp (env.length v / 10) 0 1)) (env.length v) color
        n.toNat s k hwf
    refine ⟨s1, k1, ?_, hwf1⟩
    simp only [push_trail, if_neg hlen, fdiv_ok _ _ hne, pure_ok, bind_ok]
    exact h1

theorem push_explosion_wf (N : Nat) (env : MathEnv) (k : Nat) (s : ParticleBuffer) (p v : v3f)
    (n : Int) (color : Nat) (hwf : WF N s) :
    ∃ s1 k1, push_explosion N env k s p v n color = .ok (s1, k1) ∧ WF N s1 := by
  by_cases hlen : env.length v < 1 / 1000
  · obtain ⟨s1, k1, h1, hwf1⟩ :=
      push_explosion_loop_wf N env p ⟨1, 0, 0⟩ (lerp env.fPI (20 * env.fTO_RAD)
        (clamp (env.length v / 5) 0 1)) color n.toNat s k hwf
    refine ⟨s1, k1, ?_, hwf1⟩
    simp only [push_explosion, if_pos hlen, pure_ok, bind_ok]
    exact h1
  · have hne : env.length v ≠ 0 := by
      intro h0
      rw [h0] at hlen
      norm_num at hlen
    obtain ⟨s1, k1, h1, hwf1⟩ :=
      push_explosion_loop_wf N env p ⟨v.x / env.length v, v.y / env.length v, 0⟩
        (lerp env.fPI (20 * env.fTO_RAD) (clamp (env.length v / 5) 0 1)) color n.toNat s k hwf
    refine ⟨s1, k1, ?_, hwf1⟩
    simp only [push_explosion, if_neg hlen, fdiv_ok _ _ hne, pure_ok, bind_ok]
    exact h1

/-- C10: `0 ≤ nbr_points ≤ capacity` (with all three arrays of length `capacity`) holds
for a buffer with no live particle and is kept by `push_point`, by `push_trail` and
`push_explosion` for every particle count (zero and negative counts too), and by
`update` and `update_explosion` for every `dt`; each of them returns without an
out-of-bounds access. -/
theorem live_count_invariant (N : Nat) :
    (∀ s : ParticleBuffer, s.points.length = N → s.point_vels.length = N →
      s.point_ages.length = N → s.nbr_points = 0 → WF N s) ∧
    (∀ (s : ParticleBuffer) (p v : v3f) (color : Nat), WF N s →
      ∃ s1, push_point N s p v color = .ok s1 ∧ WF N s1) ∧
    (∀ (env : MathEnv) (k : Nat) (s : ParticleBuffer) (p v : v3f) (n : Int) (color : Nat),
      WF N s → ∃ s1 k1, push_trail N env k s p v n color = .ok (s1, k1) ∧ WF N s1) ∧
    (∀ (env : MathEnv) (k : Nat) (s : ParticleBuffer) (p v : v3f) (n : Int) (color : Nat),
      WF N s → ∃ s1 k1, push_explosion N env k s p v n color = .ok (s1, k1) ∧ WF N s1) ∧
    (∀ (fuel : Nat) (dt : ℚ) (s : ParticleBuffer), WF N s → s.nbr_points ≤ (fuel : Int) →
      ∃ s1, update fuel dt s = .ok s1 ∧ WF N s1) ∧
    (∀ (fuel : Nat) (dt : ℚ) (s : ParticleBuffer), WF N s → s.nbr_points ≤ (fuel : Int) →
      ∃ s1, update_explosion fuel dt s = .ok s1 ∧ WF N s1) := by
  refine ⟨?_, ?_, ?_, ?_, ?_, ?_⟩
  · intro s h1 h2 h3 h0
    exact ⟨h1, h2, h3, by omega, by omega⟩
  · intro s p v color hwf
    obtain ⟨s1, h1, hwf1, -⟩ := push_point_wf N s p v color hwf
    exact ⟨s1, h1, hwf1⟩
  · intro env k s p v n color hwf
    exact push_trail_wf N env k s p v n color hwf
  · intro env k s p v n color hwf
    exact push_explosion_wf N env k s p v n color hwf
  · intro fuel dt s hwf hfuel
    obtain ⟨s1, h1, hwf1, -⟩ := update_run N dt fuel s hwf hfuel
    exact ⟨s1, h1, hwf1⟩
  · intro fuel dt s hwf hfuel
    obtain ⟨s1, h1, hwf1, -⟩ := update_explosion_run N dt fuel s hwf hfuel
    exact ⟨s1, h1, hwf1⟩

/-- Witness of C10: on buffers of capacity 3 and 2, a trail of 5 particles, an
explosion with a negative count, and the two updates. -/
theorem live_count_invariant_witness :
    WF 2 demo_empty2 ∧ WF 3 demo_three ∧
    (∃ s1, push_point 3 demo_three ⟨0, 0, 0⟩ ⟨1, 0, 0⟩ 7 = .ok s1 ∧ WF 3 s1) ∧
    (∃ s1 k1, push_trail 2 demo_env 0 demo_empty2 ⟨0, 0, 0⟩ ⟨3, 4, 0⟩ 5 7 = .ok (s1, k1) ∧
      WF 2 s1) ∧
    (∃ s1 k1, push_explosion 2 demo_env 0 demo_empty2 ⟨0, 0, 0⟩ ⟨3, 4, 0⟩ (-1) 7 = .ok (s1, k1) ∧
      WF 2 s1) ∧
    (∃ s1, update 3 (1 / 5) demo_three = .ok s1 ∧ WF 3 s1) ∧
    (∃ s1, update_explosion 3 (1 / 5) demo_three = .ok s1 ∧ WF 3 s1) :=
  ⟨(live_count_invariant 2).1 demo_empty2 rfl rfl rfl rfl, by decide,
    (live_count_invariant 3).2.1 demo_three _ _ _ (by decide),
    (live_count_invariant 2).2.2.1 demo_env 0 demo_empty2 _ _ _ _ (by decide),
    (live_count_invariant 2).2.2.2.1 demo_env 0 demo_empty2 _ _ _ _ (by decide),
    (live_count_invariant 3).2.2.2.2.1 3 (1 / 5) demo_three (by decide) (by decide),
    (live_count_invariant 3).2.2.2.2.2 3 (1 / 5) demo_three (by decide) (by decide)⟩

end ParticleBuffer

/-! ## StateStack -/

namespace StateStack

theorem getStack_setStack (st : StateStack) (a : Attr) (l : List a.type) :
    getStack (setStack st a l) a = l := by
  cases a <;> rfl

theorem getStack_setStack_ne (st : StateStack) (a b : Attr) (l : List a.type) (h : a ≠ b) :
    getStack (setStack st a l) b = getStack st b := by
  cases a <;> cases b <;> first | rfl | exact absurd rfl h

theorem setStack_setStack (st : StateStack) (a : Attr) (l l1 : List a.type) :
    setStack (setStack st a l) a l1 = setStack st a l1 := by
  cases a <;> rfl

theorem setStack_getStack (st : StateStack) (a : Attr) :
    setStack st a (getStack st a) = st := by
  cases a <;> rfl

theorem push_single (st : StateStack) (a : Attr) (x : a.type) :
    push st [⟨a, x⟩] = setStack st a (x :: getStack st a) := rfl

theorem pop_impl_cons_cons (st : StateStack) (a : Attr) (x y : a.type) (l : List a.type)
    (h : getStack st a = x :: y :: l) : pop_impl st a = .ok (setStack st a (y :: l)) := by
  simp [pop_impl, empty, h, getStack_setStack]

theorem pop_impl_fail (st : StateStack) (a : Attr) (h : (getStack st a).length ≤ 1) :
    pop_impl st a = .error .assertion_failed := by
  cases hl : getStack st a with
  | nil => simp [pop_impl, empty, hl]
  | cons x l =>
    cases l with
    | nil => simp [pop_impl, empty, hl, getStack_setStack]
    | cons y l => rw [hl] at h; simp at h

theorem pop_single (st : StateStack) (a : Attr) :
    pop st [a] = pop_impl st a := by
  simp only [pop]
  cases pop_impl st a <;> rfl

theorem run_scoped_spec (a : Attr) (ops : List (ScopedOp a)) :
    ∀ (st : StateStack) (d d1 : Nat) (pre base : List a.type), pre.length = d → base ≠ [] →
      getStack st a = pre ++ base → nesting a d ops = some d1 →
      ∃ pre1 : List a.type, pre1.length = d1 ∧
        run_scoped a ops st = .ok (setStack st a (pre1 ++ base)) := by
  induction ops with
  | nil =>
    intro st d d1 pre base hlen _ hst hn
    simp only [nesting, Option.some.injEq] at hn
    refine ⟨pre, by omega, ?_⟩
    rw [← hst, setStack_getStack]
    rfl
  | cons op rest ih =>
    intro st d d1 pre base hlen hbase hst hn
    cases op with
    | push x =>
      simp only [nesting] at hn
      have hst1 : getStack (setStack st a (x :: getStack st a)) a = (x :: pre) ++ base := by
        rw [getStack_setStack, hst]
        rfl
      obtain ⟨pre1, hl1, hrun⟩ :=
        ih (setStack st a (x :: getStack st a)) (d + 1) d1 (x :: pre) base (by simp [hlen])
          hbase hst1 hn
      refine ⟨pre1, hl1, ?_⟩
      simp only [run_scoped, push_single]
      rw [hrun, setStack_setStack]
    | pop =>
      cases d with
      | zero => simp [nesting] at hn
      | succ d =>
        simp only [nesting] at hn
        obtain ⟨x, pre0, rfl⟩ : ∃ x pre0, pre = x :: pre0 := by
          cases pre with
          | nil => simp at hlen
          | cons x pre0 => exact ⟨x, pre0, rfl⟩
        obtain ⟨y, l, hyl⟩ : ∃ y l, pre0 ++ base = y :: l := by
          cases hpb : pre0 ++ base with
          | nil =>
            have := List.append_eq_nil.1 hpb
            exact absurd this.2 hbase
          | cons y l => exact ⟨y, l, rfl⟩
        have hpop : pop st [a] = .ok (setStack st a (pre0 ++ base)) := by
          rw [pop_single, pop_impl_cons_cons st a x y l (by rw [hst, List.cons_append, hyl]), hyl]
        have hst1 : getStack (setStack st a (pre0 ++ base)) a = pre0 ++ base :=
          getStack_setStack _ _ _
        obtain ⟨pre1, hl1, hrun⟩ :=
          ih (setStack st a (pre0 ++ base)) d d1 pre0 base (by simpa using hlen) hbase hst1 hn
        refine ⟨pre1, hl1, ?_⟩
        simp only [run_scoped, hpop]
        rw [hrun, setStack_setStack]

/-- C11: for every attribute type and every state whose stack of that type holds at least
one entry, a properly nested sequence of matched `push(x)`/`pop<T>()` pairs runs without
a failing pop and returns the state it started from, so the stack of the type and
`top<T>()` are what they were; in particular `push(x)` then `pop<T>()` is the identity. -/
theorem scoped_restore (a : Attr) (st : StateStack) (ops : List (ScopedOp a))
    (hbase : 1 ≤ (getStack st a).length) (hnest : properly_nested a ops = true) :
    run_scoped a ops st = .ok st ∧
    (∀ st1, run_scoped a ops st = .ok st1 →
      getStack st1 a = getStack st a ∧ top st1 a = top st a) ∧
    (∀ x : a.type, pop (push st [⟨a, x⟩]) [a] = .ok st) := by
  have hne : getStack st a ≠ [] := by
    intro h
    rw [h] at hbase
    simp at hbase
  have hn : nesting a 0 ops = some 0 := by simpa [properly_nested] using hnest
  obtain ⟨pre1, hl1, hrun⟩ := run_scoped_spec a ops st 0 0 [] (getStack st a) rfl hne rfl hn
  have hpre : pre1 = [] := List.length_eq_zero.1 hl1
  rw [hpre, List.nil_append, setStack_getStack] at hrun
  refine ⟨hrun, ?_, ?_⟩
  · intro st1 h1
    rw [hrun] at h1
    cases h1
    exact ⟨rfl, rfl⟩
  · intro x
    obtain ⟨y, l, hyl⟩ : ∃ y l, getStack st a = y :: l := by
      cases hg : getStack st a with
      | nil => exact absurd hg hne
      | cons y l => exact ⟨y, l, rfl⟩
    rw [pop_single, push_single,
      pop_impl_cons_cons _ a x y l (by rw [getStack_setStack, hyl]), setStack_setStack, ← hyl,
      setStack_getStack]

/-- Witness of C11: three nested pairs on the colour stack of a stack with its defaults. -/
theorem scoped_restore_witness :
    1 ≤ (getStack demo_stack .color).length ∧
    properly_nested .color
      [.push ⟨1⟩, .push ⟨2⟩, .pop, .push ⟨3⟩, .pop, .pop] = true ∧
    run_scoped .color [.push ⟨1⟩, .push ⟨2⟩, .pop, .push ⟨3⟩, .pop, .pop] demo_stack =
      .ok demo_stack :=
  ⟨by decide, by decide,
    (scoped_restore .color demo_stack _ (by decide) (by decide)).1⟩

end StateStack

namespace StateStack

theorem pop_impl_ok_iff (st : StateStack) (a : Attr) :
    (∃ st1, pop_impl st a = .ok st1) ↔ 2 ≤ (getStack st a).length := by
  constructor
  · rintro ⟨st1, h⟩
    by_contra hlt
    rw [pop_impl_fail st a (by omega)] at h
    cases h
  · intro h
    cases hl : getStack st a with
    | nil => rw [hl] at h; simp at h
    | cons x l =>
      cases l with
      | nil => rw [hl] at h; simp at h
      | cons y l => exact ⟨_, pop_impl_cons_cons st a x y l hl⟩

theorem pop_impl_ok_eq (st st1 : StateStack) (a : Attr) (h : pop_impl st a = .ok st1) :
    st1 = setStack st a (getStack st a).tail := by
  cases hl : getStack st a with
  | nil => rw [pop_impl_fail st a (by simp [hl])] at h; cases h
  | cons x l =>
    cases l with
    | nil => rw [pop_impl_fail st a (by simp [hl])] at h; cases h
    | cons y l =>
      rw [pop_impl_cons_cons st a x y l hl] at h
      cases h
      rfl

theorem pop_impl_error (st : StateStack) (a : Attr) (e : Fault) (h : pop_impl st a = .error e) :
    (getStack st a).length ≤ 1 := by
  by_contra hlt
  obtain ⟨st1, h1⟩ := (pop_impl_ok_iff st a).2 (by omega)
  rw [h1] at h
  cases h

theorem pop_fails_iff (types : List Attr) :
    ∀ st : StateStack, (∃ e, pop st types = .error e) ↔
      ∃ (done : List Attr) (a : Attr) (rest : List Attr) (st1 : StateStack),
        types = done ++ a :: rest ∧ pop st done = .ok st1 ∧ (getStack st1 a).length ≤ 1 := by
  induction types with
  | nil =>
    intro st
    constructor
    · rintro ⟨e, h⟩
      cases h
    · rintro ⟨done, a, rest, st1, h, -, -⟩
      simp at h
  | cons b types ih =>
    intro st
    constructor
    · rintro ⟨e, h⟩
      simp only [pop] at h
      cases hb : pop_impl st b with
      | error e1 =>
        exact ⟨[], b, types, st, rfl, rfl, pop_impl_error st b e1 hb⟩
      | ok st1 =>
        rw [hb] at h
        obtain ⟨done, a, rest, st2, hty, hdone, hlen⟩ := (ih st1).1 ⟨e, h⟩
        refine ⟨b :: done, a, rest, st2, by rw [hty]; rfl, ?_, hlen⟩
        simp only [pop, hb]
        exact hdone
    · rintro ⟨done, a, rest, st2, hty, hdone, hlen⟩
      cases done with
      | nil =>
        simp only [List.nil_append, List.cons.injEq] at hty
        obtain ⟨rfl, rfl⟩ := hty
        simp only [pop] at hdone
        cases hdone
        exact ⟨.assertion_failed, by simp only [pop, pop_impl_fail st b hlen]⟩
      | cons c done =>
        simp only [List.cons_append, List.cons.injEq] at hty
        obtain ⟨rfl, rfl⟩ := hty
        simp only [pop] at hdone ⊢
        cases hb : pop_impl st b with
        | error e1 => exact ⟨e1, rfl⟩
        | ok st1 =>
          rw [hb] at hdone
          exact (ih st1).2 ⟨done, a, rest, st2, rfl, hdone, hlen⟩

theorem pop_distinct (types : List Attr) :
    ∀ st : StateStack, types.Nodup → (∀ a ∈ types, 2 ≤ (getStack st a).length) →
      ∃ st1, pop st types = .ok st1 ∧
        (∀ a ∈ types, getStack st1 a = (getStack st a).tail) ∧
        (∀ b, b ∉ types → getStack st1 b = getStack st b) := by
  induction types with
  | nil =>
    intro st _ _
    exact ⟨st, rfl, fun a ha => by simp at ha, fun b _ => rfl⟩
  | cons c types ih =>
    intro st hnd hlen
    obtain ⟨hc, hnd1⟩ := List.nodup_cons.1 hnd
    obtain ⟨st1, h1⟩ := (pop_impl_ok_iff st c).2 (hlen c (List.mem_cons_self _ _))
    have e1 := pop_impl_ok_eq st st1 c h1
    have hother : ∀ b, b ≠ c → getStack st1 b = getStack st b := by
      intro b hb
      rw [e1, getStack_setStack_ne st c b _ (Ne.symm hb)]
    have hlen1 : ∀ a ∈ types, 2 ≤ (getStack st1 a).length := by
      intro a ha
      have hne : a ≠ c := fun h => hc (h ▸ ha)
      rw [hother a hne]
      exact hlen a (List.mem_cons_of_mem _ ha)
    obtain ⟨st2, h2, hin, hout⟩ := ih st1 hnd1 hlen1
    refine ⟨st2, by simp only [pop, h1]; exact h2, ?_, ?_⟩
    · intro a ha
      rcases List.mem_cons.1 ha with hac | hat
      · subst hac
        rw [hout a hc, e1, getStack_setStack]
      · have hne : a ≠ c := fun h => hc (h ▸ hat)
        rw [hin a hat, hother a hne]
    · intro b hb
      have hbc : b ≠ c := fun h => hb (h ▸ List.mem_cons_self _ _)
      rw [hout b (fun h => hb (List.mem_cons_of_mem _ h)), hother b hbc]

/-- C12 fails as stated when a type is named twice: `pop<DepthTest, DepthTest>()` on a
state whose `DepthTest` stack holds two entries (every named stack holds at least two)
fails its assertion at the second turn. -/
theorem pop_twice_fails :
    (∀ a ∈ [Attr.depth_test, Attr.depth_test], 2 ≤ (getStack demo_stack a).length) ∧
    pop demo_stack [.depth_test, .depth_test] = .error .assertion_failed := by
  exact ⟨by decide, rfl⟩

/-- C12 as amended: `pop<Types...>()` fails exactly when, at the turn of some named type in
the left-to-right order, the stack of that type holds at most one entry; and when the
named types are pairwise distinct and every named stack holds at least two entries it
succeeds, removes exactly the top entry of each named stack and leaves the others. -/
theorem pop_fails_iff_default (st : StateStack) (types : List Attr) :
    ((∃ e, pop st types = .error e) ↔
      ∃ (done : List Attr) (a : Attr) (rest : List Attr) (st1 : StateStack),
        types = done ++ a :: rest ∧ pop st done = .ok st1 ∧ (getStack st1 a).length ≤ 1) ∧
    (types.Nodup → (∀ a ∈ types, 2 ≤ (getStack st a).length) →
      ∃ st1, pop st types = .ok st1 ∧
        (∀ a ∈ types, getStack st1 a = (getStack st a).tail ∧
          (getStack st1 a).length + 1 = (getStack st a).length) ∧
        (∀ b, b ∉ types → getStack st1 b = getStack st b)) := by
  refine ⟨pop_fails_iff types st, ?_⟩
  intro hnd hlen
  obtain ⟨st1, h1, hin, hout⟩ := pop_distinct types st hnd hlen
  refine ⟨st1, h1, ?_, hout⟩
  intro a ha
  refine ⟨hin a ha, ?_⟩
  rw [hin a ha, List.length_tail]
  have := hlen a ha
  omega

/-- Witness of C12 as amended: `pop<DepthTest, Color4u>()` on a stack with two entries
per type. -/
theorem pop_fails_iff_default_witness :
    [Attr.depth_test, Attr.color].Nodup ∧
    (∀ a ∈ [Attr.depth_test, Attr.color], 2 ≤ (getStack demo_stack a).length) ∧
    ∃ st1, pop demo_stack [.depth_test, .color] = .ok st1 ∧
      (∀ a ∈ [Attr.depth_test, Attr.color],
        getStack st1 a = (getStack demo_stack a).tail ∧
          (getStack st1 a).length + 1 = (getStack demo_stack a).length) ∧
      (∀ b, b ∉ [Attr.depth_test, Attr.color] → getStack st1 b = getStack demo_stack b) :=
  ⟨by decide, by decide,
    (pop_fails_iff_default demo_stack [.depth_test, .color]).2 (by decide) (by decide)⟩

end StateStack

namespace StateStack

theorem getStack_push (a : Attr) (args : List (Σ b : Attr, b.type)) :
    ∀ st : StateStack,
      getStack (push st args) a = (values_of a args).reverse ++ getStack st a := by
  induction args with
  | nil => intro st; rfl
  | cons arg rest ih =>
    intro st
    obtain ⟨b, value⟩ := arg
    simp only [push]
    rw [ih]
    by_cases h : b = a
    · subst h
      simp [values_of, push_impl, getStack_setStack]
    · simp [values_of, h, push_impl, getStack_setStack_ne st b a _ h]

theorem values_of_eq_nil (a : Attr) (args : List (Σ b : Attr, b.type))
    (h : a ∉ args.map Sigma.fst) : values_of a args = [] := by
  induction args with
  | nil => rfl
  | cons arg rest ih =>
    obtain ⟨b, value⟩ := arg
    simp only [List.map_cons, List.mem_cons, not_or] at h
    simp [values_of, Ne.symm h.1, ih h.2]

theorem values_of_ne_nil (a : Attr) (args : List (Σ b : Attr, b.type))
    (h : a ∈ args.map Sigma.fst) : values_of a args ≠ [] := by
  induction args with
  | nil => simp at h
  | cons arg rest ih =>
    obtain ⟨b, value⟩ := arg
    by_cases hb : b = a
    · subst hb
      simp [values_of]
    · simp only [List.map_cons, List.mem_cons] at h
      rcases h with h | h
      · exact absurd h.symm hb
      · simpa [values_of, hb] using ih h

theorem values_of_single (a : Attr) (x : a.type) (args : List (Σ b : Attr, b.type))
    (hmem : (⟨a, x⟩ : Σ b : Attr, b.type) ∈ args) (hnd : (args.map Sigma.fst).Nodup) :
    values_of a args = [x] := by
  induction args with
  | nil => simp at hmem
  | cons arg rest ih =>
    obtain ⟨b, value⟩ := arg
    simp only [List.map_cons, List.nodup_cons] at hnd
    rcases List.mem_cons.1 hmem with h | h
    · cases h
      simp [values_of, values_of_eq_nil a rest hnd.1]
    · have hab : b ≠ a := by
        rintro rfl
        exact hnd.1 (List.mem_map_of_mem Sigma.fst h)
      simp [values_of, hab, ih h hnd.2]

theorem top_of_getStack (st : StateStack) (a : Attr) (x : a.type) (l : List a.type)
    (h : getStack st a = x :: l) : top st a = .ok x := by
  simp [top, top_impl, h]

theorem pop_frame (types : List Attr) :
    ∀ (st st1 : StateStack) (u : Attr), pop st types = .ok st1 → u ∉ types →
      getStack st1 u = getStack st u := by
  induction types with
  | nil =>
    intro st st1 u h _
    simp only [pop] at h
    cases h
    rfl
  | cons c types ih =>
    intro st st1 u h hu
    simp only [List.mem_cons, not_or] at hu
    simp only [pop] at h
    cases hc : pop_impl st c with
    | error e => rw [hc] at h; cases h
    | ok st2 =>
      rw [hc] at h
      rw [ih st2 st1 u h hu.2, pop_impl_ok_eq st st2 c hc,
        getStack_setStack_ne st c u _ (Ne.symm hu.1)]

/-- C13: `push(values...)` puts each argument on the stack of its own type: the stack of
a type `a` afterwards is the old one with the arguments of type `a` on top, the last of
them topmost, so `top<T>()` returns the last value pushed for each pushed type (the value
itself when each type occurs once); a type that is not among the pushed types keeps its
stack, and so does a type that is not among the popped types of a successful `pop`. -/
theorem push_per_type (st : StateStack) (args : List (Σ b : Attr, b.type)) :
    (∀ a : Attr, getStack (push st args) a = (values_of a args).reverse ++ getStack st a) ∧
    (∀ a : Attr, a ∈ args.map Sigma.fst →
      ∃ x, (values_of a args).getLast? = some x ∧ top (push st args) a = .ok x) ∧
    (∀ (a : Attr) (x : a.type), (⟨a, x⟩ : Σ b : Attr, b.type) ∈ args →
      (args.map Sigma.fst).Nodup → top (push st args) a = .ok x) ∧
    (∀ u : Attr, u ∉ args.map Sigma.fst → getStack (push st args) u = getStack st u) ∧
    (∀ (types : List Attr) (st1 : StateStack) (u : Attr), pop st types = .ok st1 →
      u ∉ types → getStack st1 u = getStack st u) := by
  refine ⟨fun a => getStack_push a args st, ?_, ?_, ?_, fun types st1 u => pop_frame types st st1 u⟩
  · intro a ha
    have hne := values_of_ne_nil a args ha
    obtain ⟨x, hx⟩ : ∃ x, (values_of a args).getLast? = some x := by
      cases hl : (values_of a args).getLast? with
      | none => exact absurd (List.getLast?_eq_none_iff.1 hl) hne
      | some x => exact ⟨x, rfl⟩
    refine ⟨x, hx, ?_⟩
    obtain ⟨l, hl⟩ : ∃ l, (values_of a args).reverse = x :: l := by
      have := List.head?_reverse (values_of a args)
      rw [hx] at this
      cases hr : (values_of a args).reverse with
      | nil => rw [hr] at this; simp at this
      | cons y l =>
        rw [hr] at this
        simp only [List.head?_cons, Option.some.injEq] at this
        exact ⟨l, by rw [this]⟩
    exact top_of_getStack _ a x (l ++ getStack st a) (by rw [getStack_push, hl]; rfl)
  · intro a x hmem hnd
    exact top_of_getStack _ a x (getStack st a)
      (by rw [getStack_push, values_of_single a x args hmem hnd]; rfl)
  · intro u hu
    rw [getStack_push, values_of_eq_nil u args hu]
    rfl

/-- Witness of C13: `push(DepthTest::False, Color4u{9})` on a stack with two entries per
type. -/
theorem push_per_type_witness :
    Attr.color ∈ ([⟨.depth_test, DepthTest.False⟩, ⟨.color, (⟨9⟩ : Color4u)⟩] :
      List (Σ b : Attr, b.type)).map Sigma.fst ∧
    Attr.transform ∉ ([⟨.depth_test, DepthTest.False⟩, ⟨.color, (⟨9⟩ : Color4u)⟩] :
      List (Σ b : Attr, b.type)).map Sigma.fst ∧
    top (push demo_stack [⟨.depth_test, DepthTest.False⟩, ⟨.color, (⟨9⟩ : Color4u)⟩]) .color =
      .ok (⟨9⟩ : Color4u) ∧
    getStack (push demo_stack [⟨.depth_test, DepthTest.False⟩, ⟨.color, (⟨9⟩ : Color4u)⟩])
      .transform = getStack demo_stack .transform :=
  ⟨by decide, by decide,
    (push_per_type demo_stack _).2.2.1 .color (⟨9⟩ : Color4u) (by simp) (by decide),
    (push_per_type demo_stack _).2.2.2.1 .transform (by decide)⟩

/-- C18 fails as stated: right after construction every stack is empty, `empty<T>()` is
true and `top<T>()` fails its assertion, for each of the four types. -/
theorem fresh_has_no_entry :
    (getStack fresh .transform).length = 0 ∧ (getStack fresh .color).length = 0 ∧
    (getStack fresh .depth_test).length = 0 ∧ (getStack fresh .cull_face).length = 0 ∧
    empty fresh .transform = true ∧ empty fresh .color = true ∧
    empty fresh .depth_test = true ∧ empty fresh .cull_face = true ∧
    top fresh .transform = .error .assertion_failed ∧
    top fresh .color = .error .assertion_failed ∧
    top fresh .depth_test = .error .assertion_failed ∧
    top fresh .cull_face = .error .assertion_failed :=
  ⟨rfl, rfl, rfl, rfl, rfl, rfl, rfl, rfl, rfl, rfl, rfl, rfl⟩

/-- C18 as amended: a freshly constructed `StateStack` holds no entry; once the four
defaults (depth test enabled, culling enabled, identity transform, white) have been
pushed, each stack holds exactly that one entry, `empty<T>()` is false and `top<T>()`
returns it. -/
theorem defaults_after_first_push :
    (∀ a : Attr, getStack fresh a = []) ∧
    (push fresh default_states).depth_test = [DepthTest.True] ∧
    (push fresh default_states).cull_face = [BackfaceCull.True] ∧
    (push fresh default_states).transform = [m4f_identity] ∧
    (push fresh default_states).color = [(⟨White⟩ : Color4u)] ∧
    (∀ a : Attr, (getStack (push fresh default_states) a).length = 1 ∧
      empty (push fresh default_states) a = false ∧
      ∃ x, top (push fresh default_states) a = .ok x) := by
  refine ⟨fun a => by cases a <;> rfl, rfl, rfl, rfl, rfl, ?_⟩
  intro a
  cases a
  · exact ⟨rfl, rfl, DepthTest.True, rfl⟩
  · exact ⟨rfl, rfl, BackfaceCull.True, rfl⟩
  · exact ⟨rfl, rfl, m4f_identity, rfl⟩
  · exact ⟨rfl, rfl, (⟨White⟩ : Color4u), rfl⟩

end StateStack

/-! ## Draw-call keys -/

theorem line_drawcall_eq_iff (a b : LineDrawcall) :
    a.eq b = true ↔ a.topology = b.topology ∧ a.depth_test = b.depth_test := by
  simp [LineDrawcall.eq]

theorem polygon_drawcall_eq_iff (a b : PolygonDrawcall) :
    a.eq b = true ↔
      a.topology = b.topology ∧ a.depth_test = b.depth_test ∧ a.cull_face = b.cull_face := by
  simp [PolygonDrawcall.eq, and_assoc]

theorem point_drawcall_eq_iff (a b : PointDrawcall) :
    a.eq b = true ↔ a.size = b.size ∧ a.depth_test = b.depth_test := by
  simp [PointDrawcall.eq, and_comm]

/-- C20: each key type's `operator ==` holds exactly when the compared fields agree
(topology and depth test for lines; topology, depth test and cull face for polygons;
size and depth test for points), it is reflexive, symmetric and transitive, and keys
that compare equal have equal hash values, whatever `hash_combine` and `std::hash` are. -/
theorem drawcall_keys_consistent (hash_combine : Nat → DepthTest → Nat) (std_hash : Nat → Nat) :
    ((∀ a b : LineDrawcall,
        a.eq b = true ↔ a.topology = b.topology ∧ a.depth_test = b.depth_test) ∧
      (∀ a : LineDrawcall, a.eq a = true) ∧
      (∀ a b : LineDrawcall, a.eq b = true → b.eq a = true) ∧
      (∀ a b c : LineDrawcall, a.eq b = true → b.eq c = true → a.eq c = true) ∧
      (∀ a b : LineDrawcall, a.eq b = true →
        LineDrawcallHashFunction hash_combine a = LineDrawcallHashFunction hash_combine b)) ∧
    ((∀ a b : PolygonDrawcall,
        a.eq b = true ↔
          a.topology = b.topology ∧ a.depth_test = b.depth_test ∧ a.cull_face = b.cull_face) ∧
      (∀ a : PolygonDrawcall, a.eq a = true) ∧
      (∀ a b : PolygonDrawcall, a.eq b = true → b.eq a = true) ∧
      (∀ a b c : PolygonDrawcall, a.eq b = true → b.eq c = true → a.eq c = true) ∧
      (∀ a b : PolygonDrawcall, a.eq b = true →
        PolygonDrawcallHashfunction hash_combine a =
          PolygonDrawcallHashfunction hash_combine b)) ∧
    ((∀ a b : PointDrawcall,
        a.eq b = true ↔ a.size = b.size ∧ a.depth_test = b.depth_test) ∧
      (∀ a : PointDrawcall, a.eq a = true) ∧
      (∀ a b : PointDrawcall, a.eq b = true → b.eq a = true) ∧
      (∀ a b c : PointDrawcall, a.eq b = true → b.eq c = true → a.eq c = true) ∧
      (∀ a b : PointDrawcall, a.eq b = true →
        PointDrawcallHashFunction std_hash a = PointDrawcallHashFunction std_hash b)) := by
  refine ⟨⟨line_drawcall_eq_iff, ?_, ?_, ?_, ?_⟩, ⟨polygon_drawcall_eq_iff, ?_, ?_, ?_, ?_⟩,
    ⟨point_drawcall_eq_iff, ?_, ?_, ?_, ?_⟩⟩
  · intro a
    exact (line_drawcall_eq_iff a a).2 ⟨rfl, rfl⟩
  · intro a b h
    obtain ⟨h1, h2⟩ := (line_drawcall_eq_iff a b).1 h
    exact (line_drawcall_eq_iff b a).2 ⟨h1.symm, h2.symm⟩
  · intro a b c hab hbc
    obtain ⟨h1, h2⟩ := (line_drawcall_eq_iff a b).1 hab
    obtain ⟨h3, h4⟩ := (line_drawcall_eq_iff b c).1 hbc
    exact (line_drawcall_eq_iff a c).2 ⟨h1.trans h3, h2.trans h4⟩
  · intro a b h
    obtain ⟨h1, h2⟩ := (line_drawcall_eq_iff a b).1 h
    simp only [LineDrawcallHashFunction, h1, h2]
  · intro a
    exact (polygon_drawcall_eq_iff a a).2 ⟨rfl, rfl, rfl⟩
  · intro a b h
    obtain ⟨h1, h2, h3⟩ := (polygon_drawcall_eq_iff a b).1 h
    exact (polygon_drawcall_eq_iff b a).2 ⟨h1.symm, h2.symm, h3.symm⟩
  · intro a b c hab hbc
    obtain ⟨h1, h2, h3⟩ := (polygon_drawcall_eq_iff a b).1 hab
    obtain ⟨h4, h5, h6⟩ := (polygon_drawcall_eq_iff b c).1 hbc
    exact (polygon_drawcall_eq_iff a c).2 ⟨h1.trans h4, h2.trans h5, h3.trans h6⟩
  · intro a b h
    obtain ⟨h1, h2, -⟩ := (polygon_drawcall_eq_iff a b).1 h
    simp only [PolygonDrawcallHashfunction, h1, h2]
  · intro a
    exact (point_drawcall_eq_iff a a).2 ⟨rfl, rfl⟩
  · intro a b h
    obtain ⟨h1, h2⟩ := (point_drawcall_eq_iff a b).1 h
    exact (point_drawcall_eq_iff b a).2 ⟨h1.symm, h2.symm⟩
  · intro a b c hab hbc
    obtain ⟨h1, h2⟩ := (point_drawcall_eq_iff a b).1 hab
    obtain ⟨h3, h4⟩ := (point_drawcall_eq_iff b c).1 hbc
    exact (point_drawcall_eq_iff a c).2 ⟨h1.trans h3, h2.trans h4⟩
  · intro a b h
    obtain ⟨h1, -⟩ := (point_drawcall_eq_iff a b).1 h
    simp only [PointDrawcallHashFunction, h1]

/-- Witness of C20: two polygon keys that differ in `cull_face` only are unequal, two
equal line keys have equal hashes under a sample `hash_combine`. -/
theorem drawcall_keys_consistent_witness :
    (⟨4, DepthTest.True⟩ : LineDrawcall).eq ⟨4, DepthTest.True⟩ = true ∧
    LineDrawcallHashFunction (fun t d => 2 * t + (if d = DepthTest.True then 1 else 0))
        ⟨4, DepthTest.True⟩ =
      LineDrawcallHashFunction (fun t d => 2 * t + (if d = DepthTest.True then 1 else 0))
        ⟨4, DepthTest.True⟩ ∧
    ((⟨4, DepthTest.True, BackfaceCull.True⟩ : PolygonDrawcall).eq
        ⟨4, DepthTest.True, BackfaceCull.False⟩ = true ↔
      (4 : Nat) = 4 ∧ DepthTest.True = DepthTest.True ∧ BackfaceCull.True = BackfaceCull.False) :=
  ⟨by decide,
    (drawcall_keys_consistent (fun t d => 2 * t + (if d = DepthTest.True then 1 else 0))
      id).1.2.2.2.2 ⟨4, DepthTest.True⟩ ⟨4, DepthTest.True⟩ (by decide),
    (drawcall_keys_consistent (fun t d => 2 * t + (if d = DepthTest.True then 1 else 0))
      id).2.1.1 ⟨4, DepthTest.True, BackfaceCull.True⟩ ⟨4, DepthTest.True, BackfaceCull.False⟩⟩

/-! ## `push_circle_ring` -/

namespace ImPrimitiveRenderer

theorem vertex_generator_loop_ok (env : MathEnv) (N : Nat) (hN : 2 ≤ N) (n : Nat) :
    ∀ (i : Nat) (acc : List v4f), i + n ≤ 2147483647 →
      ∃ vs, vertex_generator_loop env N n i acc = .ok vs ∧ vs.length = acc.length + n := by
  induction n with
  | zero => intro i acc _; exact ⟨acc, rfl, rfl⟩
  | succ n ih =>
    intro i acc hi
    have hne : (((N - 1 : Nat) : ℚ)) ≠ 0 := by
      have : 0 < N - 1 := by omega
      exact_mod_cast this.ne'
    have hlt : ¬ (2147483647 ≤ i) := by omega
    obtain ⟨vs, h, hl⟩ := ih (i + 1)
      (acc ++ [⟨env.cos ((i : ℚ) * 2 * env.fPI / ((N - 1 : Nat) : ℚ)),
        env.sin ((i : ℚ) * 2 * env.fPI / ((N - 1 : Nat) : ℚ)), 0, 1⟩]) (by omega)
    refine ⟨vs, ?_, ?_⟩
    · simp only [vertex_generator_loop, ParticleBuffer.fdiv_ok _ _ hne, if_neg hlt]
      exact h
    · rw [hl]
      simp
      omega

theorem push_circle_ring_loop_ok (N : Nat) (transform : m4f) (color : Color4u)
    (vertices : List v4f) (vertex_ofs : Nat) (n : Nat) :
    ∀ (i : Nat) (lv : List LineVertex) (ib : List Nat), i + n = N → N ≤ 2147483647 →
      N ≤ vertices.length →
      push_circle_ring_loop N transform color vertices vertex_ofs n i (lv, ib) =
        .ok (lv ++ ((vertices.drop i).take n).map
              (fun v => (⟨xyz (transform.mulVec v), color.color⟩ : LineVertex)),
          ib ++ (List.range' i (n - 1)).flatMap
              (fun j => [(vertex_ofs + j) % 4294967296, (vertex_ofs + j + 1) % 4294967296])) := by
  induction n with
  | zero =>
    intro i lv ib _ _ _
    simp [push_circle_ring_loop]
  | succ n ih =>
    intro i lv ib hin hN hlen
    have hi : i < vertices.length := by omega
    have hlt : ¬ (2147483647 ≤ i) := by omega
    simp only [push_circle_ring_loop, List.getElem?_eq_getElem hi, if_neg hlt]
    rw [ih (i + 1) _ _ (by omega) hN hlen]
    have hdrop : vertices.drop i = vertices[i] :: vertices.drop (i + 1) :=
      List.drop_eq_getElem_cons hi
    rw [hdrop, List.take_succ_cons, List.map_cons]
    refine congrArg Except.ok (Prod.ext ?_ ?_)
    · simp
    · show _ ++ _ = _ ++ _
      by_cases hlast : i < N - 1
      · obtain ⟨m, rfl⟩ : ∃ m, n = m + 1 := ⟨n - 1, by omega⟩
        simp only [if_pos hlast, Nat.add_sub_cancel, List.range'_succ, List.flatMap_cons,
          List.append_assoc]
      · have hn0 : n = 0 := by omega
        subst hn0
        simp [if_neg hlast]

end ImPrimitiveRenderer

namespace ImPrimitiveRenderer

theorem top_ok_cons (st : StateStack) (a : Attr) (x : a.type) (h : st.top a = .ok x) :
    ∃ l, StateStack.getStack st a = x :: l := by
  simp only [StateStack.top, StateStack.top_impl] at h
  cases hl : StateStack.getStack st a with
  | nil => rw [hl] at h; cases h
  | cons y l =>
    rw [hl] at h
    cases h
    exact ⟨l, rfl⟩

theorem push_circle_ring_run (env : MathEnv) (N : Nat) (r : ImPrimitiveRenderer)
    (t : m4f) (c : Color4u) (d : DepthTest)
    (ht : get_states r .transform = .ok t) (hc : get_states r .color = .ok c)
    (hd : get_states r .depth_test = .ok d) (hN : 2 ≤ N) (hmax : N ≤ 2147483647) :
    ∃ vs : List v4f, vs.length = N ∧
      push_circle_ring env N r =
        .ok ⟨r.line_vertices ++
            vs.map (fun v => (⟨xyz (t.mulVec v), c.color⟩ : LineVertex)),
          line_hash_store r.line_hash ⟨GL_LINES, d⟩
            (line_hash_subscript r ⟨GL_LINES, d⟩ ++ ring_segments_u32 r.line_vertices.length N),
          r.polygon_vertices, r.polygon_indices, r.polygon_hash, r.point_hash, r.state_stack⟩ := by
  obtain ⟨vs, hvs, hlen⟩ := vertex_generator_loop_ok env N hN N 0 [] (by omega)
  have hlen1 : vs.length = N := by simpa using hlen
  refine ⟨vs, hlen1, ?_⟩
  have hloop := push_circle_ring_loop_ok N t c vs (r.line_vertices.length % 4294967296) N 0
    r.line_vertices (line_hash_subscript r ⟨GL_LINES, d⟩) (by omega) hmax (by omega)
  have htake : (vs.drop 0).take N = vs := by
    rw [List.drop_zero, ← hlen1, List.take_length]
  rw [htake, ← List.range_eq_range'] at hloop
  simp only [push_circle_ring, ht, hc, hd, vertex_generator, hvs, ParticleBuffer.bind_ok, hloop,
    pure_ok]
  rfl

theorem flatMap_congr_mem {α β : Type} (l : List α) (f g : α → List β)
    (h : ∀ x ∈ l, f x = g x) : l.flatMap f = l.flatMap g := by
  induction l with
  | nil => rfl
  | cons x l ih =>
    simp only [List.flatMap_cons]
    rw [h x (List.mem_cons_self _ _), ih (fun y hy => h y (List.mem_cons_of_mem _ hy))]

theorem ring_segments_u32_eq (k N : Nat) (hfit : k + N ≤ 4294967296) :
    ring_segments_u32 k N = ring_segments k N := by
  unfold ring_segments_u32 ring_segments
  apply flatMap_congr_mem
  intro i hi
  rw [List.mem_range] at hi
  have h1 : k % 4294967296 = k := Nat.mod_eq_of_lt (by omega)
  rw [h1, Nat.mod_eq_of_lt (by omega), Nat.mod_eq_of_lt (by omega)]

theorem ring_segments_length (k N : Nat) : (ring_segments k N).length = 2 * (N - 1) := by
  unfold ring_segments
  induction (N - 1) with
  | zero => rfl
  | succ m ih =>
    rw [List.range_succ, List.flatMap_append, List.length_append, ih]
    simp
    omega

theorem ring_segments_lt (k N : Nat) (idx : Nat) (h : idx ∈ ring_segments k N) :
    k ≤ idx ∧ idx < k + N := by
  unfold ring_segments at h
  rw [List.mem_flatMap] at h
  obtain ⟨i, hi, hidx⟩ := h
  rw [List.mem_range] at hi
  simp only [List.mem_cons, List.mem_singleton, List.not_mem_nil, or_false] at hidx
  rcases hidx with rfl | rfl <;> omega

theorem line_hash_store_same (m : LineDrawcall → Option (List Nat)) (key : LineDrawcall)
    (batch : List Nat) : line_hash_store m key batch key = some batch := by
  simp [line_hash_store, LineDrawcall.eq]

theorem line_hash_store_other (m : LineDrawcall → Option (List Nat)) (key dc : LineDrawcall)
    (batch : List Nat) (h : dc ≠ key) : line_hash_store m key batch dc = m dc := by
  have hne : dc.eq key = false := by
    cases hb : dc.eq key with
    | false => rfl
    | true =>
      obtain ⟨h1, h2⟩ := (line_drawcall_eq_iff dc key).1 hb
      cases dc
      cases key
      simp only at h1 h2
      subst h1
      subst h2
      exact absurd rfl h
  simp [line_hash_store, hne]

end ImPrimitiveRenderer

namespace ImPrimitiveRenderer

/-- C19 fails as stated once the vertex count leaves the range of `unsigned`: with
`2^32 - 1` line vertices accumulated, `push_circle_ring<2>` appends the indices
`4294967295, 0`, while the claimed pair `k, k + 1` is `4294967295, 4294967296`. -/
theorem push_circle_ring_index_wraps :
    demo_renderer_full.line_vertices.length = 4294967295 ∧
    get_states demo_renderer_full .depth_test = .ok DepthTest.False ∧
    (∃ r1, push_circle_ring ParticleBuffer.demo_env 2 demo_renderer_full = .ok r1 ∧
      r1.line_hash ⟨GL_LINES, DepthTest.False⟩ = some [4294967295, 0]) ∧
    ring_segments demo_renderer_full.line_vertices.length 2 = [4294967295, 4294967296] := by
  have hlen : demo_renderer_full.line_vertices.length = 4294967295 :=
    List.length_replicate _ _
  obtain ⟨vs, -, hrun⟩ := push_circle_ring_run ParticleBuffer.demo_env 2 demo_renderer_full m4f_identity
    ⟨7⟩ DepthTest.False rfl rfl rfl (le_refl _) (by norm_num)
  refine ⟨hlen, rfl, ⟨_, hrun, ?_⟩, ?_⟩
  · simp only [line_hash_store_same, hlen]
    rfl
  · rw [hlen]
    rfl

/-- C19 as amended: in a renderer whose transform, colour and depth-test stacks have the
tops `t`, `c`, `d` and whose vertex count `k` satisfies `k + N ≤ 2^32`, with
`2 ≤ N ≤ INT_MAX`, `push_circle_ring<N>` returns; it appends exactly `N` vertices, each
tagged `c`, to `line_vertices`, and the `2(N-1)` indices `k, k+1, ..., k+N-2, k+N-1` to
the batch keyed `{GL_LINES, d}` (created when absent); the earlier vertices and indices
stay as a left part of the lists, every other batch and table is untouched, and every
appended index is below the new vertex count. -/
theorem push_circle_ring_appends (env : MathEnv) (N : Nat) (r : ImPrimitiveRenderer)
    (t : m4f) (c : Color4u) (d : DepthTest)
    (ht : get_states r .transform = .ok t) (hc : get_states r .color = .ok c)
    (hd : get_states r .depth_test = .ok d) (hN : 2 ≤ N) (hmax : N ≤ 2147483647)
    (hfit : r.line_vertices.length + N ≤ 4294967296) :
    ∃ (r1 : ImPrimitiveRenderer) (verts : List LineVertex),
      push_circle_ring env N r = .ok r1 ∧
      verts.length = N ∧ (∀ v ∈ verts, v.color = c.color) ∧
      r1.line_vertices = r.line_vertices ++ verts ∧
      r1.line_hash ⟨GL_LINES, d⟩ =
        some ((r.line_hash ⟨GL_LINES, d⟩).getD [] ++ ring_segments r.line_vertices.length N) ∧
      (ring_segments r.line_vertices.length N).length = 2 * (N - 1) ∧
      (∀ dc : LineDrawcall, dc ≠ ⟨GL_LINES, d⟩ → r1.line_hash dc = r.line_hash dc) ∧
      r1.polygon_vertices = r.polygon_vertices ∧ r1.polygon_indices = r.polygon_indices ∧
      r1.polygon_hash = r.polygon_hash ∧ r1.point_hash = r.point_hash ∧
      r1.state_stack = r.state_stack ∧
      (∀ idx ∈ ring_segments r.line_vertices.length N, idx < r1.line_vertices.length) := by
  obtain ⟨vs, hlen, hrun⟩ := push_circle_ring_run env N r t c d ht hc hd hN hmax
  rw [ring_segments_u32_eq _ _ hfit] at hrun
  refine ⟨_, vs.map (fun v => (⟨xyz (t.mulVec v), c.color⟩ : LineVertex)), hrun, ?_, ?_, rfl,
    ?_, ring_segments_length _ _, ?_, rfl, rfl, rfl, rfl, rfl, ?_⟩
  · simpa using hlen
  · intro v hv
    rw [List.mem_map] at hv
    obtain ⟨w, -, rfl⟩ := hv
    rfl
  · exact line_hash_store_same _ _ _
  · intro dc hdc
    exact line_hash_store_other _ _ _ _ hdc
  · intro idx hidx
    have := ring_segments_lt _ _ idx hidx
    simp only [List.length_append, List.length_map, hlen]
    omega

/-- Witness of C19 as amended: `push_circle_ring<4>` on a renderer without geometry. -/
theorem push_circle_ring_appends_witness :
    get_states demo_renderer .transform = .ok m4f_identity ∧
    get_states demo_renderer .color = .ok (⟨7⟩ : Color4u) ∧
    get_states demo_renderer .depth_test = .ok DepthTest.False ∧
    demo_renderer.line_vertices.length + 4 ≤ 4294967296 ∧
    ∃ (r1 : ImPrimitiveRenderer) (verts : List LineVertex),
      push_circle_ring ParticleBuffer.demo_env 4 demo_renderer = .ok r1 ∧
      verts.length = 4 ∧ (∀ v ∈ verts, v.color = (⟨7⟩ : Color4u).color) ∧
      r1.line_vertices = demo_renderer.line_vertices ++ verts ∧
      r1.line_hash ⟨GL_LINES, DepthTest.False⟩ =
        some ((demo_renderer.line_hash ⟨GL_LINES, DepthTest.False⟩).getD [] ++
          ring_segments demo_renderer.line_vertices.length 4) ∧
      (ring_segments demo_renderer.line_vertices.length 4).length = 2 * (4 - 1) ∧
      (∀ dc : LineDrawcall, dc ≠ ⟨GL_LINES, DepthTest.False⟩ →
        r1.line_hash dc = demo_renderer.line_hash dc) ∧
      r1.polygon_vertices = demo_renderer.polygon_vertices ∧
      r1.polygon_indices = demo_renderer.polygon_indices ∧
      r1.polygon_hash = demo_renderer.polygon_hash ∧
      r1.point_hash = demo_renderer.point_hash ∧
      r1.state_stack = demo_renderer.state_stack ∧
      (∀ idx ∈ ring_segments demo_renderer.line_vertices.length 4,
        idx < r1.line_vertices.length) :=
  ⟨rfl, rfl, rfl, by decide,
    push_circle_ring_appends ParticleBuffer.demo_env 4 demo_renderer m4f_identity ⟨7⟩ DepthTest.False rfl rfl
      rfl (by decide) (by decide) (by decide)⟩

end ImPrimitiveRenderer

/-! ## Spawning: `push_trail` and `push_explosion` -/

namespace ParticleBuffer

theorem push_point_live_gen (N : Nat) (s : ParticleBuffer) (p v : v3f) (c : Nat) (m : Nat)
    (hwf : WF N s) (hm : s.nbr_points = (m : Int)) :
    ∃ s1, push_point N s p v c = .ok s1 ∧ WF N s1 ∧
      s1.nbr_points = ((if m < N then m + 1 else m : Nat) : Int) ∧
      live s1 = live s ++ (if m < N then [⟨p, v, 0, c⟩] else []) := by
  by_cases hlt : m < N
  · have h1 := push_point_free N s p v c m hwf hm hlt
    have hl := push_point_live N s p v c m hwf hm hlt
    obtain ⟨s1, h1', hwf1, -⟩ := push_point_wf N s p v c hwf
    rw [h1] at h1'
    cases h1'
    refine ⟨_, h1, hwf1, ?_, ?_⟩
    · simp [hlt]
    · rw [hl, if_pos hlt]
  · have hfull : ¬ s.nbr_points < (N : Int) := by rw [hm]; omega
    refine ⟨s, push_point_full N s p v c hfull, hwf, ?_, ?_⟩
    · simp [hlt, hm]
    · simp [hlt]

theorem push_trail_loop_live (N : Nat) (env : MathEnv) (p vn : v3f) (theta_spread vel_len : ℚ)
    (color : Nat) (n : Nat) :
    ∀ (s : ParticleBuffer) (k m : Nat), WF N s → s.nbr_points = (m : Int) →
      ∃ s1, push_trail_loop N env p vn theta_spread vel_len color n s k = .ok (s1, k + 2 * n) ∧
        WF N s1 ∧ s1.nbr_points = ((min (m + n) N : Nat) : Int) ∧
        live s1 = live s ++
          (trail_spawn env p vn theta_spread vel_len color n k).take (N - m) := by
  induction n with
  | zero =>
    intro s k m hwf hm
    have hmN : m ≤ N := by have := hwf.2.2.2.2; omega
    exact ⟨s, rfl, hwf, by rw [hm, Nat.add_zero, min_eq_left hmN], by simp [trail_spawn]⟩
  | succ n ih =>
    intro s k m hwf hm
    have hmN : m ≤ N := by have := hwf.2.2.2.2; omega
    obtain ⟨s1, h1, hwf1, hm1, hl1⟩ := push_point_live_gen N s p
      (perturbed_dir env vn (env.rnd k (-theta_spread) theta_spread) *
        env.rnd (k + 1) 0 vel_len) color m hwf hm
    obtain ⟨s2, h2, hwf2, hm2, hl2⟩ := ih s1 (k + 2) _ hwf1 hm1
    refine ⟨s2, ?_, hwf2, ?_, ?_⟩
    · have : push_point N s p
          ((⟨vn.x * env.cos (env.rnd k (-theta_spread) theta_spread) -
              vn.y * env.sin (env.rnd k (-theta_spread) theta_spread),
            vn.x * env.sin (env.rnd k (-theta_spread) theta_spread) +
              vn.y * env.cos (env.rnd k (-theta_spread) theta_spread), 0⟩ : v3f) *
            env.rnd (k + 1) 0 vel_len) color = .ok s1 := h1
      simp only [push_trail_loop, this]
      rw [h2]
      congr 2
      omega
    · rw [hm2]
      split_ifs with hlt
      · congr 1
        omega
      · congr 1
        have : m = N := by omega
        subst this
        simp
    · rw [hl2, hl1]
      simp only [trail_spawn]
      split_ifs with hlt
      · obtain ⟨d, hd⟩ : ∃ d, N - m = d + 1 := ⟨N - m - 1, by omega⟩
        have hd' : N - (m + 1) = d := by omega
        rw [hd, hd', List.take_succ_cons, List.append_assoc, List.singleton_append]
      · have : N - m = 0 := by omega
        simp [this]

theorem push_explosion_loop_live (N : Nat) (env : MathEnv) (p vn : v3f) (theta_spread : ℚ)
    (color : Nat) (n : Nat) :
    ∀ (s : ParticleBuffer) (k m : Nat), WF N s → s.nbr_points = (m : Int) →
      ∃ s1, push_explosion_loop N env p vn theta_spread color n s k = .ok (s1, k + 4 * n) ∧
        WF N s1 ∧ s1.nbr_points = ((min (m + n) N : Nat) : Int) ∧
        live s1 = live s ++
          (explosion_spawn env p vn theta_spread color n k).take (N - m) := by
  induction n with
  | zero =>
    intro s k m hwf hm
    have hmN : m ≤ N := by have := hwf.2.2.2.2; omega
    exact ⟨s, rfl, hwf, by rw [hm, Nat.add_zero, min_eq_left hmN], by simp [explosion_spawn]⟩
  | succ n ih =>
    intro s k m hwf hm
    have hmN : m ≤ N := by have := hwf.2.2.2.2; omega
    obtain ⟨s1, h1, hwf1, hm1, hl1⟩ := push_point_live_gen N s
      ⟨p.x + env.rnd (k + 2) (-1 / 10) (1 / 10), p.y + env.rnd (k + 3) (-1 / 10) (1 / 10), p.z⟩
      (perturbed_dir env vn (env.rnd k (-theta_spread) theta_spread) *
        env.rnd (k + 1) 1 12) color m hwf hm
    obtain ⟨s2, h2, hwf2, hm2, hl2⟩ := ih s1 (k + 4) _ hwf1 hm1
    refine ⟨s2, ?_, hwf2, ?_, ?_⟩
    · have : push_point N s
          ⟨p.x + env.rnd (k + 2) (-1 / 10) (1 / 10), p.y + env.rnd (k + 3) (-1 / 10) (1 / 10),
            p.z⟩
          ((⟨vn.x * env.cos (env.rnd k (-theta_spread) theta_spread) -
              vn.y * env.sin (env.rnd k (-theta_spread) theta_spread),
            vn.x * env.sin (env.rnd k (-theta_spread) theta_spread) +
              vn.y * env.cos (env.rnd k (-theta_spread) theta_spread), 0⟩ : v3f) *
            env.rnd (k + 1) 1 12) color = .ok s1 := h1
      simp only [push_explosion_loop, this]
      rw [h2]
      congr 2
      omega
    · rw [hm2]
      split_ifs with hlt
      · congr 1
        omega
      · congr 1
        have : m = N := by omega
        subst this
        simp
    · rw [hl2, hl1]
      simp only [explosion_spawn]
      split_ifs with hlt
      · obtain ⟨d, hd⟩ : ∃ d, N - m = d + 1 := ⟨N - m - 1, by omega⟩
        have hd' : N - (m + 1) = d := by omega
        rw [hd, hd', List.take_succ_cons, List.append_assoc, List.singleton_append]
      · have : N - m = 0 := by omega
        simp [this]

theorem push_trail_small (N : Nat) (env : MathEnv) (k : Nat) (s : ParticleBuffer) (p v : v3f)
    (n : Int) (color : Nat) (h : env.length v < 1 / 1000) :
    push_trail N env k s p v n color =
      push_trail_loop N env p ⟨1, 0, 0⟩
        (lerp (20 * env.fTO_RAD) 0 (clamp (env.length v / 10) 0 1)) (env.length v) color
        n.toNat s k := by
  simp only [push_trail, if_pos h, pure_ok, bind_ok]

theorem push_trail_large (N : Nat) (env : MathEnv) (k : Nat) (s : ParticleBuffer) (p v : v3f)
    (n : Int) (color : Nat) (h : ¬ env.length v < 1 / 1000) :
    push_trail N env k s p v n color =
      push_trail_loop N env p ⟨v.x / env.length v, v.y / env.length v, 0⟩
        (lerp (20 * env.fTO_RAD) 0 (clamp (env.length v / 10) 0 1)) (env.length v) color
        n.toNat s k := by
  have hne : env.length v ≠ 0 := by
    intro h0
    rw [h0] at h
    norm_num at h
  simp only [push_trail, if_neg h, fdiv_ok _ _ hne, pure_ok, bind_ok]

theorem push_explosion_small (N : Nat) (env : MathEnv) (k : Nat) (s : ParticleBuffer)
    (p v : v3f) (n : Int) (color : Nat) (h : env.length v < 1 / 1000) :
    push_explosion N env k s p v n color =
      push_explosion_loop N env p ⟨1, 0, 0⟩
        (lerp env.fPI (20 * env.fTO_RAD) (clamp (env.length v / 5) 0 1)) color n.toNat s k := by
  simp only [push_explosion, if_pos h, pure_ok, bind_ok]

end ParticleBuffer

namespace ParticleBuffer

theorem normsq_perturbed_dir (env : MathEnv) (vn : v3f) (theta : ℚ) (hz : vn.z = 0)
    (htrig : env.sin theta * env.sin theta + env.cos theta * env.cos theta = 1) :
    normsq (perturbed_dir env vn theta) = normsq vn := by
  simp only [normsq, perturbed_dir, hz]
  have e : (vn.x * env.cos theta - vn.y * env.sin theta) *
        (vn.x * env.cos theta - vn.y * env.sin theta) +
      (vn.x * env.sin theta + vn.y * env.cos theta) *
        (vn.x * env.sin theta + vn.y * env.cos theta) + 0 * 0 =
      (vn.x * vn.x + vn.y * vn.y) *
        (env.sin theta * env.sin theta + env.cos theta * env.cos theta) := by ring
  rw [e, htrig]
  ring

theorem normsq_scale (v : v3f) (c : ℚ) : normsq (v * c) = normsq v * (c * c) := by
  show normsq (v3f.scale v c) = _
  simp only [normsq, v3f.scale]
  ring

theorem trail_spawn_mem (env : MathEnv) (p vn : v3f) (theta_spread vel_len : ℚ) (color : Nat)
    (n : Nat) :
    ∀ (k : Nat) (r : Particle), r ∈ trail_spawn env p vn theta_spread vel_len color n k →
      ∃ j : Nat, r = ⟨p, perturbed_dir env vn (env.rnd j (-theta_spread) theta_spread) *
        env.rnd (j + 1) 0 vel_len, 0, color⟩ := by
  induction n with
  | zero => intro k r h; simp [trail_spawn] at h
  | succ n ih =>
    intro k r h
    simp only [trail_spawn, List.mem_cons] at h
    rcases h with h | h
    · exact ⟨k, h⟩
    · exact ih (k + 2) r h

theorem trail_spawn_length (env : MathEnv) (p vn : v3f) (theta_spread vel_len : ℚ)
    (color : Nat) (n : Nat) :
    ∀ k : Nat, (trail_spawn env p vn theta_spread vel_len color n k).length = n := by
  induction n with
  | zero => intro k; rfl
  | succ n ih => intro k; simp [trail_spawn, ih]

theorem scale_zero (v : v3f) : v * (0 : ℚ) = (⟨0, 0, 0⟩ : v3f) := by
  show v3f.scale v 0 = _
  simp [v3f.scale]

theorem trail_spawn_still (env : MathEnv) (p vn : v3f) (theta_spread : ℚ) (color : Nat)
    (hrnd : ∀ (k : Nat) (lo hi : ℚ), lo ≤ hi → lo ≤ env.rnd k lo hi ∧ env.rnd k lo hi ≤ hi)
    (n : Nat) :
    ∀ k : Nat, trail_spawn env p vn theta_spread 0 color n k =
      List.replicate n ⟨p, ⟨0, 0, 0⟩, 0, color⟩ := by
  induction n with
  | zero => intro k; rfl
  | succ n ih =>
    intro k
    have h0 : env.rnd (k + 1) 0 0 = 0 := by
      obtain ⟨h1, h2⟩ := hrnd (k + 1) 0 0 (le_refl _)
      exact le_antisymm h2 h1
    simp only [trail_spawn, h0, scale_zero, ih, List.replicate_succ]

end ParticleBuffer

namespace ParticleBuffer

theorem normsq_perturbed_dir_xy (env : MathEnv) (vn : v3f) (theta : ℚ) :
    normsq (perturbed_dir env vn theta) =
      (vn.x * vn.x + vn.y * vn.y) *
        (env.sin theta * env.sin theta + env.cos theta * env.cos theta) := by
  simp only [normsq, perturbed_dir]
  ring

/-- Squared length of a turned base direction `(x / len, y / len, 0)`, for a length and a
rotation that are accurate up to the relative error `2^-20`: it is the share
`(x² + y²) / n2` of the squared length `n2`, within `2^-18`. -/
theorem dir_length_approx (x y len n2 t d : ℚ) (hlen0 : 0 < len)
    (hn2 : x * x + y * y ≤ n2)
    (hlen : |len * len - n2| ≤ 1 / 1048576 * n2)
    (ht : |t - 1| ≤ 1 / 1048576)
    (hd : d * (len * len) = (x * x + y * y) * t) :
    |d * n2 - (x * x + y * y)| ≤ 1 / 262144 * n2 := by
  obtain ⟨l1, l2⟩ := abs_le.1 hlen
  obtain ⟨t1, t2⟩ := abs_le.1 ht
  have hA : 0 ≤ x * x + y * y := add_nonneg (mul_self_nonneg x) (mul_self_nonneg y)
  have hsq : 0 < len * len := mul_pos hlen0 hlen0
  have hn2pos : 0 < n2 := by nlinarith
  have hd0 : 0 ≤ d := by
    have h1 : 0 ≤ (x * x + y * y) * t := mul_nonneg hA (by linarith)
    rw [← hd] at h1
    by_contra hneg
    push_neg at hneg
    have := mul_neg_of_neg_of_pos hneg hsq
    linarith
  -- `d` is at most 2; then `|d n2 - A| ≤ |d| |n2 - len²| + A |t - 1|`
  have hd2 : d ≤ 2 := by
    by_contra hbig
    push_neg at hbig
    have h1 : 2 * (len * len) < d * (len * len) := mul_lt_mul_of_pos_right hbig hsq
    have h2 : (x * x + y * y) * t ≤ n2 * (1 + 1 / 1048576) := by
      calc (x * x + y * y) * t ≤ (x * x + y * y) * (1 + 1 / 1048576) :=
            mul_le_mul_of_nonneg_left (by linarith) hA
        _ ≤ n2 * (1 + 1 / 1048576) := mul_le_mul_of_nonneg_right hn2 (by norm_num)
    nlinarith
  have e : d * n2 - (x * x + y * y) = d * (n2 - len * len) + (x * x + y * y) * (t - 1) := by
    rw [mul_sub, hd]
    ring
  rw [e, abs_le]
  have b1 : |d * (n2 - len * len)| ≤ 2 * (1 / 1048576 * n2) := by
    rw [abs_mul, abs_of_nonneg hd0, abs_sub_comm]
    exact mul_le_mul hd2 hlen (abs_nonneg _) (by norm_num)
  have b2 : |(x * x + y * y) * (t - 1)| ≤ n2 * (1 / 1048576) := by
    rw [abs_mul, abs_of_nonneg hA]
    exact mul_le_mul hn2 ht (abs_nonneg _) hn2pos.le
  obtain ⟨c1, c2⟩ := abs_le.1 b1
  obtain ⟨c3, c4⟩ := abs_le.1 b2
  constructor <;> linarith

theorem perturbed_dir_scaled (env : MathEnv) (v : v3f) (len theta : ℚ) (hne : len ≠ 0) :
    normsq (perturbed_dir env ⟨v.x / len, v.y / len, 0⟩ theta) * (len * len) =
      (v.x * v.x + v.y * v.y) *
        (env.sin theta * env.sin theta + env.cos theta * env.cos theta) := by
  rw [normsq_perturbed_dir_xy]
  field_simp

end ParticleBuffer

namespace ParticleBuffer

theorem spread_zero_of_saturated (env : MathEnv) (v : v3f) (h : 10 ≤ env.length v) :
    lerp (20 * env.fTO_RAD) 0 (clamp (env.length v / 10) 0 1) = 0 := by
  have hq : 1 ≤ env.length v / 10 := by
    rw [le_div_iff₀ (by norm_num)]
    linarith
  have hc : clamp (env.length v / 10) 0 1 = 1 := by
    unfold clamp
    rw [if_neg (by linarith)]
    split_ifs with h1
    · rfl
    · exact le_antisymm (not_lt.1 h1) hq
  rw [hc]
  simp [lerp]

/-- C16: with `lerp(a, b, t) = a + (b - a) t`, a generator that stays in the requested
range, `sin 0 = 0`, `cos 0 = 1` and `|(10,0,0)| = 10`, on a well-formed buffer with at
least 50 free slots `push_trail(p, (10,0,0), 50, color)` returns with 50 more live
particles, each at `p` with age 0, the given colour and a velocity `(s, 0, 0)` with
`0 ≤ s ≤ 10`; and the spread angle is 0 for every `v` of length at least 10. -/
theorem push_trail_saturated (N : Nat) (env : MathEnv) (k : Nat) (s : ParticleBuffer)
    (p : v3f) (color : Nat) (m : Nat) (hwf : WF N s) (hm : s.nbr_points = (m : Int))
    (hfree : m + 50 ≤ N) (hlen : env.length ⟨10, 0, 0⟩ = 10)
    (hrnd : ∀ (k : Nat) (lo hi : ℚ), lo ≤ hi → lo ≤ env.rnd k lo hi ∧ env.rnd k lo hi ≤ hi)
    (hsin : env.sin 0 = 0) (hcos : env.cos 0 = 1) :
    (∀ a b t : ℚ, lerp a b t = a + (b - a) * t) ∧
    (∀ v : v3f, 10 ≤ env.length v →
      lerp (20 * env.fTO_RAD) 0 (clamp (env.length v / 10) 0 1) = 0) ∧
    ∃ (s1 : ParticleBuffer) (k1 : Nat) (spawned : List Particle),
      push_trail N env k s p ⟨10, 0, 0⟩ 50 color = .ok (s1, k1) ∧
      size s1 = (m : Int) + 50 ∧ live s1 = live s ++ spawned ∧ spawned.length = 50 ∧
      ∀ r ∈ spawned, r.p = p ∧ r.age = 0 ∧ r.color = color ∧
        ∃ sp : ℚ, 0 ≤ sp ∧ sp ≤ 10 ∧ r.v = ⟨sp, 0, 0⟩ := by
  refine ⟨fun a b t => rfl, fun v hv => spread_zero_of_saturated env v hv, ?_⟩
  have hnot : ¬ env.length ⟨10, 0, 0⟩ < 1 / 1000 := by rw [hlen]; norm_num
  have htr := push_trail_large N env k s p ⟨10, 0, 0⟩ 50 color hnot
  have hspread := spread_zero_of_saturated env ⟨10, 0, 0⟩ (by rw [hlen])
  rw [hspread, hlen] at htr
  obtain ⟨s1, h1, -, hn1, hl⟩ :=
    push_trail_loop_live N env p ⟨10 / 10, 0 / 10, 0⟩ 0 10 color (50 : Int).toNat s k m hwf hm
  have h50 : (50 : Int).toNat = 50 := rfl
  rw [h50] at h1 hn1 hl
  have hlen50 := trail_spawn_length env p ⟨10 / 10, 0 / 10, 0⟩ 0 10 color 50 k
  rw [List.take_of_length_le (by rw [hlen50]; omega)] at hl
  refine ⟨s1, _, _, htr.trans h1, ?_, hl, hlen50, ?_⟩
  · simp only [size, hn1]
    rw [min_eq_left hfree]
    push_cast
    rfl
  · intro r hr
    obtain ⟨j, rfl⟩ := trail_spawn_mem _ _ _ _ _ _ _ _ r hr
    obtain ⟨hs0, hs1⟩ := hrnd (j + 1) 0 10 (by norm_num)
    have hth : env.rnd j (-0) 0 = 0 := by
      obtain ⟨h0, h1⟩ := hrnd j (-0) 0 (by norm_num)
      rw [neg_zero] at h0
      exact le_antisymm h1 h0
    refine ⟨rfl, rfl, rfl, env.rnd (j + 1) 0 10, hs0, hs1, ?_⟩
    show perturbed_dir env _ _ * _ = _
    rw [hth, v3f_scale_eq]
    simp [perturbed_dir, hsin, hcos]

/-- Witness of C16: the call on an empty buffer of capacity 64. -/
theorem push_trail_saturated_witness :
    WF 64 ⟨List.replicate 64 default, List.replicate 64 default, List.replicate 64 0, 0⟩ ∧
    demo_env_x.length ⟨10, 0, 0⟩ = 10 ∧
    ∃ (s1 : ParticleBuffer) (k1 : Nat) (spawned : List Particle),
      push_trail 64 demo_env_x 0
          ⟨List.replicate 64 default, List.replicate 64 default, List.replicate 64 0, 0⟩
          ⟨1, 2, 3⟩ ⟨10, 0, 0⟩ 50 7 = .ok (s1, k1) ∧
      size s1 = ((0 : Nat) : Int) + 50 ∧
      live s1 = live ⟨List.replicate 64 default, List.replicate 64 default,
        List.replicate 64 0, 0⟩ ++ spawned ∧
      spawned.length = 50 ∧
      ∀ r ∈ spawned, r.p = ⟨1, 2, 3⟩ ∧ r.age = 0 ∧ r.color = 7 ∧
        ∃ sp : ℚ, 0 ≤ sp ∧ sp ≤ 10 ∧ r.v = ⟨sp, 0, 0⟩ := by
  have hwf : WF 64
      ⟨List.replicate 64 default, List.replicate 64 default, List.replicate 64 0, 0⟩ := by
    refine ⟨?_, ?_, ?_, ?_, ?_⟩ <;> simp
  have hlen : demo_env_x.length ⟨10, 0, 0⟩ = 10 := by simp [demo_env_x]
  exact ⟨hwf, hlen,
    (push_trail_saturated 64 demo_env_x 0 _ ⟨1, 2, 3⟩ 7 0 hwf rfl (by decide) hlen
      (fun _ _ _ h => ⟨h, le_refl _⟩) rfl rfl).2.2⟩

end ParticleBuffer

/-! ## `update_explosion` -/

namespace ParticleBuffer

theorem f32_add_zero_three_quarters : f32_add 0 (3 / 4) = 3 / 4 := by
  have := binary32_representable 3 (-2) (by norm_num) (by norm_num)
  unfold f32_add
  norm_num at this ⊢
  exact this

theorem f32_add_three_quarters_tiny : f32_add (3 / 4) (1 / 1073741824) = 3 / 4 := by
  have := binary32_eval (3 / 4 + 1 / 1073741824) (-1) 12582912 (by norm_num [abs_of_pos])
    (by norm_num [abs_of_pos]) (by norm_num) (by norm_num) (by norm_num)
  unfold f32_add
  norm_num at this ⊢
  exact this

/-- The alpha value of the age 0.5 under `max_age = 0.75`: the quotient `2/3` is rounded
up, the difference is exact, the product `84.99999493...` is rounded to `84.99999237...`. -/
theorem fade_value_half_explosion : fade_value (3 / 4) (1 / 2) = 11141119 / 131072 := by
  have e1 : f32_div (1 / 2) (3 / 4) = 11184811 / 16777216 := by
    have := binary32_eval (1 / 2 / (3 / 4)) (-1) 11184811 (by norm_num [abs_of_pos])
      (by norm_num [abs_of_pos]) (by norm_num) (by norm_num) (by norm_num)
    unfold f32_div
    norm_num at this ⊢
    exact this
  have e2 : f32_sub 1 (11184811 / 16777216) = 5592405 / 16777216 := by
    have := binary32_representable 5592405 (-24) (by norm_num) (by norm_num)
    unfold f32_sub
    norm_num at this ⊢
    exact this
  have e3 : f32_mul (5592405 / 16777216) 255 = 11141119 / 131072 := by
    have := binary32_eval (5592405 / 16777216 * 255) 6 11141119 (by norm_num [abs_of_pos])
      (by norm_num [abs_of_pos]) (by norm_num) (by norm_num) (by norm_num)
    unfold f32_mul
    norm_num at this ⊢
    exact this
  rw [fade_value, e1, e2, e3]

/-- C17 fails as stated. With age 0 and `dt = 0.5`, `update_explosion` writes the alpha
byte 84, where `(1 - (age + dt)/0.75) * 255` is 85. And on one live particle of age 0 the
calls `update_explosion(0.75f)`, `update_explosion(2^-30)` have positive steps, both
binary32 values, whose sum exceeds 0.75; in the second call `age + dt > 0.75`, yet the
particle is kept, because the sum is rounded to `0.75`, and `size()` stays 1. -/
theorem update_explosion_rounds :
    WF 2 demo_one ∧
    (∃ s1, update_explosion 1 (1 / 2) demo_one = .ok s1 ∧
      live s1 = [⟨⟨0, 0, 0⟩, ⟨0, 0, 0⟩, 1 / 2, 0x54ffffff⟩]) ∧
    ((0x54ffffff : Nat) >>> 24) % 256 = 84 ∧
    (1 - ((0 : ℚ) + 1 / 2) / (3 / 4)) * 255 = 85 ∧
    (∀ dt ∈ ([3 / 4, 1 / 1073741824] : List ℚ), 0 < dt ∧ binary32 dt = dt) ∧
    (3 / 4 : ℚ) < ([3 / 4, 1 / 1073741824] : List ℚ).sum ∧
    (3 / 4 : ℚ) + 1 / 1073741824 > 3 / 4 ∧ f32_add (3 / 4) (1 / 1073741824) = 3 / 4 ∧
    ∃ s1, update_explosion_seq 1 [3 / 4, 1 / 1073741824] demo_one = .ok s1 ∧ size s1 = 1 := by
  refine ⟨by decide, ?_, by decide, by norm_num, ?_, by norm_num, by norm_num,
    f32_add_three_quarters_tiny, ?_⟩
  · obtain ⟨s1, h1, -, hl1⟩ :=
      update_explosion_single 2 1 demo_one (1 / 2) _ (by decide) (by decide) live_demo_one
    have halpha : fade_alpha (3 / 4) (1 / 2) = 84 := by
      rw [fade_alpha_eq, fade_value_half_explosion]
      exact to_uchar_of_floor _ 84 (by norm_num) (by norm_num) (by norm_num)
    have hcol : fade_color (3 / 4) (1 / 2) White = 0x54ffffff := by
      rw [fade_color, halpha]
      decide
    rw [update_explosion_step_at_rest, f32_add_zero_half, if_pos (by norm_num), hcol] at hl1
    exact ⟨s1, h1, hl1⟩
  · intro dt hdt
    simp only [List.mem_cons, List.mem_singleton, List.not_mem_nil, or_false] at hdt
    rcases hdt with rfl | rfl
    · refine ⟨by norm_num, ?_⟩
      have := f32_add_zero_three_quarters
      rwa [f32_add, zero_add] at this
    · exact ⟨by norm_num, binary32_tiny⟩
  · obtain ⟨s1, h1, hwf1, hl1⟩ :=
      update_explosion_single 2 1 demo_one (3 / 4) _ (by decide) (by decide) live_demo_one
    rw [update_explosion_step_at_rest, f32_add_zero_three_quarters, if_pos (le_refl _)] at hl1
    have hn1 : s1.nbr_points ≤ ((1 : Nat) : Int) := by
      have := size_one_of_live_singleton 2 s1 _ hwf1 hl1
      simp only [size] at this
      omega
    obtain ⟨s2, h2, hwf2, hl2⟩ :=
      update_explosion_single 2 1 s1 (1 / 1073741824) _ hwf1 hn1 hl1
    rw [f32_add_three_quarters_tiny, if_pos (le_refl _)] at hl2
    refine ⟨s2, ?_, size_one_of_live_singleton 2 s2 _ hwf2 hl2⟩
    simp only [update_explosion_seq, h1, h2]

/-- C17 as amended: on a well-formed buffer `update_explosion(dt)` returns; the live
records afterwards are, as a multiset, the images of the records whose binary32 sum
`age + dt` is at most 0.75 (a record is removed exactly when that rounded sum exceeds
0.75); a surviving record has, each operation rounded to binary32 in the order of the
source and no result beyond the binary32 range, the velocity `v + (v * -5.0) * dt`, the
position `p + v' * dt` from the new velocity `v'` in all three axes (no clamp), the age
`age + dt`, the same low 24 colour bits and the alpha byte
`(uchar)((1 - age'/0.75) * 255)` of the new age `age'`; and calls with positive steps
whose binary32 accumulation exceeds 0.75, on live particles of age at least 0, leave
`size() == 0`. -/
theorem update_explosion_policy_f32 (N fuel : Nat) (s : ParticleBuffer) (dt : ℚ)
    (hwf : WF N s) (hfuel : s.nbr_points ≤ (fuel : Int)) :
    (∃ s1, update_explosion fuel dt s = .ok s1 ∧
      ((live s1 : List Particle) : Multiset Particle) =
        ((((live s).filter (fun r => decide (¬ (f32_add r.age dt > 3 / 4)))).map
          (update_explosion_step dt) : List Particle) : Multiset Particle)) ∧
    (∀ r : Particle,
      (update_explosion_step dt r).v = v3f.add32 r.v (v3f.scale32 (v3f.scale32 r.v (-5)) dt) ∧
      (update_explosion_step dt r).p =
        v3f.add32 r.p (v3f.scale32 (update_explosion_step dt r).v dt) ∧
      (update_explosion_step dt r).p.x =
        f32_add r.p.x (f32_mul (update_explosion_step dt r).v.x dt) ∧
      (update_explosion_step dt r).p.y =
        f32_add r.p.y (f32_mul (update_explosion_step dt r).v.y dt) ∧
      (update_explosion_step dt r).p.z =
        f32_add r.p.z (f32_mul (update_explosion_step dt r).v.z dt) ∧
      (update_explosion_step dt r).age = f32_add r.age dt ∧
      (update_explosion_step dt r).color &&& 0x00ffffff = r.color &&& 0x00ffffff ∧
      (update_explosion_step dt r).color >>> 24 =
        to_uchar (f32_mul (f32_sub 1 (f32_div (f32_add r.age dt) (3 / 4))) 255)) ∧
    (∀ dts : List ℚ, (∀ r ∈ live s, 0 ≤ r.age) → (∀ d ∈ dts, 0 < d) → 3 / 4 < f32_sum dts →
      ∃ s1, update_explosion_seq fuel dts s = .ok s1 ∧ size s1 = 0) := by
  refine ⟨?_, ?_, ?_⟩
  · obtain ⟨s1, h1, -, hperm⟩ := update_explosion_run N dt fuel s hwf hfuel
    refine ⟨s1, h1, Multiset.coe_eq_coe.2 ?_⟩
    have hfilter : (live s).filter (fun r => decide (¬ (f32_add r.age dt > 3 / 4))) =
        (live s).filter (fun r => decide (f32_add r.age dt ≤ 3 / 4)) := by
      congr 1
      funext r
      simp [not_lt]
    rw [hfilter]
    exact hperm
  · intro r
    exact ⟨rfl, rfl, rfl, rfl, rfl, rfl, testBit_recolor _ _, shift_recolor _ _⟩
  · intro dts hage _ hsum
    obtain ⟨s1, h1, hwf1, -, hage1, hmax1⟩ :=
      update_explosion_seq_ages N fuel dts s hwf hfuel hage
    exact ⟨s1, h1, seq_expires N (3 / 4) s1 dts hwf1 hage1 hmax1 (by norm_num) hsum⟩

/-- Witness of C17 as amended: `update_explosion(1/2)` and two steps of 1/2 on a buffer of
three live particles. -/
theorem update_explosion_policy_f32_witness :
    WF 3 demo_three ∧ demo_three.nbr_points ≤ ((3 : Nat) : Int) ∧
    (∀ d ∈ ([1 / 2, 1 / 2] : List ℚ), 0 < d) ∧ (3 / 4 : ℚ) < f32_sum [1 / 2, 1 / 2] ∧
    (∃ s1, update_explosion 3 (1 / 2) demo_three = .ok s1 ∧
      ((live s1 : List Particle) : Multiset Particle) =
        ((((live demo_three).filter (fun r => decide (¬ (f32_add r.age (1 / 2) > 3 / 4)))).map
          (update_explosion_step (1 / 2)) : List Particle) : Multiset Particle)) ∧
    (∃ s1, update_explosion_seq 3 [1 / 2, 1 / 2] demo_three = .ok s1 ∧ size s1 = 0) := by
  have hpos : ∀ d ∈ ([1 / 2, 1 / 2] : List ℚ), 0 < d := by
    intro d hd
    simp only [List.mem_cons, List.mem_singleton, List.not_mem_nil, or_false, or_self] at hd
    rw [hd]
    norm_num
  have hages : ∀ r ∈ live demo_three, 0 ≤ r.age := by
    intro r hr
    simp [live, demo_three, slot, List.range_succ] at hr
    rcases hr with rfl | rfl | rfl <;> norm_num
  have h2 : f32_add (1 / 2) (1 / 2) = 1 := by
    unfold f32_add
    norm_num
    exact binary32_one
  have hsum : (3 / 4 : ℚ) < f32_sum [1 / 2, 1 / 2] := by
    simp only [f32_sum, List.foldl_cons, List.foldl_nil, f32_add_zero_half, h2]
    norm_num
  exact ⟨by decide, by decide, hpos, hsum,
    (update_explosion_policy_f32 3 3 demo_three (1 / 2) (by decide) (by decide)).1,
    (update_explosion_policy_f32 3 3 demo_three (1 / 2) (by decide) (by decide)).2.2 _ hages hpos
      hsum⟩

end ParticleBuffer

/-! ## Termination of the ageing loops -/

namespace ParticleBuffer

theorem update_loop_trace_eq (dt : ℚ) (fuel : Nat) :
    ∀ (s : ParticleBuffer) (i : Int),
      update_loop_trace dt fuel s i = age_loop_trace (update_body dt) fuel s i := by
  induction fuel with
  | zero => intro s i; rfl
  | succ fuel ih =>
    intro s i
    simp only [update_loop_trace, age_loop_trace]
    split_ifs with h
    · cases hb : update_body dt s i with
      | error e => rfl
      | ok r => exact congrArg _ (ih r.1 (r.2 + 1))
    · rfl

theorem update_explosion_loop_trace_eq (dt : ℚ) (fuel : Nat) :
    ∀ (s : ParticleBuffer) (i : Int),
      update_explosion_loop_trace dt fuel s i =
        age_loop_trace (update_explosion_body dt) fuel s i := by
  induction fuel with
  | zero => intro s i; rfl
  | succ fuel ih =>
    intro s i
    simp only [update_explosion_loop_trace, age_loop_trace]
    split_ifs with h
    · cases hb : update_explosion_body dt s i with
      | error e => rfl
      | ok r => exact congrArg _ (ih r.1 (r.2 + 1))
    · rfl

theorem body_step (N : Nat) (body : ParticleBuffer → Int → Except Fault (ParticleBuffer × Int))
    (dt M : ℚ) (step : Particle → Particle) (hb : BodySpec N body dt M step)
    (s : ParticleBuffer) (k m : Nat) (hwf : WF N s) (hn : s.nbr_points = (m : Int) + 1)
    (hk : k ≤ m) :
    ∃ (s1 : ParticleBuffer) (i1 : Int) (k1 n1 : Nat), body s (k : Int) = .ok (s1, i1) ∧
      WF N s1 ∧ i1 + 1 = (k1 : Int) ∧ s1.nbr_points = (n1 : Int) ∧ k1 ≤ n1 ∧
      n1 - k1 = m - k := by
  obtain ⟨s1, hwf1, hcase⟩ := hb s k m hwf hn hk
  by_cases hexp : M < f32_add (slot s k).age dt
  · rw [if_pos hexp] at hcase
    obtain ⟨hbody, hm1, -⟩ := hcase
    exact ⟨s1, (k : Int) - 1, k, m, hbody, hwf1, by omega, hm1, hk, rfl⟩
  · rw [if_neg hexp] at hcase
    obtain ⟨hbody, hm1, -⟩ := hcase
    exact ⟨s1, (k : Int), k + 1, m + 1, hbody, hwf1, by push_cast; rfl, by push_cast; exact hm1,
      by omega, by omega⟩

theorem age_loop_out_of_fuel (N : Nat)
    (body : ParticleBuffer → Int → Except Fault (ParticleBuffer × Int))
    (dt M : ℚ) (step : Particle → Particle) (hb : BodySpec N body dt M step) :
    ∀ (fuel : Nat) (s : ParticleBuffer) (k n : Nat), WF N s → s.nbr_points = (n : Int) →
      k ≤ n → fuel < n - k → age_loop body fuel s (k : Int) = .error .out_of_fuel := by
  intro fuel
  induction fuel with
  | zero =>
    intro s k n _ hn _ hfuel
    have hlt : (k : Int) < s.nbr_points := by rw [hn]; omega
    simp only [age_loop, if_pos hlt]
  | succ fuel ih =>
    intro s k n hwf hn hk hfuel
    obtain ⟨m, rfl⟩ : ∃ m, n = m + 1 := ⟨n - 1, by omega⟩
    have hn1 : s.nbr_points = (m : Int) + 1 := by rw [hn]; push_cast; rfl
    have hlt : (k : Int) < s.nbr_points := by rw [hn1]; omega
    obtain ⟨s1, i1, k1, n1, hbody, hwf1, hi1, hs1, hk1, hmeas⟩ :=
      body_step N body dt M step hb s k m hwf hn1 (by omega)
    simp only [age_loop, if_pos hlt, hbody, hi1]
    exact ih s1 k1 n1 hwf1 hs1 hk1 (by omega)

theorem age_loop_trace_spec (N : Nat)
    (body : ParticleBuffer → Int → Except Fault (ParticleBuffer × Int))
    (dt M : ℚ) (step : Particle → Particle) (hb : BodySpec N body dt M step) :
    ∀ (fuel : Nat) (s : ParticleBuffer) (k n : Nat), WF N s → s.nbr_points = (n : Int) →
      k ≤ n → n - k ≤ fuel →
      (age_loop_trace body fuel s (k : Int)).map (fun e => e.2 - e.1) =
          (List.range (n - k)).map (fun j => ((n - k - j : Nat) : Int)) ∧
        ∀ e ∈ age_loop_trace body fuel s (k : Int), 0 ≤ e.1 ∧ e.1 < e.2 ∧ e.2 ≤ (N : Int) := by
  intro fuel
  induction fuel with
  | zero =>
    intro s k n _ _ _ hfuel
    have h0 : n - k = 0 := by omega
    simp [age_loop_trace, h0]
  | succ fuel ih =>
    intro s k n hwf hn hk hfuel
    by_cases hkn : k = n
    · subst hkn
      have hnlt : ¬ ((k : Int) < s.nbr_points) := by rw [hn]; omega
      simp [age_loop_trace, hnlt]
    · obtain ⟨m, rfl⟩ : ∃ m, n = m + 1 := ⟨n - 1, by omega⟩
      have hn1 : s.nbr_points = (m : Int) + 1 := by rw [hn]; push_cast; rfl
      have hlt : (k : Int) < s.nbr_points := by rw [hn1]; omega
      obtain ⟨s1, i1, k1, n1, hbody, hwf1, hi1, hs1, hk1, hmeas⟩ :=
        body_step N body dt M step hb s k m hwf hn1 (by omega)
      obtain ⟨hmap, hmem⟩ := ih s1 k1 n1 hwf1 hs1 hk1 (by omega)
      have hsplit : m + 1 - k = (n1 - k1) + 1 := by omega
      have hN := hwf.2.2.2.2
      simp only [age_loop_trace, if_pos hlt, hbody, hi1]
      constructor
      · rw [List.map_cons, hmap, hsplit, List.range_succ_eq_map, List.map_cons, List.map_map]
        congr 1
        · simp only [hn1]
          omega
        · apply List.map_congr_left
          intro j _
          simp only [Function.comp, Nat.succ_eq_add_one]
          congr 1
          omega
      · intro e he
        rcases List.mem_cons.1 he with rfl | he
        · exact ⟨by positivity, hlt, hN⟩
        · exact hmem e he

end ParticleBuffer

namespace ParticleBuffer

theorem age_loop_counts (N : Nat)
    (body : ParticleBuffer → Int → Except Fault (ParticleBuffer × Int))
    (dt M : ℚ) (step : Particle → Particle) (hb : BodySpec N body dt M step)
    (s : ParticleBuffer) (n : Nat) (hwf : WF N s) (hn : s.nbr_points = (n : Int)) :
    (∀ fuel : Nat, n ≤ fuel →
      (∃ s1, age_loop body fuel s 0 = .ok s1) ∧
      (age_loop_trace body fuel s 0).length = n ∧
      (age_loop_trace body fuel s 0).map (fun e => e.2 - e.1) =
        (List.range n).map (fun j => ((n - j : Nat) : Int)) ∧
      (∀ e ∈ age_loop_trace body fuel s 0, 0 ≤ e.1 ∧ e.1 < e.2 ∧ e.2 ≤ (N : Int))) ∧
    (∀ fuel : Nat, fuel < n → age_loop body fuel s 0 = .error .out_of_fuel) := by
  constructor
  · intro fuel hfuel
    obtain ⟨s1, h1, -, -⟩ :=
      age_loop_spec N body dt M step hb fuel s 0 n hwf hn (Nat.zero_le _) (by omega)
    obtain ⟨hmap, hmem⟩ :=
      age_loop_trace_spec N body dt M step hb fuel s 0 n hwf hn (Nat.zero_le _) (by omega)
    simp only [Nat.cast_zero, Nat.sub_zero] at h1 hmap hmem
    refine ⟨⟨s1, h1⟩, ?_, hmap, hmem⟩
    have := congrArg List.length hmap
    simpa using this
  · intro fuel hfuel
    have := age_loop_out_of_fuel N body dt M step hb fuel s 0 n hwf hn (Nat.zero_le _)
      (by omega)
    simpa using this

/-- C21: on a well-formed buffer with `n` live particles the loops of `update` and
`update_explosion` terminate for every `dt`: with fuel for `n` executions of the body
they return, with less they run out of fuel, and the body is entered exactly `n` times;
at the `j`-th entry `nbr_points - i` equals `n - j` (it drops by one per iteration), and
the index satisfies `0 ≤ i < nbr_points ≤ capacity`. -/
theorem ageing_loops_terminate (N : Nat) (s : ParticleBuffer) (dt : ℚ) (n : Nat)
    (hwf : WF N s) (hn : s.nbr_points = (n : Int)) :
    ((∀ fuel : Nat, n ≤ fuel →
        (∃ s1, update fuel dt s = .ok s1) ∧
        (update_loop_trace dt fuel s 0).length = n ∧
        (update_loop_trace dt fuel s 0).map (fun e => e.2 - e.1) =
          (List.range n).map (fun j => ((n - j : Nat) : Int)) ∧
        (∀ e ∈ update_loop_trace dt fuel s 0, 0 ≤ e.1 ∧ e.1 < e.2 ∧ e.2 ≤ (N : Int))) ∧
      (∀ fuel : Nat, fuel < n → update fuel dt s = .error .out_of_fuel)) ∧
    ((∀ fuel : Nat, n ≤ fuel →
        (∃ s1, update_explosion fuel dt s = .ok s1) ∧
        (update_explosion_loop_trace dt fuel s 0).length = n ∧
        (update_explosion_loop_trace dt fuel s 0).map (fun e => e.2 - e.1) =
          (List.range n).map (fun j => ((n - j : Nat) : Int)) ∧
        (∀ e ∈ update_explosion_loop_trace dt fuel s 0,
          0 ≤ e.1 ∧ e.1 < e.2 ∧ e.2 ≤ (N : Int))) ∧
      (∀ fuel : Nat, fuel < n → update_explosion fuel dt s = .error .out_of_fuel)) := by
  have h1 := age_loop_counts N (update_body dt) dt (1 / 2) (update_step dt)
    (update_body_spec N dt) s n hwf hn
  have h2 := age_loop_counts N (update_explosion_body dt) dt (3 / 4) (update_explosion_step dt)
    (update_explosion_body_spec N dt) s n hwf hn
  constructor
  · constructor
    · intro fuel hfuel
      have := h1.1 fuel hfuel
      simpa only [update, update_loop_eq, update_loop_trace_eq] using this
    · intro fuel hfuel
      have := h1.2 fuel hfuel
      simpa only [update, update_loop_eq] using this
  · constructor
    · intro fuel hfuel
      have := h2.1 fuel hfuel
      simpa only [update_explosion, update_explosion_loop_eq, update_explosion_loop_trace_eq]
        using this
    · intro fuel hfuel
      have := h2.2 fuel hfuel
      simpa only [update_explosion, update_explosion_loop_eq] using this

/-- Witness of C21: a buffer of three live particles, with fuel 3 and with fuel 2. -/
theorem ageing_loops_terminate_witness :
    WF 3 demo_three ∧ demo_three.nbr_points = ((3 : Nat) : Int) ∧
    (∃ s1, update 3 (1 / 5) demo_three = .ok s1) ∧
    (update_loop_trace (1 / 5) 3 demo_three 0).length = 3 ∧
    update 2 (1 / 5) demo_three = .error .out_of_fuel ∧
    (∃ s1, update_explosion 3 (1 / 5) demo_three = .ok s1) ∧
    (update_explosion_loop_trace (1 / 5) 3 demo_three 0).length = 3 ∧
    update_explosion 2 (1 / 5) demo_three = .error .out_of_fuel :=
  ⟨by decide, by decide,
    ((ageing_loops_terminate 3 demo_three (1 / 5) 3 (by decide) (by decide)).1.1 3
      (le_refl _)).1,
    ((ageing_loops_terminate 3 demo_three (1 / 5) 3 (by decide) (by decide)).1.1 3
      (le_refl _)).2.1,
    (ageing_loops_terminate 3 demo_three (1 / 5) 3 (by decide) (by decide)).1.2 2 (by decide),
    ((ageing_loops_terminate 3 demo_three (1 / 5) 3 (by decide) (by decide)).2.1 3
      (le_refl _)).1,
    ((ageing_loops_terminate 3 demo_three (1 / 5) 3 (by decide) (by decide)).2.1 3
      (le_refl _)).2.1,
    (ageing_loops_terminate 3 demo_three (1 / 5) 3 (by decide) (by decide)).2.2 2 (by decide)⟩

end ParticleBuffer
